import Mathlib

/-!
NewChat: markup parser, line division and selection mapping

A shallow embedding of `src/Gunz/NewChat.cpp`.

* A `std::wstring` is the list of its `wchar_t` code units (`List Nat`).
* `std::wstring::npos` is `none`; positions are `Option Nat`.
* `size_t` subtraction that can wrap is written with `sizeSub` (modulo `2 ^ 64`).
* `int` values are `Int`; the `u16` and 15-bit fields of `LineSegmentInfo` are
  truncated explicitly.
* A `std::out_of_range` thrown by `std::wstring::at` is `none`.
-/

namespace NewChat

/-- A `std::wstring`: the list of its code units. -/
abbrev WString := List Nat

/-- The code units of a string literal (`L"..."`). -/
def wstr (s : String) : WString := s.toList.map Char.toNat

/-! ## `std::wstring` operations -/

/-- Index of the first element at or after offset `i` of the remaining list that satisfies `p`. -/
def findIdxFrom (p : Nat → Bool) : WString → Nat → Option Nat
  | [], _ => none
  | c :: cs, i => if p c then some i else findIdxFrom p cs (i + 1)

/-- The call `s.find_first_of(chars, pos)`. -/
def find_first_of (s : WString) (chars : WString) (pos : Nat) : Option Nat :=
  findIdxFrom (fun c => chars.contains c) (s.drop pos) pos

/-- The call `s.find(c, pos)` for a single character. -/
def find (s : WString) (c : Nat) (pos : Nat) : Option Nat :=
  findIdxFrom (fun d => d == c) (s.drop pos) pos

/-- The call `s.erase(pos, count)`. -/
def erase (s : WString) (pos count : Nat) : WString :=
  s.take pos ++ s.drop (pos + count)

/-- The call `s.replace(pos, count, r)`. -/
def replace (s : WString) (pos count : Nat) (r : WString) : WString :=
  s.take pos ++ r ++ s.drop (pos + count)

/-- The call `s.substr(pos, count)`. -/
def substr (s : WString) (pos count : Nat) : WString :=
  (s.drop pos).take count

/-- The modulus of `size_t` arithmetic. -/
def SIZE_MOD : Nat := 2 ^ 64

/-- Unsigned `size_t` subtraction `a - b`, which wraps around below zero. -/
def sizeSub (a b : Nat) : Nat := (a + SIZE_MOD - b) % SIZE_MOD

/-! ## Character classification (the "C" locale, ASCII) -/

/-- The C function `isdigit`. -/
def isdigit (c : Nat) : Bool := decide (48 ≤ c) && decide (c ≤ 57)

/-- The C function `tolower`. -/
def tolower (c : Nat) : Nat := if 65 ≤ c ∧ c ≤ 90 then c + 32 else c

/-- The lambda `ishexdigit` of `SubstituteFormatSpecifiers`. -/
def ishexdigit (c : Nat) : Bool :=
  let c := tolower c
  isdigit c || (decide (97 ≤ c) && decide (c ≤ 102))

/-! ## Data model -/

inductive FormatSpecifierType
  | Unknown
  | Wrap
  | Linebreak
  | Color
  | Default
  | Bold
  | Italic
  | BoldItalic
  | Underline
  | Strikethrough
  | Emoji
  deriving DecidableEq, Repr

/-- The struct `FormatSpecifier`.  The constructors that take no colour leave `Color`
indeterminate; it is never read for those kinds and is fixed to `0` here. -/
structure FormatSpecifier where
  nStartPos : Int
  ft : FormatSpecifierType
  Color : Nat
  EmojiName : WString
  deriving DecidableEq, Repr

/-- The constructor `FormatSpecifier(int nStart, D3DCOLOR c)`. -/
def FormatSpecifier.ofColor (nStart : Int) (c : Nat) : FormatSpecifier :=
  { nStartPos := nStart, ft := FormatSpecifierType.Color, Color := c, EmojiName := [] }

/-- The constructor `FormatSpecifier(int nStart, FormatSpecifierType type)`. -/
def FormatSpecifier.ofType (nStart : Int) (type : FormatSpecifierType) : FormatSpecifier :=
  { nStartPos := nStart, ft := type, Color := 0, EmojiName := [] }

/-- The constructor `FormatSpecifier(int nStart, std::wstring name)`. -/
def FormatSpecifier.ofEmoji (nStart : Int) (name : WString) : FormatSpecifier :=
  { nStartPos := nStart, ft := FormatSpecifierType.Emoji, Color := 0, EmojiName := name }

/-- The part of the external class `MBitmap` that the chat reads. -/
structure MBitmap where
  Width : Int
  Height : Int
  deriving DecidableEq, Repr

/-- The map `std::map<std::wstring, MBitmap*>`, as an association list. -/
abbrev EmojiMapType := List (WString × MBitmap)

/-- The call `EmojiMap.count(name)`, as a truth value. -/
def EmojiMapType.count (m : EmojiMapType) (name : WString) : Bool :=
  m.any (fun e => e.1 == name)

/-- The call `EmojiMap.find(name)`. -/
def EmojiMapType.find (m : EmojiMapType) (name : WString) : Option MBitmap :=
  (List.find? (fun e => e.1 == name) m).map Prod.snd

structure ChatMessage where
  Time : Nat
  OriginalMsg : WString
  ProcessedMsg : WString
  DefaultColor : Nat
  FormatSpecifiers : List FormatSpecifier
  Lines : Int
  deriving DecidableEq, Repr

/-! ## `ChatMessage::SubstituteFormatSpecifiers` -/

/-- The lambda `CharToFT`.  Its parameter has type `char`, so the wide character passed
to it is narrowed to its low eight bits first. -/
def CharToFT (c : Nat) : FormatSpecifierType :=
  let c := c % 256
  if c = 98 then FormatSpecifierType.Bold
  else if c = 105 then FormatSpecifierType.Italic
  else if c = 115 then FormatSpecifierType.Strikethrough
  else if c = 117 then FormatSpecifierType.Underline
  else FormatSpecifierType.Unknown

/-- The `while` loop that advances `ColorEnd` over at most eight hexadecimal digits. -/
def hexScan (s : WString) (ColorStart : Nat) : Nat → Nat → Nat
  | 0, ColorEnd => ColorEnd
  | fuel + 1, ColorEnd =>
    if ColorEnd < s.length ∧ ColorEnd - ColorStart < 8 ∧ ishexdigit (s.getD ColorEnd 0) = true then
      hexScan s ColorStart fuel (ColorEnd + 1)
    else ColorEnd

/-- The value of one hexadecimal digit. -/
def hexDigitValue (c : Nat) : Nat :=
  let c := tolower c
  if isdigit c then c - 48 else c - 97 + 10

/-- The calls `strncpy_safe(ColorString, &ProcessedMsg[ColorStart], Distance)` and
`wcstoul(ColorString, &endptr, 16)` followed by the cast to the 32-bit `D3DCOLOR`, on a run of
hexadecimal digits: the digits read as a base-16 number. -/
def parseHexColor (digits : WString) : Nat :=
  (digits.foldl (fun acc c => acc * 16 + hexDigitValue c) 0) % 2 ^ 32

/-- The lambda `Erase` applied to the message text. -/
def ChatMessage.Erase (m : ChatMessage) (Pos Count : Nat) : ChatMessage :=
  { m with ProcessedMsg := erase m.ProcessedMsg Pos Count }

/-- The call `FormatSpecifiers.emplace_back(...)`. -/
def ChatMessage.emplace_back (m : ChatMessage) (f : FormatSpecifier) : ChatMessage :=
  { m with FormatSpecifiers := m.FormatSpecifiers ++ [f] }

/-- One run of the body of the first `for` loop at position `Pos`; the second component is the
flag `Erased` at the end of the body.  `MMColorSet` is the external colour table. -/
def firstPassBody (MMColorSet : Nat → Nat) (m : ChatMessage) (Pos : Nat) : ChatMessage × Bool :=
  if Pos + 1 ≥ m.ProcessedMsg.length then (m, false)
  else
    let CurrentChar := m.ProcessedMsg.getD Pos 0
    if CurrentChar = 94 then
      let NextChar := m.ProcessedMsg.getD (Pos + 1) 0
      if isdigit NextChar = true then
        ((m.emplace_back (FormatSpecifier.ofColor Pos (MMColorSet (NextChar - 48)))).Erase Pos 2, true)
      else if NextChar = 35 then
        let ColorStart := Pos + 2
        let ColorEnd := hexScan m.ProcessedMsg ColorStart 8 ColorStart
        let Distance := ColorEnd - ColorStart
        if Distance = 8 then
          let Color := parseHexColor (substr m.ProcessedMsg ColorStart Distance)
          ((m.emplace_back (FormatSpecifier.ofColor Pos Color)).Erase Pos (ColorEnd - Pos), true)
        else (m, false)
      else (m, false)
    else if CurrentChar = 91 then
      match find_first_of m.ProcessedMsg [93] (Pos + 1) with
      | none => (m, false)
      | some EndBracket =>
        let Distance := EndBracket - Pos
        let m1 :=
          if m.ProcessedMsg.getD (Pos + 1) 0 = 47 ∧ (Distance = 2 ∨ Distance = 3) then
            m.emplace_back (FormatSpecifier.ofType Pos FormatSpecifierType.Default)
          else
            let ft := CharToFT (m.ProcessedMsg.getD (Pos + 1) 0)
            if ft ≠ FormatSpecifierType.Unknown then m.emplace_back (FormatSpecifier.ofType Pos ft)
            else m
        (m1.Erase Pos (Distance + 1), true)
    else (m, false)

/-- The first `for` loop, entered with the current value of `Pos` (`none` is `npos`).  Each
unit of fuel pays for one test of the loop condition. -/
def firstPassLoop (MMColorSet : Nat → Nat) : Nat → ChatMessage → Option Nat → Option ChatMessage
  | 0, _, _ => none
  | _, m, none => some m
  | fuel + 1, m, some Pos =>
    if Pos ≤ sizeSub m.ProcessedMsg.length 2 then
      let r := firstPassBody MMColorSet m Pos
      let next :=
        if Pos < r.1.ProcessedMsg.length then
          find_first_of r.1.ProcessedMsg [94, 91] (if r.2 then Pos else Pos + 1)
        else none
      firstPassLoop MMColorSet fuel r.1 next
    else some m

/-- The emoji `while` loop, entered with the current value of `SearchPos`. -/
def secondPassLoop (EmojiMap : EmojiMapType) : Nat → ChatMessage → Nat → Option ChatMessage
  | 0, _, _ => none
  | fuel + 1, m, SearchPos =>
    match find m.ProcessedMsg 58 SearchPos with
    | none => some m
    | some SearchPos =>
      match find m.ProcessedMsg 58 (SearchPos + 1) with
      | none => some m
      | some EndPos =>
        let EmojiName := substr m.ProcessedMsg (SearchPos + 1) (EndPos - (SearchPos + 1))
        if EmojiName ≠ [] ∧ EmojiMap.count EmojiName = true then
          let text :=
            if EndPos = sizeSub m.ProcessedMsg.length 1 then
              replace m.ProcessedMsg SearchPos (EndPos - SearchPos + 1) [0xFFFC, 32]
            else
              replace m.ProcessedMsg SearchPos (EndPos - SearchPos + 1) [0xFFFC]
          let m1 := { m with ProcessedMsg := text }
          secondPassLoop EmojiMap fuel (m1.emplace_back (FormatSpecifier.ofEmoji SearchPos EmojiName))
            (SearchPos + 1)
        else secondPassLoop EmojiMap fuel m (SearchPos + 1)

/-- The method `ChatMessage::SubstituteFormatSpecifiers`.  The first loop either erases at
least two characters or moves `Pos` forward, the second always moves `SearchPos` forward, which
bounds the number of iterations by the fuel given here. -/
def SubstituteFormatSpecifiers (MMColorSet : Nat → Nat) (EmojiMap : EmojiMapType)
    (m : ChatMessage) : Option ChatMessage :=
  match firstPassLoop MMColorSet (2 * m.ProcessedMsg.length + 2) m
      (find_first_of m.ProcessedMsg [94, 91] 0) with
  | none => none
  | some m1 => secondPassLoop EmojiMap (m1.ProcessedMsg.length + 1) m1 0

/-- A freshly received message: the text to parse and an empty annotation list. -/
def ChatMessage.ofText (text : WString) (DefaultColor : Nat) : ChatMessage :=
  { Time := 0, OriginalMsg := text, ProcessedMsg := text, DefaultColor := DefaultColor,
    FormatSpecifiers := [], Lines := 0 }

/-- Parsing a text: the processed text and the annotation list that
`SubstituteFormatSpecifiers` leaves on a fresh message. -/
def parse (MMColorSet : Nat → Nat) (EmojiMap : EmojiMapType) (text : WString) :
    Option (WString × List FormatSpecifier) :=
  (SubstituteFormatSpecifiers MMColorSet EmojiMap (ChatMessage.ofText text 0)).map
    (fun m => (m.ProcessedMsg, m.FormatSpecifiers))

/-! ## Line division -/

namespace EmphasisType

def Default : Nat := 0
def Italic : Nat := 1
def Bold : Nat := 2
def Underline : Nat := 4
def Strikethrough : Nat := 8

end EmphasisType

/-- Conversion of an `int` to `u16`. -/
def u16 (x : Int) : Int := x % 65536

/-- Conversion of a `u32` to the 15-bit field `Emphasis`. -/
def u15 (x : Nat) : Nat := x % 32768

inductive SegmentType
  | Text
  | Emoji
  deriving DecidableEq, Repr

/-- The struct `LineSegmentInfo`; `SegType` is its member `Type`. -/
structure LineSegmentInfo where
  SegType : SegmentType
  pEmojiBitmap : Option MBitmap
  ChatMessageIndex : Int
  Offset : Int
  LengthInCharacters : Int
  PixelOffsetX : Int
  IsStartOfLine : Bool
  Emphasis : Nat
  TextColor : Nat
  deriving DecidableEq, Repr

/-- The value-initialised `LineSegmentInfo{}`. -/
def LineSegmentInfo.zero : LineSegmentInfo :=
  { SegType := SegmentType.Text, pEmojiBitmap := none, ChatMessageIndex := 0, Offset := 0,
    LengthInCharacters := 0, PixelOffsetX := 0, IsStartOfLine := false, Emphasis := 0,
    TextColor := 0 }

structure D3DRECT where
  x1 : Int
  y1 : Int
  x2 : Int
  y2 : Int
  deriving DecidableEq, Repr

/-- The members of `Chat` that layout and selection read.  `CharWidth c` is
`DefaultFont.GetWidth(p, 1)` for a pointer `p` to the character `c`; `EmojiWidth h b` is the
`int` that the float expression `b.GetWidth() * (float(h) / b.GetHeight())` converts to. -/
structure Chat where
  Border : D3DRECT
  FontHeight : Int
  CharWidth : Nat → Int
  m_EmojiMap : EmojiMapType
  EmojiWidth : Int → MBitmap → Int

/-- The method `ChatMessage::ClearWrappingLineBreaks`, on the annotation list. -/
def ClearWrappingLineBreaks (l : List FormatSpecifier) : List FormatSpecifier :=
  l.filter (fun x => !(x.ft == FormatSpecifierType.Wrap))

/-- The method `ChatMessage::GetLineBreak`, entered at the list position reached with counter `i`;
`none` is the null pointer. -/
def GetLineBreakFrom (n : Int) : List FormatSpecifier → Int → Option FormatSpecifier
  | [], _ => none
  | f :: rest, i =>
    if f.ft = FormatSpecifierType.Wrap ∨ f.ft = FormatSpecifierType.Linebreak then
      if i = n then some f else GetLineBreakFrom n rest (i + 1)
    else GetLineBreakFrom n rest i

/-- The method `ChatMessage::GetLineBreak`. -/
def ChatMessage.GetLineBreak (m : ChatMessage) (n : Int) : Option FormatSpecifier :=
  GetLineBreakFrom n m.FormatSpecifiers 0

/-- The reverse scan of `AddWrappingLineBreak`: `k` is the forward index of `it.base()` for the
reverse iterator at the head of the reversed list; the result is the insertion index, `0`
(`begin()`) when no element has `nStartPos < n`. -/
def wrapInsertIndex (n : Int) : List FormatSpecifier → Nat → Nat
  | [], _ => 0
  | f :: rest, k => if f.nStartPos < n then k else wrapInsertIndex n rest (k - 1)

/-- The method `ChatMessage::AddWrappingLineBreak`, on the annotation list: the new list and the
index of the inserted element (the returned iterator).  The `assert` is compiled out. -/
def AddWrappingLineBreak (l : List FormatSpecifier) (n : Int) : List FormatSpecifier × Nat :=
  let n := if n < 0 then 0 else n
  if l = [] then ([FormatSpecifier.ofType n FormatSpecifierType.Wrap], 0)
  else
    let i := wrapInsertIndex n l.reverse l.length
    (l.take i ++ [FormatSpecifier.ofType n FormatSpecifierType.Wrap] ++ l.drop i, i)

/-- The struct `LineDivisionState`; `Output` collects what is written through
`OutputIterator`. -/
structure LineDivisionState where
  Output : List LineSegmentInfo
  CurLineSegmentInfo : LineSegmentInfo
  ChatMessageIndex : Int
  MsgIndex : Int
  Lines : Int
  CurrentLinePixelLength : Int
  CurTextColor : Nat
  CurEmphasis : Nat
  deriving DecidableEq, Repr

/-- The method `LineDivisionState::AddSegment`. -/
def LineDivisionState.AddSegment (S : LineDivisionState) (IsEndOfLine : Bool) :
    LineDivisionState :=
  let Cur := { S.CurLineSegmentInfo with
    LengthInCharacters := u16 (S.MsgIndex - S.CurLineSegmentInfo.Offset) }
  let Output := if Cur.LengthInCharacters > 0 then S.Output ++ [Cur] else S.Output
  let CurrentLinePixelLength := if IsEndOfLine then 0 else S.CurrentLinePixelLength
  let Lines := if IsEndOfLine then S.Lines + 1 else S.Lines
  { S with
    Output := Output
    CurrentLinePixelLength := CurrentLinePixelLength
    Lines := Lines
    CurLineSegmentInfo :=
      { LineSegmentInfo.zero with
        ChatMessageIndex := S.ChatMessageIndex
        Offset := u16 S.MsgIndex
        PixelOffsetX := u16 CurrentLinePixelLength
        IsStartOfLine := decide (CurrentLinePixelLength = 0)
        TextColor := S.CurTextColor
        Emphasis := u15 S.CurEmphasis } }

/-- The method `LineDivisionState::HandleFormatSpecifier`. -/
def LineDivisionState.HandleFormatSpecifier (S : LineDivisionState) (FormatSpec : FormatSpecifier) :
    LineDivisionState :=
  if FormatSpec.ft = FormatSpecifierType.Linebreak then S.AddSegment true
  else
    let S1 : LineDivisionState :=
      match FormatSpec.ft with
      | FormatSpecifierType.Color => { S with CurTextColor := FormatSpec.Color }
      | FormatSpecifierType.Default => { S with CurEmphasis := EmphasisType.Default }
      | FormatSpecifierType.Bold => { S with CurEmphasis := S.CurEmphasis ||| EmphasisType.Bold }
      | FormatSpecifierType.Italic => { S with CurEmphasis := S.CurEmphasis ||| EmphasisType.Italic }
      | FormatSpecifierType.Underline =>
        { S with CurEmphasis := S.CurEmphasis ||| EmphasisType.Underline }
      | FormatSpecifierType.Strikethrough =>
        { S with CurEmphasis := S.CurEmphasis ||| EmphasisType.Strikethrough }
      | _ => S
    if S1.MsgIndex - S1.CurLineSegmentInfo.Offset = 0 then
      { S1 with CurLineSegmentInfo :=
          { S1.CurLineSegmentInfo with TextColor := S1.CurTextColor, Emphasis := u15 S1.CurEmphasis } }
    else S1.AddSegment false

/-- The local `MaxLineLength` of `DivideIntoLines`. -/
def Chat.MaxLineLength (chat : Chat) : Int := (chat.Border.x2 - 5) - (chat.Border.x1 + 5)

/-- The emoji branch of the annotation loop, after `State.AddSegment(false)`. -/
def placeEmoji (chat : Chat) (S : LineDivisionState) (f : FormatSpecifier) : LineDivisionState :=
  match chat.m_EmojiMap.find f.EmojiName with
  | none => S
  | some pBitmap =>
    let EmojiHeight := chat.FontHeight
    let EmojiWidth := chat.EmojiWidth EmojiHeight pBitmap
    let S1 :=
      if S.CurrentLinePixelLength ≠ 0 ∧ S.CurrentLinePixelLength + EmojiWidth > chat.MaxLineLength then
        { S with CurrentLinePixelLength := 0, Lines := S.Lines + 1 }
      else S
    let EmojiSegment : LineSegmentInfo :=
      { LineSegmentInfo.zero with
        SegType := SegmentType.Emoji
        pEmojiBitmap := some pBitmap
        ChatMessageIndex := S1.ChatMessageIndex
        Offset := u16 S1.MsgIndex
        LengthInCharacters := 1
        PixelOffsetX := u16 S1.CurrentLinePixelLength
        IsStartOfLine := decide (S1.CurrentLinePixelLength = 0) }
    let CurrentLinePixelLength := S1.CurrentLinePixelLength + EmojiWidth
    { S1 with
      Output := S1.Output ++ [EmojiSegment]
      CurrentLinePixelLength := CurrentLinePixelLength
      CurLineSegmentInfo :=
        { S1.CurLineSegmentInfo with
          Offset := u16 (S1.MsgIndex + 1)
          PixelOffsetX := u16 CurrentLinePixelLength } }

/-- The inner `while` loop of `DivideIntoLines` over the annotations from `FormatIterator` on
(the first argument is the list from that iterator to the end): the state, the index of
`FormatIterator` and the flag `bHandledAsObject` when the loop ends. -/
def handleSpecifiers (chat : Chat) :
    List FormatSpecifier → LineDivisionState → Nat → Bool → LineDivisionState × Nat × Bool
  | [], S, it, handled => (S, it, handled)
  | f :: rest, S, it, handled =>
    if f.nStartPos = S.MsgIndex then
      if f.ft = FormatSpecifierType.Emoji then
        handleSpecifiers chat rest (placeEmoji chat (S.AddSegment false) f) (it + 1) true
      else
        handleSpecifiers chat rest (S.HandleFormatSpecifier f) (it + 1) handled
    else (S, it, handled)

/-- The state of the `for` loop of `DivideIntoLines`: the annotation list of the message, the
index of `FormatIterator` in it and the division state. -/
structure DivideState where
  FormatSpecifiers : List FormatSpecifier
  FormatIterator : Nat
  State : LineDivisionState
  deriving DecidableEq, Repr

/-- One run of the body of the `for` loop of `DivideIntoLines`, followed by `++State.MsgIndex`. -/
def divideStep (chat : Chat) (ProcessedMsg : WString) (d : DivideState) : DivideState :=
  let r := handleSpecifiers chat (d.FormatSpecifiers.drop d.FormatIterator) d.State
    d.FormatIterator false
  let S := r.1
  if r.2.2 then
    { d with FormatIterator := r.2.1, State := { S with MsgIndex := S.MsgIndex + 1 } }
  else
    let CharWidth := chat.CharWidth (ProcessedMsg.getD S.MsgIndex.toNat 0)
    if S.CurrentLinePixelLength + CharWidth > chat.MaxLineLength then
      let a := AddWrappingLineBreak d.FormatSpecifiers S.MsgIndex
      let S1 := S.AddSegment true
      { FormatSpecifiers := a.1, FormatIterator := a.2 + 1,
        State := { S1 with CurrentLinePixelLength := S1.CurrentLinePixelLength + CharWidth,
                           MsgIndex := S1.MsgIndex + 1 } }
    else
      { d with FormatIterator := r.2.1,
               State := { S with CurrentLinePixelLength := S.CurrentLinePixelLength + CharWidth,
                                 MsgIndex := S.MsgIndex + 1 } }

/-- The `for` loop of `DivideIntoLines`: `State.MsgIndex` runs from `0` to the length of the
text in steps of one, so the body runs once per character; the first argument counts the
characters still to visit. -/
def divideLoop (chat : Chat) (ProcessedMsg : WString) : Nat → DivideState → DivideState
  | 0, d => d
  | n + 1, d => divideLoop chat ProcessedMsg n (divideStep chat ProcessedMsg d)

/-- The method `Chat::DivideIntoLines` on the message `cl` of index `ChatMessageIndex`: the
message it leaves and the segments it writes to the output iterator. -/
def DivideIntoLines (chat : Chat) (cl : ChatMessage) (ChatMessageIndex : Int) :
    ChatMessage × List LineSegmentInfo :=
  let specs := ClearWrappingLineBreaks cl.FormatSpecifiers
  let State : LineDivisionState :=
    { Output := []
      CurLineSegmentInfo :=
        { LineSegmentInfo.zero with
          ChatMessageIndex := ChatMessageIndex
          Offset := 0
          PixelOffsetX := 0
          IsStartOfLine := true
          TextColor := cl.DefaultColor
          Emphasis := EmphasisType.Default }
      ChatMessageIndex := ChatMessageIndex
      MsgIndex := 0
      Lines := 0
      CurrentLinePixelLength := 0
      CurTextColor := cl.DefaultColor
      CurEmphasis := EmphasisType.Default }
  let d := divideLoop chat cl.ProcessedMsg cl.ProcessedMsg.length
    { FormatSpecifiers := specs, FormatIterator := 0, State := State }
  let S := d.State.AddSegment true
  ({ cl with FormatSpecifiers := d.FormatSpecifiers, Lines := S.Lines }, S.Output)

/-! ## Offset to coordinate and back -/

/-- Modelled from the spec: `MFontR2::GetWidth` on a whole string, which is not part of the
sources at hand; the spec measures a string as the sum of the per-character advance widths. -/
def Chat.GetWidth (chat : Chat) (s : WString) : Int :=
  (s.map chat.CharWidth).sum

/-- The string that `vsprintf_safe` leaves in the buffer `wchar_t buf[1024]` of
`Chat::GetTextLength` for a format `<pre>%.*s<post>` with precision `n` and string argument `p`:
the argument ends at its first NUL, at most `n` of its characters are taken, and the buffer
holds at most 1023 characters. -/
def formatPrecS (pre : WString) (n : Nat) (p : WString) (post : WString) : WString :=
  (pre ++ (p.takeWhile (fun c => c != 0)).take n ++ post).take 1023

/-- The method `Chat::GetTextLen(ChatMessage&, int, int)`; `none` is the exception of
`ProcessedMsg.at(Pos)`. -/
def Chat.GetTextLen (chat : Chat) (cl : ChatMessage) (Pos : Int) (Count : Int) : Option Int :=
  if 0 ≤ Pos ∧ Pos < cl.ProcessedMsg.length then
    some (chat.GetWidth (formatPrecS [95] Count.toNat (cl.ProcessedMsg.drop Pos.toNat) [95])
      - chat.GetWidth [95, 95])
  else none

/-- The loop of `Chat::GetPos` that counts the line breaks at or before `Pos`; the first argument
counts the iterations left, the second is `i`, which equals `nLine` throughout.  `none` is the
dereference of a null `GetLineBreak(i)`. -/
def GetPosLineLoop (c : ChatMessage) (Pos : Int) : Nat → Int → Option Int
  | 0, i => some i
  | n + 1, i =>
    match c.GetLineBreak i with
    | none => none
    | some f => if Pos < f.nStartPos then some i else GetPosLineLoop c Pos n (i + 1)

/-- The part of `Chat::GetPos` that runs once the message `c` is found in the window
(lines 559 to 581): the line index `nLine` that enters the vertical coordinate and the
horizontal coordinate relative to `Output.x1 + 5`.  `none` is a null dereference or the
exception of `ProcessedMsg.at(nOffset)`. -/
def GetPosInMessage (chat : Chat) (c : ChatMessage) (Pos : Nat) : Option (Int × Int) :=
  let r : Option (Int × Int) :=
    if c.Lines = 1 then some (0, 0)
    else
      match GetPosLineLoop c Pos (c.Lines - 1).toNat 0 with
      | none => none
      | some nLine =>
        if nLine > 0 then
          match c.GetLineBreak (nLine - 1) with
          | none => none
          | some f => some (nLine, f.nStartPos)
        else some (nLine, 0)
  match r with
  | none => none
  | some (nLine, nOffset) =>
    if 0 ≤ nOffset ∧ nOffset < c.ProcessedMsg.length then
      some (nLine,
        chat.GetWidth (formatPrecS [] ((Pos : Int) - nOffset).toNat
          (c.ProcessedMsg.drop nOffset.toNat) [95]) - chat.GetWidth [95])
    else none

/-- The `while` loop of the selection hit-test of `Chat::OnUpdate`: `Len` and `Pos` when it ends.
`Pos` grows by one per iteration and the loop stops at the length of the text, which the first
argument counts down to. -/
def hitTestWalk (chat : Chat) (cl : ChatMessage) (x : Int) : Nat → Int → Int → Option (Int × Int)
  | 0, Len, Pos => some (Len, Pos)
  | n + 1, Len, Pos =>
    if x > Len ∧ Pos < cl.ProcessedMsg.length then
      match chat.GetTextLen cl Pos 1 with
      | none => none
      | some w => hitTestWalk chat cl x n (Len + w) (Pos + 1)
    else some (Len, Pos)

/-- The selection hit-test of `Chat::OnUpdate` inside the message `cl` that the walk over the
messages has picked (lines 1177 to 1186, and the same code at 1205 to 1215): `RelLine` is
`Line - (CurLine - cl.GetLines())` and `x` is `Cursor.x - (Output.x1 + 5)`; the result is the
value stored in `SelectionState.FromPos`. -/
def hitTestInMessage (chat : Chat) (cl : ChatMessage) (RelLine : Int) (x : Int) : Option Int :=
  let start : Option Int :=
    if RelLine = 0 then some 0
    else (cl.GetLineBreak (RelLine - 1)).map (fun f => f.nStartPos)
  match start with
  | none => none
  | some Pos0 =>
    match hitTestWalk chat cl x ((cl.ProcessedMsg.length : Int) - Pos0).toNat 0 Pos0 with
    | none => none
    | some (Len, Pos1) =>
      let Pos := Pos1 - 1
      match chat.GetTextLen cl Pos 1 with
      | none => none
      | some w => if Len - Int.tdiv w 2 > x then some (Pos - 1) else some Pos

/-! ## Properties of annotation lists and texts used in the statements -/

/-- The annotation list is ordered by non-decreasing position. -/
def positionsSorted (l : List FormatSpecifier) : Prop :=
  List.Pairwise (fun a b => a.nStartPos ≤ b.nStartPos) l

instance (l : List FormatSpecifier) : Decidable (positionsSorted l) := by
  unfold positionsSorted; infer_instance

/-- Every annotation position is a valid index into `text` (the end included). -/
def positionsValid (text : WString) (l : List FormatSpecifier) : Prop :=
  ∀ f ∈ l, 0 ≤ f.nStartPos ∧ f.nStartPos ≤ (text.length : Int)

instance (text : WString) (l : List FormatSpecifier) : Decidable (positionsValid text l) := by
  unfold positionsValid; infer_instance

/-- No line of the laid-out message holds more than `N` characters.  Line `i` (line 0, and every
line index below `Lines`) runs from its first offset `a`, which is 0 for line 0 and the position
of the line break `i - 1` otherwise, to `b`, the position of the line break `i`, or the length
of the text when `i` is the last line; the bound is `b - a ≤ N`. -/
def ChatMessage.linesAtMost (c : ChatMessage) (N : Int) : Prop :=
  ∀ (i a b : Int), 0 ≤ i → (i = 0 ∨ i < c.Lines) →
    (if i = 0 then some (0 : Int)
      else (c.GetLineBreak (i - 1)).map (fun f => f.nStartPos)) = some a →
    (if i < c.Lines - 1 then (c.GetLineBreak i).map (fun f => f.nStartPos)
      else some (c.ProcessedMsg.length : Int)) = some b →
    b - a ≤ N

/-- The text contains none of the characters `^`, `[`, `]` and `:`. -/
def plain (s : WString) : Prop :=
  ∀ c ∈ s, c ≠ 94 ∧ c ≠ 91 ∧ c ≠ 93 ∧ c ≠ 58

instance (s : WString) : Decidable (plain s) := by
  unfold plain; infer_instance

/-! ## Sample collaborators for the concrete evaluations -/

/-- An emoji table that registers the name `cool`, as `Chat::InitializeEmojis` does. -/
def sampleEmojiMap : EmojiMapType := [(wstr "cool", { Width := 32, Height := 32 })]

/-- A colour table with ten distinct opaque colours. -/
def samplePalette (d : Nat) : Nat := 0xFF000000 + d

/-- A chat window that is 20 pixels wide inside its border, with every character 10 pixels
wide. -/
def sampleChat : Chat :=
  { Border := { x1 := 0, y1 := 0, x2 := 30, y2 := 100 }, FontHeight := 16,
    CharWidth := fun _ => 10, m_EmojiMap := sampleEmojiMap, EmojiWidth := fun h _ => h }

/-! ## Texts without a complete token -/

/-- No colour token: no `^` is followed by a decimal digit, or by `#` and eight hexadecimal
digits. -/
def noColorToken (s : WString) : Prop :=
  ∀ i < s.length, s.getD i 0 = 94 →
    isdigit (s.getD (i + 1) 0) = false ∧
    (s.getD (i + 1) 0 = 35 →
      ¬ (i + 10 ≤ s.length ∧ ∀ j < 8, ishexdigit (s.getD (i + 2 + j) 0) = true))

/-- No bracket token: no `[` has a `]` anywhere behind it. -/
def noBracketToken (s : WString) : Prop :=
  ∀ i < s.length, ∀ j < s.length, i < j → s.getD i 0 = 91 → s.getD j 0 ≠ 93

instance (s : WString) : Decidable (noColorToken s) := by
  unfold noColorToken; infer_instance

instance (s : WString) : Decidable (noBracketToken s) := by
  unfold noBracketToken; infer_instance

/-- No `:` lies strictly between the positions `i` and `j`. -/
def colonFreeBetween (s : WString) (i j : Nat) : Prop :=
  ∀ k < j, i < k → s.getD k 0 ≠ 58

instance (s : WString) (i j : Nat) : Decidable (colonFreeBetween s i j) := by
  unfold colonFreeBetween; infer_instance

/-- No emoji token: whenever two `:` enclose a run without `:`, the run is empty or not a
registered name. -/
def noEmojiToken (E : EmojiMapType) (s : WString) : Prop :=
  ∀ i < s.length, ∀ j < s.length,
    (i < j ∧ s.getD i 0 = 58 ∧ s.getD j 0 = 58 ∧ colonFreeBetween s i j) →
    (j = i + 1 ∨ E.count (substr s (i + 1) (j - (i + 1))) = false)

instance (E : EmojiMapType) (s : WString) : Decidable (noEmojiToken E s) := by
  unfold noEmojiToken; infer_instance

/-- The text holds no complete colour, bracket or emoji token. -/
def tokenFree (E : EmojiMapType) (s : WString) : Prop :=
  noColorToken s ∧ noBracketToken s ∧ noEmojiToken E s

instance (E : EmojiMapType) (s : WString) : Decidable (tokenFree E s) := by
  unfold tokenFree; infer_instance

/-! ## `Chat::GetPos` -/

structure v2i where
  x : Int
  y : Int
  deriving DecidableEq, Repr

/-- The struct `ChatTab` with the default member initialisers of the header; `GetPos` reads
`Messages` only. -/
structure ChatTab where
  Name : WString := []
  Messages : List ChatMessage
  LineSegments : List LineSegmentInfo := []
  UnreadCount : Int := 0
  TotalLinesInHistory : Int := 0
  ScrollOffsetLines : Int := 0
  bHasBeenAcknowledged : Bool := false
  bLayoutIsDirty : Bool := true
  deriving DecidableEq, Repr

/-- The method `Chat::GetOutputRect`. -/
def Chat.GetOutputRect (chat : Chat) : D3DRECT :=
  { x1 := chat.Border.x1, y1 := chat.Border.y1, x2 := chat.Border.x2,
    y2 := chat.Border.y2 - chat.FontHeight }

/-- The conversion to `int` of the `double` expression `a - FontHeight * .5` for an `int` `a`:
the product and the difference are exact, the conversion truncates toward zero. -/
def minusHalf (a FontHeight : Int) : Int := Int.tdiv (2 * a - FontHeight) 2

/-- The `for` loop of `Chat::GetPos` over the messages of the tab, newest first.  The first
argument is `i + 1` for the loop variable `i` (`0` once `i` is `-1`), the second is `nLines`.
`cIndex` is the index at which the object `c` sits in `tab.Messages`, `none` when `c` is not
an element of the tab: the test `&c == &cl` is `cIndex = some i`. -/
def GetPosWalk (chat : Chat) (tab : ChatTab) (c : ChatMessage) (cIndex : Option Nat) (Pos : Nat)
    (Limit : Int) : Nat → Int → Option (Bool × v2i)
  | 0, _ => some (false, { x := 0, y := 0 })
  | i + 1, nLines =>
    if nLines < Limit then
      match tab.Messages[i]? with
      | none => none
      | some cl =>
        if cIndex = some i then
          match GetPosInMessage chat c Pos with
          | none => none
          | some (nLine, x) =>
            some (true,
              { x := chat.GetOutputRect.x1 + 5 + x,
                y := minusHalf (chat.GetOutputRect.y2 - 5 - (nLines - nLine) * chat.FontHeight)
                  chat.FontHeight })
        else GetPosWalk chat tab c cIndex Pos Limit i (nLines + cl.Lines)
    else some (false, { x := 0, y := 0 })

/-- The method `Chat::GetPos` for the message object `c` (see `GetPosWalk` for `cIndex`).
`none` is an exception, a null dereference or the division by a zero `FontHeight`. -/
def GetPos (chat : Chat) (tab : ChatTab) (c : ChatMessage) (cIndex : Option Nat) (Pos : Nat) :
    Option (Bool × v2i) :=
  if Pos > c.ProcessedMsg.length then some (false, { x := 0, y := 0 })
  else if chat.FontHeight = 0 then none
  else
    let Output := chat.GetOutputRect
    let Limit := Int.tdiv (Output.y2 - Output.y1 - 10) chat.FontHeight
    GetPosWalk chat tab c cIndex Pos Limit tab.Messages.length 0

/-! ## The wrap rule in the spec's words -/

/-- Following the spec: walking the characters of a line-wrapped text from index `i` on with
`cur` pixels already on the current line, a break is forced at a character exactly when `cur`
plus the advance width of that character is strictly greater than the wrap width `W`; the
character then starts the new line.  The result lists the indices of the forced breaks. -/
def wrapBreaksSpec (advanceWidth : Nat → Int) (W : Int) : WString → Nat → Int → List Nat
  | [], _, _ => []
  | c :: cs, i, cur =>
    if cur + advanceWidth c > W then
      i :: wrapBreaksSpec advanceWidth W cs (i + 1) (advanceWidth c)
    else wrapBreaksSpec advanceWidth W cs (i + 1) (cur + advanceWidth c)

/-- The `Wrap` annotation that `AddWrappingLineBreak` builds for the character index `i`. -/
def wrapAt (i : Nat) : FormatSpecifier :=
  FormatSpecifier.ofType (Int.ofNat i) FormatSpecifierType.Wrap

/-- The annotation list holds no `Wrap` annotation. -/
def noWrap (l : List FormatSpecifier) : Prop :=
  ∀ f ∈ l, f.ft ≠ FormatSpecifierType.Wrap

instance (l : List FormatSpecifier) : Decidable (noWrap l) := by
  unfold noWrap; infer_instance

/-- A chat window that is 100 pixels wide inside its border, with every character 10 pixels
wide and a font height of 16 (so a square emoji is 16 pixels wide). -/
def sampleWideChat : Chat :=
  { Border := { x1 := 0, y1 := 0, x2 := 110, y2 := 100 }, FontHeight := 16,
    CharWidth := fun _ => 10, m_EmojiMap := sampleEmojiMap, EmojiWidth := fun h _ => h }

/-- The message that `SubstituteFormatSpecifiers` leaves for a text, with the sample colour and
emoji tables (the untouched message if the parser were to run out of fuel, which it cannot). -/
def sampleParsed (text : WString) : ChatMessage :=
  (SubstituteFormatSpecifiers samplePalette sampleEmojiMap (ChatMessage.ofText text 7)).getD
    (ChatMessage.ofText text 7)

/-! ## Drawing slots -/

/-- The function `GetDrawLinesRect`. -/
def GetDrawLinesRect (OutputRect : D3DRECT) (LinesDrawn : Int) (PixelOffset : v2i)
    (FontHeight : Int) : D3DRECT :=
  { x1 := OutputRect.x1 + 5 + PixelOffset.x,
    y1 := OutputRect.y2 - 5 - ((LinesDrawn + 1) * FontHeight) + PixelOffset.y,
    x2 := OutputRect.x2 - 5,
    y2 := OutputRect.y2 - 5 }

/-- The loop of `Chat::DrawChatLines` over the reversed segment list while input is enabled (the
fade test never leaves the loop): each drawn segment with the rectangle `Rect` it is drawn in.
The first list argument is the range the loop runs over, newest segment first, the `Int` is
`LinesDrawn`. -/
def DrawChatLinesLoop (chat : Chat) (ChatLinesPixelOffsetY : Int) (Limit : Int) :
    List LineSegmentInfo → Int → List (LineSegmentInfo × D3DRECT)
  | [], _ => []
  | LineSegment :: rest, LinesDrawn =>
    let Rect := GetDrawLinesRect chat.GetOutputRect LinesDrawn
      { x := LineSegment.PixelOffsetX, y := ChatLinesPixelOffsetY } chat.FontHeight
    (LineSegment, Rect) ::
      (if LineSegment.IsStartOfLine then
        if LinesDrawn + 1 ≥ Limit then []
        else DrawChatLinesLoop chat ChatLinesPixelOffsetY Limit rest (LinesDrawn + 1)
      else DrawChatLinesLoop chat ChatLinesPixelOffsetY Limit rest LinesDrawn)

/-- The method `Chat::DrawChatLines` at rest (`ChatLinesPixelOffsetY = 0`,
`NumNewlyAddedLines = 0`, so `MessagesOffset = 0`) with input enabled: the drawn segments and
their rectangles. -/
def DrawChatLines (chat : Chat) (tab : ChatTab) (Limit : Int) : List (LineSegmentInfo × D3DRECT) :=
  DrawChatLinesLoop chat 0 Limit (tab.LineSegments.reverse.drop tab.ScrollOffsetLines.toNat) 0

/-! ## Appending a message and the layout of a dirty tab -/

/-- Following the spec: walking the characters of a line from its first offset `i` on with the
width `acc` accumulated so far, the hit-test picks the first character whose accumulated width
exceeds `pixelX`, unless half of that character's own width (integer division) is less than the
excess of the accumulated width over `pixelX`, in which case it picks the character before.
`none` when no character's accumulated width exceeds `pixelX`. -/
def hitTestSpec (advanceWidth : Nat → Int) (pixelX : Int) : WString → Int → Int → Option Int
  | [], _, _ => none
  | c :: cs, i, acc =>
    if acc + advanceWidth c > pixelX then
      if Int.tdiv (advanceWidth c) 2 < acc + advanceWidth c - pixelX then some (i - 1) else some i
    else hitTestSpec advanceWidth pixelX cs (i + 1) (acc + advanceWidth c)

/-! ## Properties of the segments and of parsed annotation lists -/

/-- The segments cover the offsets from `start` to `stop` without gap or overlap: the first
segment starts at `start`, each following segment starts where the one before it ends, every
length is at least 1, and the last segment ends at `stop`. -/
def segmentsPartition : List LineSegmentInfo → Int → Int → Prop
  | [], start, stop => start = stop
  | s :: rest, start, stop =>
    s.Offset = start ∧ 1 ≤ s.LengthInCharacters
      ∧ segmentsPartition rest (start + s.LengthInCharacters) stop

instance : ∀ (l : List LineSegmentInfo) (a b : Int), Decidable (segmentsPartition l a b)
  | [], a, b => by unfold segmentsPartition; infer_instance
  | s :: rest, a, b => by
    unfold segmentsPartition
    have := instDecidableSegmentsPartition rest (a + s.LengthInCharacters) b
    infer_instance

/-- The rendered width of the content of a segment: the sum of the advance widths of its
characters for a text segment, the width the emoji is drawn with for an emoji segment. -/
def Chat.segmentWidth (chat : Chat) (text : WString) (s : LineSegmentInfo) : Int :=
  match s.SegType with
  | SegmentType.Text =>
    chat.GetWidth ((text.drop s.Offset.toNat).take s.LengthInCharacters.toNat)
  | SegmentType.Emoji =>
    match s.pEmojiBitmap with
    | some pBitmap => chat.EmojiWidth chat.FontHeight pBitmap
    | none => 0

/-- The annotation list holds no `Wrap`, `Linebreak` or `Emoji` annotation. -/
def styleOnly (l : List FormatSpecifier) : Prop :=
  ∀ f ∈ l, f.ft ≠ FormatSpecifierType.Wrap ∧ f.ft ≠ FormatSpecifierType.Linebreak
    ∧ f.ft ≠ FormatSpecifierType.Emoji

/-- The annotation list holds no `Linebreak` annotation. -/
def noLinebreak (l : List FormatSpecifier) : Prop :=
  ∀ f ∈ l, f.ft ≠ FormatSpecifierType.Linebreak

/-- The annotation list holds no `Emoji` annotation. -/
def noEmoji (l : List FormatSpecifier) : Prop :=
  ∀ f ∈ l, f.ft ≠ FormatSpecifierType.Emoji

instance (l : List FormatSpecifier) : Decidable (noEmoji l) := by
  unfold noEmoji; infer_instance

/-- Every annotation behind an `Emoji` annotation in the list has a greater position. -/
def emojiLast (l : List FormatSpecifier) : Prop :=
  List.Pairwise (fun e f => e.ft = FormatSpecifierType.Emoji → e.nStartPos < f.nStartPos) l

/-- The name of every `Emoji` annotation of the list is a key of the emoji map. -/
def emojiRegistered (E : EmojiMapType) (l : List FormatSpecifier) : Prop :=
  ∀ f ∈ l, f.ft = FormatSpecifierType.Emoji → E.count f.EmojiName = true

/-! ## Invariants of the layout loop -/

/-- Two division states agree on everything but the pending colour and emphasis. -/
def sameLayout (S T : LineDivisionState) : Prop :=
  S.Output = T.Output ∧ S.CurLineSegmentInfo.Offset = T.CurLineSegmentInfo.Offset
    ∧ S.CurLineSegmentInfo.PixelOffsetX = T.CurLineSegmentInfo.PixelOffsetX
    ∧ S.CurLineSegmentInfo.SegType = T.CurLineSegmentInfo.SegType
    ∧ S.MsgIndex = T.MsgIndex ∧ S.CurrentLinePixelLength = T.CurrentLinePixelLength
    ∧ S.Lines = T.Lines

/-- The segments written so far cover the offsets from 0 to the offset `o` of the pending
segment, and the loop stands at the character index `i`. -/
def chainInv (S : LineDivisionState) (i o : Nat) : Prop :=
  S.MsgIndex = (i : Int) ∧ S.CurLineSegmentInfo.Offset = (o : Int)
    ∧ segmentsPartition S.Output 0 (o : Int)

/-- No segment written so far reaches beyond the wrap width, and the pixel length of the current
line is the pixel offset of the pending segment plus the width of its characters so far. -/
def fitInv (chat : Chat) (text : WString) (S : LineDivisionState) (i o : Nat) : Prop :=
  (∀ s ∈ S.Output, s.PixelOffsetX + chat.segmentWidth text s ≤ chat.MaxLineLength)
    ∧ 0 ≤ S.CurrentLinePixelLength ∧ S.CurrentLinePixelLength ≤ chat.MaxLineLength
    ∧ S.CurLineSegmentInfo.SegType = SegmentType.Text
    ∧ S.CurLineSegmentInfo.PixelOffsetX + chat.GetWidth ((text.drop o).take (i - o))
      = S.CurrentLinePixelLength

/-- The line-break annotations of a list, in list order: what `GetLineBreak` counts. -/
def lineBreaks (l : List FormatSpecifier) : List FormatSpecifier :=
  l.filter (fun f =>
    decide (f.ft = FormatSpecifierType.Wrap ∨ f.ft = FormatSpecifierType.Linebreak))

/-- The pixel offset of the segment `s`, which starts before the index `i`, is the width of the
characters from `sl` to its offset, where `sl` is the greatest of the wrap positions `B` at or
before its offset, or 0 when there is none. -/
def segAligned (chat : Chat) (text : WString) (B : List Nat) (i : Nat) (s : LineSegmentInfo) :
    Prop :=
  ∃ so sl : Nat, s.Offset = (so : Int) ∧ so < i ∧ (sl = 0 ∨ sl ∈ B) ∧ sl ≤ so
    ∧ (∀ b ∈ B, b ≤ so → b ≤ sl)
    ∧ s.PixelOffsetX = chat.GetWidth ((text.drop sl).take (so - sl))

/-- With the wrap positions `B` so far, the last of them `ls` (0 when there is none) and the
pending segment at offset `o`: the line count is the number of wraps, the pixel length of the
current line is the width of the characters from `ls` to the index `i`, the pixel offset of the
pending segment is the width of the characters from `ls` to `o`, and every written segment is
aligned. -/
def lineInv (chat : Chat) (text : WString) (B : List Nat) (ls : Nat) (S : LineDivisionState)
    (i o : Nat) : Prop :=
  S.Lines = (B.length : Int) ∧ 0 ≤ S.CurrentLinePixelLength ∧ S.CurrentLinePixelLength < 65536
    ∧ ls ≤ o
    ∧ S.CurrentLinePixelLength = chat.GetWidth ((text.drop ls).take (i - ls))
    ∧ S.CurLineSegmentInfo.PixelOffsetX = chat.GetWidth ((text.drop ls).take (o - ls))
    ∧ ∀ s ∈ S.Output, segAligned chat text B i s

/-- The line breaks of the list are wrap breaks at the increasing positions `B`, all before the
index `i`, and `ls` is the last of them (0 when there is none). -/
def breaksInv (l : List FormatSpecifier) (B : List Nat) (ls i : Nat) : Prop :=
  lineBreaks l = B.map wrapAt ∧ (∀ b ∈ B, b < i) ∧ List.Pairwise (fun a b => a < b) B
    ∧ (ls = 0 ∨ ls ∈ B) ∧ (∀ b ∈ B, b ≤ ls)

/-! ## Theorems -/

/-! ### Wrap breaks are the only annotations that layout adds -/

theorem clear_AddWrappingLineBreak (l : List FormatSpecifier) (n : Int) :
    ClearWrappingLineBreaks (AddWrappingLineBreak l n).1 = ClearWrappingLineBreaks l := by
  unfold AddWrappingLineBreak ClearWrappingLineBreaks
  by_cases h : l = []
  · subst h
    simp [FormatSpecifier.ofType]
  · simp only [h, if_false]
    rw [List.filter_append, List.filter_append]
    have : List.filter (fun x => !(x.ft == FormatSpecifierType.Wrap))
        [FormatSpecifier.ofType (if n < 0 then 0 else n) FormatSpecifierType.Wrap] = [] := by
      simp [FormatSpecifier.ofType]
    rw [this, List.append_nil, ← List.filter_append, List.take_append_drop]

theorem clear_divideStep (chat : Chat) (text : WString) (d : DivideState) :
    ClearWrappingLineBreaks (divideStep chat text d).FormatSpecifiers
      = ClearWrappingLineBreaks d.FormatSpecifiers := by
  unfold divideStep
  simp only
  split
  · rfl
  · split
    · exact clear_AddWrappingLineBreak _ _
    · rfl

theorem clear_divideLoop (chat : Chat) (text : WString) (n : Nat) (d : DivideState) :
    ClearWrappingLineBreaks (divideLoop chat text n d).FormatSpecifiers
      = ClearWrappingLineBreaks d.FormatSpecifiers := by
  induction n generalizing d with
  | zero => rfl
  | succ n ih =>
    rw [divideLoop, ih, clear_divideStep]

theorem clear_clear (l : List FormatSpecifier) :
    ClearWrappingLineBreaks (ClearWrappingLineBreaks l) = ClearWrappingLineBreaks l := by
  unfold ClearWrappingLineBreaks
  simp [List.filter_filter]

theorem DivideIntoLines_again (chat : Chat) (cl : ChatMessage) (ChatMessageIndex : Int) :
    DivideIntoLines chat (DivideIntoLines chat cl ChatMessageIndex).1 ChatMessageIndex
      = DivideIntoLines chat cl ChatMessageIndex := by
  unfold DivideIntoLines
  simp only [clear_divideLoop, clear_clear]

/-! ### Searching in a text -/

theorem findIdxFrom_none (p : Nat → Bool) (l : WString) (i : Nat)
    (h : ∀ c ∈ l, p c = false) : findIdxFrom p l i = none := by
  induction l generalizing i with
  | nil => rfl
  | cons c cs ih =>
    have hc : p c = false := h c (List.mem_cons_self _ _)
    simp only [findIdxFrom, hc]
    exact ih (i + 1) (fun x hx => h x (List.mem_cons_of_mem _ hx))

theorem findIdxFrom_append (p : Nat → Bool) (l1 l2 : WString) (c i : Nat)
    (h : ∀ x ∈ l1, p x = false) (hc : p c = true) :
    findIdxFrom p (l1 ++ c :: l2) i = some (i + l1.length) := by
  induction l1 generalizing i with
  | nil => simp [findIdxFrom, hc]
  | cons a as ih =>
    have ha : p a = false := h a (List.mem_cons_self _ _)
    have := ih (i + 1) (fun x hx => h x (List.mem_cons_of_mem _ hx))
    rw [List.cons_append, findIdxFrom, ha, if_neg (by simp), this, List.length_cons]
    congr 1
    omega

theorem findIdxFrom_some (p : Nat → Bool) (l : WString) (i j : Nat)
    (h : findIdxFrom p l i = some j) :
    i ≤ j ∧ j < i + l.length ∧ p (l.getD (j - i) 0) = true
      ∧ ∀ k, k < j - i → p (l.getD k 0) = false := by
  induction l generalizing i with
  | nil => simp [findIdxFrom] at h
  | cons c cs ih =>
    by_cases hc : p c = true
    · simp only [findIdxFrom, hc, if_true, Option.some.injEq] at h
      subst h
      simp [hc]
    · simp only [findIdxFrom, hc] at h
      obtain ⟨h1, h2, h3, h4⟩ := ih (i + 1) h
      refine ⟨by omega, by simp only [List.length_cons]; omega, ?_, ?_⟩
      · have : j - i = (j - (i + 1)) + 1 := by omega
        rw [this, List.getD_cons_succ]
        exact h3
      · intro k hk
        cases k with
        | zero => simpa using hc
        | succ k =>
          rw [List.getD_cons_succ]
          exact h4 k (by omega)

theorem find_first_of_none (s chars : WString) (pos : Nat)
    (h : ∀ c ∈ s.drop pos, chars.contains c = false) : find_first_of s chars pos = none :=
  findIdxFrom_none _ _ _ h

theorem find_first_of_append (A B chars : WString) (c pos : Nat) (hpos : pos ≤ A.length)
    (h : ∀ x ∈ A, chars.contains x = false) (hc : chars.contains c = true) :
    find_first_of (A ++ c :: B) chars pos = some A.length := by
  unfold find_first_of
  rw [List.drop_append_of_le_length hpos]
  rw [findIdxFrom_append _ _ _ _ _ (fun x hx => h x (List.mem_of_mem_drop hx)) hc]
  simp only [List.length_drop]
  congr 1
  omega

theorem find_none (s : WString) (c pos : Nat)
    (h : ∀ x ∈ s.drop pos, x ≠ c) : find s c pos = none :=
  findIdxFrom_none _ _ _ (fun x hx => by simpa using h x hx)

theorem sizeSub_of_le (a b : Nat) (hb : b ≤ a) (ha : a < SIZE_MOD) : sizeSub a b = a - b := by
  unfold sizeSub
  have : a + SIZE_MOD - b = (a - b) + SIZE_MOD := by omega
  rw [this, Nat.add_mod_right, Nat.mod_eq_of_lt (by omega)]

theorem erase_middle (A T B : WString) : erase (A ++ T ++ B) A.length T.length = A ++ B := by
  unfold erase
  rw [List.append_assoc, List.take_left]
  congr 1
  rw [← List.append_assoc, ← List.length_append, List.drop_left]

/-! ### Unfolding the parser loops -/

theorem firstPassLoop_none (C : Nat → Nat) (fuel : Nat) (m : ChatMessage) :
    firstPassLoop C (fuel + 1) m none = some m := rfl

theorem firstPassLoop_some (C : Nat → Nat) (fuel : Nat) (m : ChatMessage) (Pos : Nat) :
    firstPassLoop C (fuel + 1) m (some Pos)
      = if Pos ≤ sizeSub m.ProcessedMsg.length 2 then
          firstPassLoop C fuel (firstPassBody C m Pos).1
            (if Pos < (firstPassBody C m Pos).1.ProcessedMsg.length then
              find_first_of (firstPassBody C m Pos).1.ProcessedMsg [94, 91]
                (if (firstPassBody C m Pos).2 then Pos else Pos + 1)
            else none)
        else some m := rfl

theorem secondPassLoop_no_colon (E : EmojiMapType) (fuel : Nat) (m : ChatMessage) (SearchPos : Nat)
    (h : ∀ c ∈ m.ProcessedMsg, c ≠ 58) :
    secondPassLoop E (fuel + 1) m SearchPos = some m := by
  rw [secondPassLoop, find_none _ _ _ (fun x hx => h x (List.mem_of_mem_drop hx))]

theorem getD_append_cons (A B : WString) (c : Nat) : (A ++ c :: B).getD A.length 0 = c := by
  rw [List.getD_append_right _ _ _ _ (Nat.le_refl _)]
  simp

theorem getD_append_cons_succ (A B : WString) (c e : Nat) :
    (A ++ c :: e :: B).getD (A.length + 1) 0 = e := by
  rw [List.getD_append_right _ _ _ _ (Nat.le_succ _)]
  simp

theorem plain_no_start {s : WString} (h : plain s) : ∀ c ∈ s, [94, 91].contains c = false := by
  intro c hc
  have := h c hc
  simp [this.1, this.2.1]

theorem plain_no_colon {s : WString} (h : plain s) : ∀ c ∈ s, c ≠ 58 :=
  fun c hc => (h c hc).2.2.2

theorem plain_append {s t : WString} (hs : plain s) (ht : plain t) : plain (s ++ t) := by
  intro c hc
  rcases List.mem_append.1 hc with h | h
  · exact hs c h
  · exact ht c h

theorem plain_drop {s : WString} (hs : plain s) (n : Nat) : plain (s.drop n) :=
  fun c hc => hs c (List.mem_of_mem_drop hc)

/-- The first loop run from `Pos` on a text whose part from `Pos` on holds no `^` and no `[`
ends at once, whatever the flag `Erased`. -/
theorem firstPassLoop_done (C : Nat → Nat) (fuel : Nat) (m : ChatMessage) (Pos start : Nat)
    (h : ∀ c ∈ m.ProcessedMsg.drop start, [94, 91].contains c = false) :
    firstPassLoop C (fuel + 1) m
      (if Pos < m.ProcessedMsg.length then find_first_of m.ProcessedMsg [94, 91] start else none)
      = some m := by
  rw [find_first_of_none _ _ _ h]
  simp [firstPassLoop_none]

/-! ### The hexadecimal colour token -/

theorem hexScan_bounds (s : WString) (cs fuel ce : Nat) :
    ce ≤ hexScan s cs fuel ce ∧ hexScan s cs fuel ce ≤ ce + fuel := by
  induction fuel generalizing ce with
  | zero => simp [hexScan]
  | succ n ih =>
    rw [hexScan]
    split
    · have := ih (ce + 1)
      omega
    · omega

theorem hexScan_all (s : WString) (cs fuel ce : Nat) (hcs : cs ≤ ce) (hf : ce - cs + fuel ≤ 8)
    (h : ∀ i, ce ≤ i → i < ce + fuel → i < s.length ∧ ishexdigit (s.getD i 0) = true) :
    hexScan s cs fuel ce = ce + fuel := by
  induction fuel generalizing ce with
  | zero => simp [hexScan]
  | succ n ih =>
    rw [hexScan]
    have h0 := h ce (Nat.le_refl _) (by omega)
    rw [if_pos ⟨h0.1, by omega, h0.2⟩]
    rw [ih (ce + 1) (by omega) (by omega) (fun i hi1 hi2 => h i (by omega) (by omega))]
    omega

theorem hexScan_full (s : WString) (cs fuel ce : Nat)
    (h : hexScan s cs fuel ce = ce + fuel) :
    ∀ i, ce ≤ i → i < ce + fuel → i < s.length ∧ ishexdigit (s.getD i 0) = true := by
  induction fuel generalizing ce with
  | zero => intro i h1 h2; omega
  | succ n ih =>
    rw [hexScan] at h
    split at h
    · rename_i hc
      intro i h1 h2
      by_cases hi : i = ce
      · subst hi; exact ⟨hc.1, hc.2.2⟩
      · exact ih (ce + 1) (by omega) i (by omega) (by omega)
    · omega

theorem forall_mem_take_iff (R : WString) (n : Nat) (P : Nat → Bool) (hn : n ≤ R.length) :
    (∀ c ∈ R.take n, P c = true) ↔ ∀ j, j < n → P (R.getD j 0) = true := by
  constructor
  · intro h j hj
    have hj2 : j < R.length := by omega
    apply h
    rw [List.getD_eq_getElem _ _ hj2]
    rw [List.mem_iff_getElem]
    refine ⟨j, by simp only [List.length_take]; omega, ?_⟩
    simp [List.getElem_take]
  · intro h c hc
    rw [List.mem_iff_getElem] at hc
    obtain ⟨j, hj, rfl⟩ := hc
    simp only [List.length_take] at hj
    have := h j (by omega)
    rw [List.getD_eq_getElem _ _ (by omega)] at this
    simpa [List.getElem_take] using this

theorem hexDigitValue_lt (c : Nat) (h : ishexdigit c = true) : hexDigitValue c < 16 := by
  unfold ishexdigit isdigit at h
  unfold hexDigitValue isdigit
  simp only [Bool.or_eq_true, Bool.and_eq_true, decide_eq_true_eq] at h ⊢
  split <;> omega

theorem foldl_hex (H : WString) (acc : Nat) :
    H.foldl (fun acc c => acc * 16 + hexDigitValue c) acc
      = acc * 16 ^ H.length + Nat.ofDigits 16 (H.reverse.map hexDigitValue) := by
  induction H generalizing acc with
  | nil => simp
  | cons c cs ih =>
    rw [List.foldl_cons, ih, List.reverse_cons, List.map_append, Nat.ofDigits_append]
    simp only [List.length_cons, List.map_cons, List.map_nil, Nat.ofDigits_singleton,
      List.length_map, List.length_reverse]
    ring

theorem parseHexColor_eq (H : WString) (hlen : H.length = 8)
    (hhex : ∀ c ∈ H, ishexdigit c = true) :
    parseHexColor H = Nat.ofDigits 16 (H.reverse.map hexDigitValue) := by
  unfold parseHexColor
  rw [foldl_hex, Nat.zero_mul, Nat.zero_add]
  apply Nat.mod_eq_of_lt
  have := Nat.ofDigits_lt_base_pow_length (b := 16) (l := H.reverse.map hexDigitValue)
    (by norm_num) (by
      intro x hx
      simp only [List.mem_map, List.mem_reverse] at hx
      obtain ⟨c, hc, rfl⟩ := hx
      exact hexDigitValue_lt c (hhex c hc))
  simp only [List.length_map, List.length_reverse, hlen] at this
  calc _ < 16 ^ 8 := this
    _ = 2 ^ 32 := by norm_num

theorem hex_scan_token (R : WString) :
    hexScan (94 :: 35 :: R) 2 8 2 - 2 = 8
      ↔ (8 ≤ R.length ∧ ∀ c ∈ R.take 8, ishexdigit c = true) := by
  have hb := hexScan_bounds (94 :: 35 :: R) 2 8 2
  have hget : ∀ j, (94 :: 35 :: R).getD (2 + j) 0 = R.getD j 0 := by
    intro j
    rw [show 2 + j = (j + 1) + 1 by omega, List.getD_cons_succ, List.getD_cons_succ]
  constructor
  · intro h
    have hfull := hexScan_full (94 :: 35 :: R) 2 8 2 (by omega)
    have h8 : 8 ≤ R.length := by
      have := (hfull 9 (by omega) (by omega)).1
      simp only [List.length_cons] at this
      omega
    refine ⟨h8, (forall_mem_take_iff R 8 ishexdigit h8).2 ?_⟩
    intro j hj
    have := (hfull (2 + j) (by omega) (by omega)).2
    rwa [hget] at this
  · rintro ⟨h8, hall⟩
    have hall2 := (forall_mem_take_iff R 8 ishexdigit h8).1 hall
    rw [hexScan_all (94 :: 35 :: R) 2 8 2 (Nat.le_refl _) (by omega)]
    intro i hi1 hi2
    refine ⟨by simp only [List.length_cons]; omega, ?_⟩
    have := hall2 (i - 2) (by omega)
    rw [← hget, show 2 + (i - 2) = i by omega] at this
    exact this

/-! ### Bracket tokens -/

/-- The body of the first loop at a `[` whose closing `]` follows a non-empty run `M` that holds
no `]`: the span is erased, and an annotation is emitted according to the first character of
`M` and its length. -/
theorem firstPassBody_bracket (C : Nat → Nat) (m : ChatMessage) (A M B : WString)
    (hM : M ≠ []) (h93 : ∀ c ∈ M, [93].contains c = false)
    (htext : m.ProcessedMsg = A ++ 91 :: (M ++ 93 :: B)) :
    firstPassBody C m A.length
      = ({ m with
            ProcessedMsg := A ++ B
            FormatSpecifiers := m.FormatSpecifiers ++
              (if M.getD 0 0 = 47 ∧ (M.length = 1 ∨ M.length = 2) then
                [FormatSpecifier.ofType A.length FormatSpecifierType.Default]
              else if CharToFT (M.getD 0 0) ≠ FormatSpecifierType.Unknown then
                [FormatSpecifier.ofType A.length (CharToFT (M.getD 0 0))]
              else []) }, true) := by
  obtain ⟨y, M', rfl⟩ := List.exists_cons_of_ne_nil hM
  have hL : m.ProcessedMsg.length = A.length + M'.length + B.length + 3 := by
    rw [htext]; simp only [List.length_append, List.length_cons]; omega
  have hfind : find_first_of m.ProcessedMsg [93] (A.length + 1)
      = some (A.length + 1 + (y :: M').length) := by
    have h1 : m.ProcessedMsg = (A ++ [91]) ++ ((y :: M') ++ 93 :: B) := by rw [htext]; simp
    have h2 : (A ++ [91]).length = A.length + 1 := by simp
    rw [h1, find_first_of, ← h2, List.drop_left,
      findIdxFrom_append _ _ _ _ _ h93 (by decide)]
  have her : erase m.ProcessedMsg A.length ((y :: M').length + 2) = A ++ B := by
    have := erase_middle A (91 :: (y :: M') ++ [93]) B
    rw [htext]
    simpa using this
  have hg0 : m.ProcessedMsg.getD A.length 0 = 91 := by rw [htext]; exact getD_append_cons _ _ _
  have hg1 : m.ProcessedMsg.getD (A.length + 1) 0 = y := by
    rw [htext]; exact getD_append_cons_succ _ _ _ _
  have hd : A.length + 1 + (y :: M').length - A.length = (y :: M').length + 1 := by omega
  have e1 : ((y :: M').length + 1 = 2 ∨ (y :: M').length + 1 = 3)
      ↔ ((y :: M').length = 1 ∨ (y :: M').length = 2) := by omega
  unfold firstPassBody
  rw [if_neg (by omega)]
  have n1 : ((91 : Nat) = 94) = False := eq_false (by decide)
  simp only [hg0, hg1, hfind, List.getD_cons_zero, hd, e1, n1, if_false, if_true]
  split
  · simp only [ChatMessage.Erase, ChatMessage.emplace_back, her]
  · split
    · simp only [ChatMessage.Erase, ChatMessage.emplace_back, her]
    · simp only [ChatMessage.Erase, her, List.append_nil]
theorem hex_body_hit (C : Nat → Nat) (R : WString)
    (hhex : 8 ≤ R.length ∧ ∀ c ∈ R.take 8, ishexdigit c = true) :
    firstPassBody C (ChatMessage.ofText (94 :: 35 :: R) 0) 0
        = ({ ChatMessage.ofText (94 :: 35 :: R) 0 with
              ProcessedMsg := R.drop 8
              FormatSpecifiers := [FormatSpecifier.ofColor 0
                (Nat.ofDigits 16 ((R.take 8).reverse.map hexDigitValue))] }, true) := by
  have hL : (94 :: 35 :: R).length = R.length + 2 := by simp
  have hscan := (hex_scan_token R).2 hhex
  have hb := hexScan_bounds (94 :: 35 :: R) 2 8 2
  have hscan2 : hexScan (94 :: 35 :: R) 2 8 2 = 10 := by omega
  have hpc : parseHexColor (substr (94 :: 35 :: R) 2 8)
      = Nat.ofDigits 16 ((R.take 8).reverse.map hexDigitValue) := by
    have : substr (94 :: 35 :: R) 2 8 = R.take 8 := by simp [substr]
    rw [this]
    exact parseHexColor_eq _ (by simp only [List.length_take]; omega) hhex.2
  have her : erase (94 :: 35 :: R) 0 10 = R.drop 8 := by
    simp [erase]
  have g1 : (94 :: 35 :: R).getD 1 0 = 35 := rfl
  have g0 : (94 :: 35 :: R).getD 0 0 = 94 := rfl
  have n1 : isdigit 35 = false := by decide
  unfold firstPassBody
  simp only [ChatMessage.ofText, hL, ChatMessage.emplace_back, ChatMessage.Erase]
  rw [if_neg (by omega)]
  simp only [g0, g1, n1, Nat.zero_add, hscan2, if_true, Bool.false_eq_true, if_false, hpc, her,
    Nat.sub_zero, show (10 : Nat) - 2 = 8 from rfl, List.nil_append]
  rfl

theorem hex_body_miss (C : Nat → Nat) (R : WString)
    (hhex : ¬ (8 ≤ R.length ∧ ∀ c ∈ R.take 8, ishexdigit c = true)) :
    firstPassBody C (ChatMessage.ofText (94 :: 35 :: R) 0) 0
        = (ChatMessage.ofText (94 :: 35 :: R) 0, false) := by
  have hL : (94 :: 35 :: R).length = R.length + 2 := by simp
  have hscan : (hexScan (94 :: 35 :: R) 2 8 2 - 2 = 8) = False :=
    eq_false (fun h => hhex ((hex_scan_token R).1 h))
  have g1 : (94 :: 35 :: R).getD 1 0 = 35 := rfl
  have g0 : (94 :: 35 :: R).getD 0 0 = 94 := rfl
  have n1 : isdigit 35 = false := by decide
  unfold firstPassBody
  simp only [ChatMessage.ofText, hL]
  rw [if_neg (by omega)]
  simp only [g0, g1, n1, Nat.zero_add, hscan, if_true, Bool.false_eq_true, if_false]

/-- The result of `parse` from the results of the two loops. -/
theorem parse_of_passes (C : Nat → Nat) (E : EmojiMapType) (text : WString) (m1 m2 : ChatMessage)
    (h1 : firstPassLoop C (2 * text.length + 2) (ChatMessage.ofText text 0)
      (find_first_of text [94, 91] 0) = some m1)
    (h2 : secondPassLoop E (m1.ProcessedMsg.length + 1) m1 0 = some m2) :
    parse C E text = some (m2.ProcessedMsg, m2.FormatSpecifiers) := by
  unfold parse SubstituteFormatSpecifiers
  simp only [ChatMessage.ofText] at h1 ⊢
  rw [h1]
  simp only
  rw [h2]
  rfl

/-- The result of `parse` when the first loop leaves a text without `:`. -/
theorem parse_of_first_pass (C : Nat → Nat) (E : EmojiMapType) (text : WString) (m1 : ChatMessage)
    (h1 : firstPassLoop C (2 * text.length + 2) (ChatMessage.ofText text 0)
      (find_first_of text [94, 91] 0) = some m1)
    (h2 : ∀ c ∈ m1.ProcessedMsg, c ≠ 58) :
    parse C E text = some (m1.ProcessedMsg, m1.FormatSpecifiers) :=
  parse_of_passes C E text m1 m1 h1 (secondPassLoop_no_colon E _ _ 0 h2)

/-! ### Parsing a text without tokens -/

theorem findIdxFrom_drop_some (p : Nat → Bool) (s : WString) (pos j : Nat)
    (h : findIdxFrom p (s.drop pos) pos = some j) :
    pos ≤ j ∧ j < s.length ∧ p (s.getD j 0) = true
      ∧ ∀ k, pos ≤ k → k < j → p (s.getD k 0) = false := by
  obtain ⟨h1, h2, h3, h4⟩ := findIdxFrom_some p _ _ _ h
  have hget : ∀ k, (s.drop pos).getD k 0 = s.getD (pos + k) 0 := by
    intro k
    simp [List.getD_eq_getElem?_getD, List.getElem?_drop]
  simp only [List.length_drop] at h2
  refine ⟨h1, by omega, ?_, ?_⟩
  · rw [hget, show pos + (j - pos) = j by omega] at h3
    exact h3
  · intro k hk1 hk2
    have := h4 (k - pos) (by omega)
    rw [hget, show pos + (k - pos) = k by omega] at this
    exact this

theorem find_first_of_some (s chars : WString) (pos j : Nat)
    (h : find_first_of s chars pos = some j) :
    pos ≤ j ∧ j < s.length ∧ chars.contains (s.getD j 0) = true
      ∧ ∀ k, pos ≤ k → k < j → chars.contains (s.getD k 0) = false :=
  findIdxFrom_drop_some _ s pos j h

theorem find_some (s : WString) (c pos j : Nat) (h : find s c pos = some j) :
    pos ≤ j ∧ j < s.length ∧ s.getD j 0 = c ∧ ∀ k, pos ≤ k → k < j → s.getD k 0 ≠ c := by
  obtain ⟨h1, h2, h3, h4⟩ := findIdxFrom_drop_some _ s pos j h
  refine ⟨h1, h2, by simpa using h3, ?_⟩
  intro k hk1 hk2
  simpa using h4 k hk1 hk2

theorem firstPassBody_token_free (C : Nat → Nat) (m : ChatMessage) (Pos : Nat)
    (hc : noColorToken m.ProcessedMsg) (hb : noBracketToken m.ProcessedMsg)
    (hPos : Pos < m.ProcessedMsg.length) :
    firstPassBody C m Pos = (m, false) := by
  unfold firstPassBody
  split
  · rfl
  · rename_i hlen
    simp only
    split
    · rename_i h94
      obtain ⟨hd, hh⟩ := hc Pos hPos h94
      rw [if_neg (by rw [hd]; exact Bool.false_ne_true)]
      split
      · rename_i h35
        rw [if_neg]
        intro h8
        have hbd := hexScan_bounds m.ProcessedMsg (Pos + 2) 8 (Pos + 2)
        have hfull := hexScan_full m.ProcessedMsg (Pos + 2) 8 (Pos + 2) (by omega)
        apply hh h35
        refine ⟨?_, ?_⟩
        · have := (hfull (Pos + 9) (by omega) (by omega)).1
          omega
        · intro j hj
          exact (hfull (Pos + 2 + j) (by omega) (by omega)).2
      · rfl
    · split
      · rename_i h91
        split
        · rfl
        · rename_i EndBracket hfind
          exfalso
          obtain ⟨h1, h2, h3, _⟩ := find_first_of_some _ _ _ _ hfind
          have := hb Pos hPos EndBracket h2 (by omega) h91
          simp only [List.contains_cons, List.contains_nil, Bool.or_false, beq_iff_eq] at h3
          exact this h3
      · rfl

theorem firstPassLoop_token_free (C : Nat → Nat) (m : ChatMessage)
    (hc : noColorToken m.ProcessedMsg) (hb : noBracketToken m.ProcessedMsg) :
    ∀ (fuel : Nat) (op : Option Nat), 0 < fuel →
      (∀ p, op = some p → p < m.ProcessedMsg.length ∧ m.ProcessedMsg.length - p < fuel) →
      firstPassLoop C fuel m op = some m := by
  intro fuel
  induction fuel with
  | zero => intro op h; omega
  | succ n ih =>
    intro op _ hop
    cases op with
    | none => rfl
    | some p =>
      obtain ⟨hp1, hp2⟩ := hop p rfl
      rw [firstPassLoop_some, firstPassBody_token_free C m p hc hb hp1]
      split
      · simp only [Bool.false_eq_true, if_false, hp1, if_true]
        apply ih _ (by omega)
        intro q hq
        obtain ⟨h1, h2, _, _⟩ := find_first_of_some _ _ _ _ hq
        omega
      · rfl

theorem secondPassLoop_token_free (E : EmojiMapType) (m : ChatMessage)
    (he : noEmojiToken E m.ProcessedMsg) :
    ∀ (fuel SearchPos : Nat), m.ProcessedMsg.length - SearchPos < fuel →
      secondPassLoop E fuel m SearchPos = some m := by
  intro fuel
  induction fuel with
  | zero => intro sp h; omega
  | succ n ih =>
    intro sp hsp
    rw [secondPassLoop]
    split
    · rfl
    · rename_i i hi
      obtain ⟨hi1, hi2, hi3, _⟩ := find_some _ _ _ _ hi
      split
      · rfl
      · rename_i j hj
        obtain ⟨hj1, hj2, hj3, hj4⟩ := find_some _ _ _ _ hj
        have := he i hi2 j hj2 ⟨by omega, hi3, hj3, fun k hk1 hk2 => hj4 k (by omega) hk1⟩
        simp only
        rw [if_neg]
        · exact ih (i + 1) (by omega)
        · rintro ⟨hne, hcount⟩
          rcases this with h | h
          · apply hne
            subst h
            simp [substr]
          · rw [h] at hcount
            exact Bool.false_ne_true hcount

theorem parse_token_free (C : Nat → Nat) (E : EmojiMapType) (p : WString)
    (h : tokenFree E p) : parse C E p = some (p, []) := by
  obtain ⟨hc, hb, he⟩ := h
  unfold parse SubstituteFormatSpecifiers
  rw [firstPassLoop_token_free C (ChatMessage.ofText p 0) hc hb _ _ (by omega) (by
    intro q hq
    obtain ⟨_, h2, _, _⟩ := find_first_of_some _ _ _ _ hq
    omega)]
  simp only
  rw [secondPassLoop_token_free E (ChatMessage.ofText p 0) he _ 0 (by omega)]
  rfl

/-! ### Widths of text runs -/

/-- The summed advance width of the characters at the offsets `a ≤ i < b`. -/
theorem GetWidth_append (chat : Chat) (s t : WString) :
    chat.GetWidth (s ++ t) = chat.GetWidth s + chat.GetWidth t := by
  simp [Chat.GetWidth]

theorem GetWidth_singleton (chat : Chat) (c : Nat) : chat.GetWidth [c] = chat.CharWidth c := by
  simp [Chat.GetWidth]

theorem takeWhile_no_nul (s : WString) (h : ∀ c ∈ s, c ≠ 0) :
    s.takeWhile (fun c => c != 0) = s := by
  rw [List.takeWhile_eq_self_iff]
  intro c hc
  simpa using h c hc

theorem drop_eq_getD_cons (s : WString) (i : Nat) (h : i < s.length) :
    s.drop i = s.getD i 0 :: s.drop (i + 1) := by
  rw [List.getD_eq_getElem _ _ h]
  exact List.drop_eq_getElem_cons h

theorem take_succ_drop (s : WString) (a n : Nat) (h : a + n < s.length) :
    (s.drop a).take (n + 1) = (s.drop a).take n ++ [s.getD (a + n) 0] := by
  rw [List.take_succ]
  congr 1
  rw [List.getElem?_drop, List.getElem?_eq_getElem h, List.getD_eq_getElem _ _ h]
  rfl

theorem GetTextLen_one (chat : Chat) (cl : ChatMessage) (Pos : Nat)
    (h : Pos < cl.ProcessedMsg.length) (hnul : ∀ c ∈ cl.ProcessedMsg, c ≠ 0) :
    chat.GetTextLen cl (Pos : Int) 1 = some (chat.CharWidth (cl.ProcessedMsg.getD Pos 0)) := by
  have hc : cl.ProcessedMsg.getD Pos 0 ≠ 0 := by
    apply hnul
    rw [List.getD_eq_getElem _ _ h]
    exact List.getElem_mem _
  unfold Chat.GetTextLen
  rw [if_pos ⟨Int.natCast_nonneg _, by exact_mod_cast h⟩]
  simp only [Int.toNat_ofNat, formatPrecS, Int.toNat_one]
  rw [drop_eq_getD_cons _ _ h, List.takeWhile_cons_of_pos (by simpa using hc)]
  simp only [List.take_succ_cons, List.take_zero, List.cons_append, List.nil_append,
    List.take_nil]
  simp [Chat.GetWidth]

/-- The measurement of `GetPos`: when the characters from the line start `a` to the offset `k`
and the `_` behind them fit the 1024-character buffer of `GetTextLength`, the difference of the
two text lengths is the width of these characters. -/
theorem GetPos_width (chat : Chat) (s : WString) (a k : Nat) (hak : a ≤ k)
    (hbuf : k - a ≤ 1022) (hnul : ∀ c ∈ s, c ≠ 0) :
    chat.GetWidth (formatPrecS [] (((k : Int) - (a : Int)).toNat) (s.drop a) [95])
        - chat.GetWidth [95]
      = chat.GetWidth ((s.drop a).take (k - a)) := by
  have h1 : ((k : Int) - (a : Int)).toNat = k - a := by omega
  rw [h1, formatPrecS, takeWhile_no_nul _ (fun c hc => hnul c (List.mem_of_mem_drop hc))]
  rw [List.nil_append, List.take_of_length_le, GetWidth_append]
  · omega
  · simp only [List.length_append, List.length_take, List.length_drop, List.length_cons,
      List.length_nil]
    omega

theorem segWidth_succ (chat : Chat) (s : WString) (a p : Nat) (hap : a ≤ p) (hp : p < s.length) :
    chat.GetWidth ((s.drop a).take (p + 1 - a))
      = chat.GetWidth ((s.drop a).take (p - a)) + chat.CharWidth (s.getD p 0) := by
  have h1 : p + 1 - a = (p - a) + 1 := by omega
  rw [h1, take_succ_drop s a (p - a) (by omega), GetWidth_append, GetWidth_singleton]
  congr 3
  omega

theorem segWidth_lt (chat : Chat) (s : WString) (a p k : Nat) (hap : a ≤ p) (hpk : p < k)
    (hk : k ≤ s.length) (hw : ∀ c ∈ s, 0 < chat.CharWidth c) :
    chat.GetWidth ((s.drop a).take (p - a)) < chat.GetWidth ((s.drop a).take (k - a)) := by
  induction k with
  | zero => omega
  | succ k ih =>
    have hpos : 0 < chat.CharWidth (s.getD k 0) := by
      apply hw
      rw [List.getD_eq_getElem _ _ (by omega)]
      exact List.getElem_mem _
    rw [segWidth_succ chat s a k (by omega) (by omega)]
    by_cases hpk2 : p = k
    · subst hpk2; omega
    · have := ih (by omega) (by omega)
      omega

/-- The walk of the hit-test, started on a line at offset `a` with the pixel offset of the caret
position `k`, stops at `k` with the accumulated width equal to that pixel offset. -/
theorem hitTestWalk_caret (chat : Chat) (cl : ChatMessage) (a k : Nat)
    (hk : k ≤ cl.ProcessedMsg.length) (hw : ∀ c ∈ cl.ProcessedMsg, 0 < chat.CharWidth c)
    (hnul : ∀ c ∈ cl.ProcessedMsg, c ≠ 0) :
    ∀ (d p : Nat), p + d = k → a ≤ p →
      hitTestWalk chat cl (chat.GetWidth ((cl.ProcessedMsg.drop a).take (k - a)))
          (cl.ProcessedMsg.length - p) (chat.GetWidth ((cl.ProcessedMsg.drop a).take (p - a)))
          (p : Int)
        = some (chat.GetWidth ((cl.ProcessedMsg.drop a).take (k - a)), (k : Int)) := by
  intro d
  induction d with
  | zero =>
    intro p hp _
    have : p = k := by omega
    subst this
    cases h : cl.ProcessedMsg.length - p with
    | zero => rfl
    | succ n => rw [hitTestWalk, if_neg (by omega)]
  | succ d ih =>
    intro p hp hap
    have hlt : p < cl.ProcessedMsg.length := by omega
    obtain ⟨n, hn⟩ : ∃ n, cl.ProcessedMsg.length - p = n + 1 := ⟨cl.ProcessedMsg.length - p - 1, by omega⟩
    rw [hn, hitTestWalk, if_pos ⟨segWidth_lt chat _ a p k hap (by omega) hk hw, by exact_mod_cast hlt⟩,
      GetTextLen_one chat cl p hlt hnul]
    simp only
    have h1 := ih (p + 1) (by omega) (by omega)
    rw [segWidth_succ chat _ a p hap hlt] at h1
    have h2 : cl.ProcessedMsg.length - (p + 1) = n := by omega
    rw [h2] at h1
    exact_mod_cast h1

theorem GetPosLineLoop_spec (c : ChatMessage) (Pos : Int) (P : FormatSpecifier → Prop) :
    ∀ (n : Nat) (i : Int),
      (∀ j : Int, i ≤ j → j < i + n → ∃ f, c.GetLineBreak j = some f ∧ P f) →
      ∃ r, GetPosLineLoop c Pos n i = some r ∧ i ≤ r ∧ r ≤ i + n
        ∧ (i < r → ∃ f, c.GetLineBreak (r - 1) = some f ∧ f.nStartPos ≤ Pos ∧ P f) := by
  intro n
  induction n with
  | zero =>
    intro i _
    exact ⟨i, rfl, le_refl _, by simp, fun h => absurd h (lt_irrefl _)⟩
  | succ n ih =>
    intro i hbr
    obtain ⟨f, hf, hPf⟩ := hbr i (le_refl _) (by push_cast; omega)
    rw [GetPosLineLoop]
    simp only [hf]
    by_cases hlt : Pos < f.nStartPos
    · rw [if_pos hlt]
      exact ⟨i, rfl, le_refl _, by push_cast; omega, fun h => absurd h (lt_irrefl _)⟩
    · rw [if_neg hlt]
      obtain ⟨r, hr, h1, h2, h3⟩ := ih (i + 1) (fun j hj1 hj2 => hbr j (by omega) (by push_cast; omega))
      refine ⟨r, hr, by omega, by push_cast; omega, ?_⟩
      intro _
      by_cases hr1 : i + 1 < r
      · exact h3 hr1
      · have : r - 1 = i := by omega
        rw [this]
        exact ⟨f, hf, by omega, hPf⟩

/-- The hit-test started on the line that begins at offset `a`, with the pixel offset of the
caret position `k` of that line, stores `k - 1`. -/
theorem hitTestInMessage_caret (chat : Chat) (cl : ChatMessage) (RelLine : Int) (a k : Nat)
    (hstart : (if RelLine = 0 then some (0 : Int)
        else (cl.GetLineBreak (RelLine - 1)).map (fun f => f.nStartPos)) = some (a : Int))
    (hak : a ≤ k) (hk1 : 1 ≤ k) (hk : k ≤ cl.ProcessedMsg.length)
    (hw : ∀ c ∈ cl.ProcessedMsg, 0 < chat.CharWidth c)
    (hnul : ∀ c ∈ cl.ProcessedMsg, c ≠ 0) :
    hitTestInMessage chat cl RelLine (chat.GetWidth ((cl.ProcessedMsg.drop a).take (k - a)))
      = some ((k : Int) - 1) := by
  unfold hitTestInMessage
  simp only [hstart]
  have hfuel : ((cl.ProcessedMsg.length : Int) - (a : Int)).toNat = cl.ProcessedMsg.length - a := by
    omega
  have hwalk := hitTestWalk_caret chat cl a k hk hw hnul (k - a) a (by omega) (le_refl _)
  rw [Nat.sub_self, List.take_zero] at hwalk
  rw [hfuel]
  have h0 : chat.GetWidth [] = 0 := rfl
  rw [h0] at hwalk
  rw [hwalk]
  simp only
  have hk' : ((k : Int) - 1) = ((k - 1 : Nat) : Int) := by omega
  rw [hk', GetTextLen_one chat cl (k - 1) (by omega) hnul]
  simp only
  have hpos : 0 < chat.CharWidth (cl.ProcessedMsg.getD (k - 1) 0) := by
    apply hw
    rw [List.getD_eq_getElem _ _ (by omega)]
    exact List.getElem_mem _
  have hdiv : 0 ≤ Int.tdiv (chat.CharWidth (cl.ProcessedMsg.getD (k - 1) 0)) 2 :=
    Int.tdiv_nonneg (le_of_lt hpos) (by norm_num)
  rw [if_neg (by omega)]

/-- Parsing `^#` followed by a text `R` without `^`, `[`, `]`, `:`: the token is consumed exactly
when the first eight characters of `R` are hexadecimal digits. -/
theorem hex_token_parse (C : Nat → Nat) (E : EmojiMapType) (R : WString) (hR : plain R) :
    ((8 ≤ R.length ∧ ∀ c ∈ R.take 8, ishexdigit c = true) →
        parse C E ([94, 35] ++ R)
          = some (R.drop 8,
              [FormatSpecifier.ofColor 0 (Nat.ofDigits 16 ((R.take 8).reverse.map hexDigitValue))]))
      ∧ (¬ (8 ≤ R.length ∧ ∀ c ∈ R.take 8, ishexdigit c = true) →
        parse C E ([94, 35] ++ R) = some ([94, 35] ++ R, [])) := by
  have hfuel : 2 * ([94, 35] ++ R).length + 2 = (2 * R.length + 4) + 1 + 1 := by
    simp only [List.length_append, List.length_cons, List.length_nil]; omega
  have hfind : find_first_of ([94, 35] ++ R) [94, 91] 0 = some 0 := rfl
  constructor
  · intro hhex
    refine parse_of_first_pass C E _
      { ChatMessage.ofText ([94, 35] ++ R) 0 with
        ProcessedMsg := R.drop 8
        FormatSpecifiers := [FormatSpecifier.ofColor 0
          (Nat.ofDigits 16 ((R.take 8).reverse.map hexDigitValue))] } ?_ ?_
    · rw [hfind, hfuel, firstPassLoop_some, if_pos (Nat.zero_le _)]
      rw [show ([94, 35] ++ R : WString) = 94 :: 35 :: R from rfl, hex_body_hit C R hhex]
      simp only [if_true]
      exact firstPassLoop_done C _ _ 0 0 (by
        simp only [List.drop_zero]; exact plain_no_start (plain_drop hR 8))
    · exact plain_no_colon (plain_drop hR 8)
  · intro hhex
    have hnone : ∀ c ∈ ([94, 35] ++ R : WString), c ≠ 58 := by
      intro c hc
      simp only [List.cons_append, List.nil_append, List.mem_cons] at hc
      rcases hc with rfl | rfl | hc
      · decide
      · decide
      · exact plain_no_colon hR c hc
    refine parse_of_first_pass C E _ (ChatMessage.ofText ([94, 35] ++ R) 0) ?_ hnone
    rw [hfind, hfuel, firstPassLoop_some, if_pos (Nat.zero_le _)]
    rw [show ([94, 35] ++ R : WString) = 94 :: 35 :: R from rfl, hex_body_miss C R hhex]
    simp only [Bool.false_eq_true, if_false]
    exact firstPassLoop_done C _ _ 0 (0 + 1) (by
      simp only [ChatMessage.ofText, Nat.zero_add, List.drop_succ_cons, List.drop_zero]
      intro c hc
      simp only [List.mem_cons] at hc
      rcases hc with rfl | hc
      · decide
      · exact plain_no_start hR c hc)

/-! ### The parser returns for every input -/

/-- A bracket token `[x]` whose character `x` is not `/` or `]` and is mapped to `Unknown` by
`CharToFT` is stripped and leaves no annotation. -/
theorem unknown_bracket_token_parse (C : Nat → Nat) (E : EmojiMapType) (A B : WString) (x : Nat)
    (hx1 : x ≠ 47) (hx2 : x ≠ 93) (hx3 : CharToFT x = FormatSpecifierType.Unknown)
    (hA : plain A) (hB : plain B) (hlen : (A ++ [91, x, 93] ++ B).length < SIZE_MOD) :
    parse C E (A ++ [91, x, 93] ++ B) = some (A ++ B, []) := by
  generalize htx : A ++ [91, x, 93] ++ B = text at hlen ⊢
  have htext : text = A ++ 91 :: ([x] ++ 93 :: B) := by rw [← htx]; simp
  have hL : text.length = A.length + B.length + 3 := by
    rw [htext]; simp only [List.length_append, List.length_cons, List.length_nil]; omega
  have hfind : find_first_of text [94, 91] 0 = some A.length := by
    rw [htext]
    exact find_first_of_append A _ _ 91 0 (Nat.zero_le _) (plain_no_start hA) (by decide)
  have hbody := firstPassBody_bracket C (ChatMessage.ofText text 0) A [x] B (by simp)
    (by simp [hx2]) htext
  simp only [List.getD_cons_zero, hx1, false_and, if_false, hx3, ne_eq, not_true_eq_false,
    List.append_nil, ChatMessage.ofText] at hbody
  have hfuel : 2 * text.length + 2 = (2 * (A.length + B.length) + 6) + 1 + 1 := by
    rw [hL]; omega
  refine (parse_of_first_pass C E text (ChatMessage.mk 0 text (A ++ B) 0 [] 0) ?_ ?_).trans rfl
  · rw [hfind, hfuel, firstPassLoop_some,
      if_pos (by
        simp only [ChatMessage.ofText]
        rw [hL, sizeSub_of_le _ _ (by omega) (by omega)]; omega)]
    simp only [ChatMessage.ofText, hbody, if_true]
    exact firstPassLoop_done C _ _ A.length A.length (by
      simp only [List.drop_left]; exact plain_no_start hB)
  · exact plain_no_colon (plain_append hA hB)

/-! ### Texts without `]`, `^` and `:` -/

theorem getD_mem (s : WString) (i : Nat) (h : i < s.length) : s.getD i 0 ∈ s := by
  rw [List.getD_eq_getElem _ _ h]
  exact List.getElem_mem _

theorem tokenFree_of_no_closing (E : EmojiMapType) (text : WString)
    (h : ∀ c ∈ text, c ≠ 93 ∧ c ≠ 94 ∧ c ≠ 58) : tokenFree E text := by
  refine ⟨?_, ?_, ?_⟩
  · intro i hi h94
    exact absurd h94 (h _ (getD_mem text i hi)).2.1
  · intro i _ j hj _ _
    exact (h _ (getD_mem text j hj)).1
  · intro i hi j _ hij
    exact absurd hij.2.1 (h _ (getD_mem text i hi)).2.2

/-! ### The line count of `DivideIntoLines` -/

theorem AddSegment_Lines (S : LineDivisionState) (b : Bool) :
    (S.AddSegment b).Lines = if b then S.Lines + 1 else S.Lines := by
  cases b <;> rfl

theorem HandleFormatSpecifier_Lines_le (S : LineDivisionState) (f : FormatSpecifier) :
    S.Lines ≤ (S.HandleFormatSpecifier f).Lines := by
  unfold LineDivisionState.HandleFormatSpecifier
  split
  · rw [AddSegment_Lines]; simp
  · simp only
    split
    · cases f.ft <;> simp
    · rw [AddSegment_Lines]
      cases f.ft <;> simp

theorem placeEmoji_Lines_le (chat : Chat) (S : LineDivisionState) (f : FormatSpecifier) :
    S.Lines ≤ (placeEmoji chat S f).Lines := by
  unfold placeEmoji
  split
  · exact le_refl _
  · simp only
    split <;> simp

theorem handleSpecifiers_Lines_le (chat : Chat) (l : List FormatSpecifier) :
    ∀ (S : LineDivisionState) (it : Nat) (b : Bool),
      S.Lines ≤ (handleSpecifiers chat l S it b).1.Lines := by
  induction l with
  | nil => intro S it b; exact le_refl _
  | cons f rest ih =>
    intro S it b
    rw [handleSpecifiers]
    split
    · split
      · refine le_trans ?_ (ih _ _ _)
        refine le_trans ?_ (placeEmoji_Lines_le chat _ f)
        rw [AddSegment_Lines]; simp
      · exact le_trans (HandleFormatSpecifier_Lines_le S f) (ih _ _ _)
    · exact le_refl _

theorem divideStep_Lines_le (chat : Chat) (text : WString) (d : DivideState) :
    d.State.Lines ≤ (divideStep chat text d).State.Lines := by
  have h := handleSpecifiers_Lines_le chat (d.FormatSpecifiers.drop d.FormatIterator) d.State
    d.FormatIterator false
  unfold divideStep
  simp only
  split
  · exact h
  · split
    · simp only [AddSegment_Lines, if_true]
      omega
    · exact h

theorem divideLoop_Lines_le (chat : Chat) (text : WString) (n : Nat) (d : DivideState) :
    d.State.Lines ≤ (divideLoop chat text n d).State.Lines := by
  induction n generalizing d with
  | zero => exact le_refl _
  | succ n ih =>
    rw [divideLoop]
    exact le_trans (divideStep_Lines_le chat text d) (ih _)

theorem DivideIntoLines_Lines_pos (chat : Chat) (cl : ChatMessage) (ChatMessageIndex : Int) :
    1 ≤ (DivideIntoLines chat cl ChatMessageIndex).1.Lines := by
  unfold DivideIntoLines
  simp only [AddSegment_Lines, if_true]
  have := divideLoop_Lines_le chat cl.ProcessedMsg cl.ProcessedMsg.length
    { FormatSpecifiers := ClearWrappingLineBreaks cl.FormatSpecifiers, FormatIterator := 0,
      State :=
        { Output := []
          CurLineSegmentInfo :=
            { LineSegmentInfo.zero with
              ChatMessageIndex := ChatMessageIndex
              Offset := 0
              PixelOffsetX := 0
              IsStartOfLine := true
              TextColor := cl.DefaultColor
              Emphasis := EmphasisType.Default }
          ChatMessageIndex := ChatMessageIndex
          MsgIndex := 0
          Lines := 0
          CurrentLinePixelLength := 0
          CurTextColor := cl.DefaultColor
          CurEmphasis := EmphasisType.Default } }
  simp only at this
  omega

theorem DivideIntoLines_empty (chat : Chat) (cl : ChatMessage) (ChatMessageIndex : Int)
    (h : cl.ProcessedMsg = []) :
    (DivideIntoLines chat cl ChatMessageIndex).1.Lines = 1
      ∧ (DivideIntoLines chat cl ChatMessageIndex).2 = [] := by
  unfold DivideIntoLines
  rw [h]
  constructor <;> rfl

/-! ### The parser emits no `Wrap` annotation -/

theorem clear_of_noWrap (l : List FormatSpecifier) (h : noWrap l) :
    ClearWrappingLineBreaks l = l := by
  unfold ClearWrappingLineBreaks
  rw [List.filter_eq_self]
  intro f hf
  have := h f hf
  simpa using this

theorem CharToFT_ne_Wrap (c : Nat) : CharToFT c ≠ FormatSpecifierType.Wrap := by
  unfold CharToFT
  simp only
  split
  · decide
  · split
    · decide
    · split
      · decide
      · split <;> decide

theorem noWrap_append_singleton (l : List FormatSpecifier) (f : FormatSpecifier)
    (hl : noWrap l) (hf : f.ft ≠ FormatSpecifierType.Wrap) : noWrap (l ++ [f]) := by
  intro g hg
  rcases List.mem_append.1 hg with h | h
  · exact hl g h
  · rw [List.mem_singleton] at h
    rw [h]; exact hf

theorem firstPassBody_noWrap (C : Nat → Nat) (m : ChatMessage) (Pos : Nat)
    (h : noWrap m.FormatSpecifiers) : noWrap (firstPassBody C m Pos).1.FormatSpecifiers := by
  unfold firstPassBody
  split
  · exact h
  · simp only
    split
    · split
      · exact noWrap_append_singleton _ _ h (fun hw => by cases hw)
      · split
        · split
          · exact noWrap_append_singleton _ _ h (fun hw => by cases hw)
          · exact h
        · exact h
    · split
      · split
        · exact h
        · simp only [ChatMessage.Erase]
          split
          · exact noWrap_append_singleton _ _ h (fun hw => by cases hw)
          · split
            · exact noWrap_append_singleton _ _ h (CharToFT_ne_Wrap _)
            · exact h
      · exact h

theorem firstPassLoop_noWrap (C : Nat → Nat) :
    ∀ (fuel : Nat) (m m' : ChatMessage) (op : Option Nat), noWrap m.FormatSpecifiers →
      firstPassLoop C fuel m op = some m' → noWrap m'.FormatSpecifiers := by
  intro fuel
  induction fuel with
  | zero => intro m m' op _ h; simp [firstPassLoop] at h
  | succ n ih =>
    intro m m' op hm h
    cases op with
    | none =>
      rw [firstPassLoop_none] at h
      cases h; exact hm
    | some p =>
      rw [firstPassLoop_some] at h
      split at h
      · exact ih _ _ _ (firstPassBody_noWrap C m p hm) h
      · cases h; exact hm

theorem secondPassLoop_noWrap (E : EmojiMapType) :
    ∀ (fuel : Nat) (m m' : ChatMessage) (sp : Nat), noWrap m.FormatSpecifiers →
      secondPassLoop E fuel m sp = some m' → noWrap m'.FormatSpecifiers := by
  intro fuel
  induction fuel with
  | zero => intro m m' sp _ h; simp [secondPassLoop] at h
  | succ n ih =>
    intro m m' sp hm h
    rw [secondPassLoop] at h
    split at h
    · cases h; exact hm
    · split at h
      · cases h; exact hm
      · simp only at h
        split at h
        · exact ih _ _ _ (noWrap_append_singleton _ _ hm (fun hw => by cases hw)) h
        · exact ih _ _ _ hm h

/-- A message that enters the parser without `Wrap` annotation leaves it without one. -/
theorem SubstituteFormatSpecifiers_noWrap (C : Nat → Nat) (E : EmojiMapType) (m m' : ChatMessage)
    (hm : noWrap m.FormatSpecifiers) (h : SubstituteFormatSpecifiers C E m = some m') :
    noWrap m'.FormatSpecifiers := by
  unfold SubstituteFormatSpecifiers at h
  split at h
  · exact absurd h (by simp)
  · rename_i m1 h1
    exact secondPassLoop_noWrap E _ _ _ _ (firstPassLoop_noWrap C _ _ _ _ hm h1) h

theorem DivideIntoLines_frame (chat : Chat) (cl : ChatMessage) (ChatMessageIndex : Int)
    (h : noWrap cl.FormatSpecifiers) :
    (DivideIntoLines chat cl ChatMessageIndex).1.ProcessedMsg = cl.ProcessedMsg
      ∧ ClearWrappingLineBreaks (DivideIntoLines chat cl ChatMessageIndex).1.FormatSpecifiers
        = cl.FormatSpecifiers := by
  refine ⟨rfl, ?_⟩
  unfold DivideIntoLines
  simp only [clear_divideLoop, clear_clear]
  exact clear_of_noWrap _ h

/-! ### `GetPos` outside the visible window -/

theorem GetPosWalk_not_reached (chat : Chat) (tab : ChatTab) (c : ChatMessage)
    (cIndex : Option Nat) (Pos : Nat) (Limit : Int) :
    ∀ (n : Nat) (nLines : Int), n ≤ tab.Messages.length →
      (∀ j, cIndex = some j → j < n →
        Limit ≤ nLines + ((((tab.Messages.take n).drop (j + 1)).map (fun m => m.Lines)).sum)) →
      GetPosWalk chat tab c cIndex Pos Limit n nLines = some (false, { x := 0, y := 0 }) := by
  intro n
  induction n with
  | zero => intro nLines _ _; rfl
  | succ n ih =>
    intro nLines hn hsum
    rw [GetPosWalk]
    split
    · rename_i hlt
      have hget : tab.Messages[n]? = some (tab.Messages[n]) := List.getElem?_eq_getElem (by omega)
      rw [hget]
      simp only
      split
      · rename_i hc
        have := hsum n hc (Nat.lt_succ_self n)
        rw [List.drop_eq_nil_of_le (by simp)] at this
        simp only [List.map_nil, List.sum_nil, add_zero] at this
        omega
      · apply ih _ (by omega)
        intro j hj hjn
        have := hsum j hj (by omega)
        rw [List.take_succ, hget] at this
        simp only [Option.toList_some] at this
        rw [List.drop_append_of_le_length (by simp only [List.length_take]; omega)] at this
        simp only [List.map_append, List.sum_append, List.map_cons, List.map_nil, List.sum_cons,
          List.sum_nil, add_zero] at this
        omega
    · rfl

theorem GetPos_not_reached (chat : Chat) (tab : ChatTab) (c : ChatMessage)
    (cIndex : Option Nat) (Pos : Nat) (hF : chat.FontHeight ≠ 0)
    (h : ∀ j, cIndex = some j → j < tab.Messages.length →
      Int.tdiv (chat.GetOutputRect.y2 - chat.GetOutputRect.y1 - 10) chat.FontHeight
        ≤ (((tab.Messages.drop (j + 1)).map (fun m => m.Lines)).sum)) :
    GetPos chat tab c cIndex Pos = some (false, { x := 0, y := 0 }) := by
  unfold GetPos
  by_cases hP : Pos > c.ProcessedMsg.length
  · rw [if_pos hP]
  · rw [if_neg hP, if_neg hF]
    simp only
    apply GetPosWalk_not_reached _ _ _ _ _ _ _ _ (le_refl _)
    intro j hj hjn
    rw [List.take_length, zero_add]
    exact h j hj hjn

/-! ### The emoji pass -/

theorem find_append (P R : WString) (c pos : Nat) (hpos : pos ≤ P.length)
    (h : ∀ x ∈ P.drop pos, x ≠ c) : find (P ++ c :: R) c pos = some P.length := by
  unfold find
  rw [List.drop_append_of_le_length hpos,
    findIdxFrom_append _ _ _ _ _ (fun x hx => by simpa using h x hx) (by simp)]
  simp only [List.length_drop]
  congr 1
  omega

theorem secondPassLoop_done (E : EmojiMapType) (fuel : Nat) (m : ChatMessage) (SearchPos : Nat)
    (h : ∀ c ∈ m.ProcessedMsg.drop SearchPos, c ≠ 58) :
    secondPassLoop E (fuel + 1) m SearchPos = some m := by
  rw [secondPassLoop, find_none _ _ _ h]

/-- Where the two `find` calls of the emoji loop land on a text `P ++ ":" ++ u ++ ":" ++ R`
scanned from a position inside `P` behind which `P` holds no `:`, when `u` holds no `:`. -/
theorem emoji_candidate (text P u R : WString) (sp : Nat)
    (htext : text = P ++ 58 :: (u ++ 58 :: R)) (hsp : sp ≤ P.length)
    (hP : ∀ x ∈ P.drop sp, x ≠ 58) (hu : ∀ x ∈ u, x ≠ 58) :
    find text 58 sp = some P.length
      ∧ find text 58 (P.length + 1) = some (P.length + 1 + u.length)
      ∧ substr text (P.length + 1) (P.length + 1 + u.length - (P.length + 1)) = u := by
  refine ⟨?_, ?_, ?_⟩
  · rw [htext]; exact find_append P _ 58 sp hsp hP
  · have h1 : text = (P ++ [58] ++ u) ++ 58 :: R := by rw [htext]; simp
    have h2 : (P ++ [58] ++ u).length = P.length + 1 + u.length := by
      simp only [List.length_append, List.length_cons, List.length_nil]
    rw [h1, ← h2]
    apply find_append
    · simp
    · intro x hx
      have h3 : (P ++ [58] ++ u).drop (P.length + 1) = u := by
        have : (P ++ [58]).length = P.length + 1 := by simp
        rw [← this, List.drop_left]
      rw [h3] at hx
      exact hu x hx
  · have h1 : text = (P ++ [58]) ++ (u ++ 58 :: R) := by rw [htext]; simp
    have h2 : (P ++ [58]).length = P.length + 1 := by simp
    rw [substr, h1, ← h2, List.drop_left, h2, Nat.add_sub_cancel_left, List.take_left]

/-- The emoji loop at a candidate whose name is empty or not registered: the text stays and
the scan resumes one position behind the opening `:`. -/
theorem secondPassLoop_skip (E : EmojiMapType) (fuel : Nat) (m : ChatMessage) (P u R : WString)
    (sp : Nat) (htext : m.ProcessedMsg = P ++ 58 :: (u ++ 58 :: R)) (hsp : sp ≤ P.length)
    (hP : ∀ x ∈ P.drop sp, x ≠ 58) (hu : ∀ x ∈ u, x ≠ 58)
    (hun : u = [] ∨ E.count u = false) :
    secondPassLoop E (fuel + 1) m sp = secondPassLoop E fuel m (P.length + 1) := by
  obtain ⟨h1, h2, h3⟩ := emoji_candidate m.ProcessedMsg P u R sp htext hsp hP hu
  rw [secondPassLoop, h1]
  simp only [h2, h3]
  rw [if_neg]
  rintro ⟨hne, hc⟩
  rcases hun with h | h
  · exact hne h
  · rw [h] at hc; exact Bool.false_ne_true hc

/-- The emoji loop at a candidate with a registered non-empty name: the span is replaced by
the placeholder (and a space when the span ends the text), the annotation is appended, and the
scan resumes one position behind the placeholder's position. -/
theorem secondPassLoop_emoji (E : EmojiMapType) (fuel : Nat) (m : ChatMessage) (P n R : WString)
    (sp : Nat) (htext : m.ProcessedMsg = P ++ 58 :: (n ++ 58 :: R)) (hsp : sp ≤ P.length)
    (hP : ∀ x ∈ P.drop sp, x ≠ 58) (hn : ∀ x ∈ n, x ≠ 58)
    (hne : n ≠ []) (hreg : E.count n = true) (hlen : m.ProcessedMsg.length < SIZE_MOD) :
    secondPassLoop E (fuel + 1) m sp
      = secondPassLoop E fuel
          (ChatMessage.mk m.Time m.OriginalMsg
            (if R = [] then P ++ [0xFFFC, 32] else P ++ [0xFFFC] ++ R) m.DefaultColor
            (m.FormatSpecifiers ++ [FormatSpecifier.ofEmoji P.length n]) m.Lines)
          (P.length + 1) := by
  obtain ⟨h1, h2, h3⟩ := emoji_candidate m.ProcessedMsg P n R sp htext hsp hP hn
  have hL : m.ProcessedMsg.length = P.length + n.length + R.length + 2 := by
    rw [htext]; simp only [List.length_append, List.length_cons]; omega
  have hrep : ∀ r : WString,
      replace m.ProcessedMsg P.length (P.length + 1 + n.length - P.length + 1) r = P ++ r ++ R := by
    intro r
    have h4 : m.ProcessedMsg = P ++ ((58 :: n ++ [58]) ++ R) := by rw [htext]; simp
    have h5 : P.length + (P.length + 1 + n.length - P.length + 1)
        = P.length + (58 :: n ++ [58]).length := by
      simp only [List.length_append, List.length_cons, List.length_nil]; omega
    rw [replace, h5, h4, List.take_left, List.drop_append, List.drop_left]
  rw [secondPassLoop, h1]
  simp only [h2, h3]
  rw [if_pos ⟨hne, hreg⟩, sizeSub_of_le _ _ (by omega) hlen]
  simp only [hrep, ChatMessage.emplace_back]
  have hR : (P.length + 1 + n.length = m.ProcessedMsg.length - 1) ↔ R = [] := by
    rw [hL, ← List.length_eq_zero]
    omega
  by_cases hRe : R = []
  · rw [if_pos (hR.2 hRe), if_pos hRe, hRe]
    simp
  · rw [if_neg (fun h => hRe (hR.1 h)), if_neg hRe]

theorem firstPassLoop_plain (C : Nat → Nat) (text : WString)
    (h : ∀ c ∈ text, [94, 91].contains c = false) :
    firstPassLoop C (2 * text.length + 2) (ChatMessage.ofText text 0)
      (find_first_of text [94, 91] 0) = some (ChatMessage.ofText text 0) := by
  rw [find_first_of_none _ _ _ (fun c hc => h c (List.mem_of_mem_drop hc))]
  exact firstPassLoop_none C (2 * text.length + 1) _

theorem after_emoji_no_colon (P R : WString) (hR : ∀ x ∈ R, x ≠ 58) :
    ∀ c ∈ (if R = [] then P ++ [0xFFFC, 32] else P ++ [0xFFFC] ++ R).drop (P.length + 1),
      c ≠ 58 := by
  intro c hc
  split at hc
  · rw [List.drop_append] at hc
    simp only [List.drop_succ_cons, List.drop_zero, List.mem_singleton] at hc
    rw [hc]; decide
  · rw [List.append_assoc, List.drop_append] at hc
    simp only [List.singleton_append, List.drop_succ_cons, List.drop_zero] at hc
    exact hR c hc

/-- Parsing `A ++ ":" ++ n ++ ":" ++ B` for a registered non-empty name `n`, with `A`, `n`, `B`
free of `^`, `[`, `]`, `:`. -/
theorem emoji_token_parse (C : Nat → Nat) (E : EmojiMapType) (A n B : WString)
    (hne : n ≠ []) (hreg : E.count n = true) (hn : plain n) (hA : plain A) (hB : plain B)
    (hlen : (A ++ [58] ++ n ++ [58] ++ B).length < SIZE_MOD) :
    parse C E (A ++ [58] ++ n ++ [58] ++ B)
      = some (if B = [] then A ++ [0xFFFC, 32] else A ++ [0xFFFC] ++ B,
          [FormatSpecifier.ofEmoji A.length n]) := by
  generalize htx : A ++ [58] ++ n ++ [58] ++ B = text at hlen ⊢
  have htext : text = A ++ 58 :: (n ++ 58 :: B) := by rw [← htx]; simp
  have hL : text.length = A.length + n.length + B.length + 2 := by
    rw [htext]; simp only [List.length_append, List.length_cons]; omega
  have hplain : ∀ c ∈ text, [94, 91].contains c = false := by
    intro c hc
    rw [htext] at hc
    simp only [List.mem_append, List.mem_cons] at hc
    rcases hc with h | rfl | h | rfl | h
    · exact plain_no_start hA c h
    · decide
    · exact plain_no_start hn c h
    · decide
    · exact plain_no_start hB c h
  refine (parse_of_passes C E text (ChatMessage.ofText text 0)
    (ChatMessage.mk 0 text (if B = [] then A ++ [0xFFFC, 32] else A ++ [0xFFFC] ++ B) 0
      ([] ++ [FormatSpecifier.ofEmoji A.length n]) 0) (firstPassLoop_plain C text hplain) ?_).trans
    rfl
  have hfuel : (ChatMessage.ofText text 0).ProcessedMsg.length + 1
      = (A.length + n.length + B.length) + 1 + 1 + 1 := by
    simp only [ChatMessage.ofText, hL]
  rw [hfuel, secondPassLoop_emoji E _ (ChatMessage.ofText text 0) A n B 0 htext (Nat.zero_le _)
    (fun x hx => plain_no_colon hA x (List.mem_of_mem_drop hx)) (plain_no_colon hn) hne hreg hlen]
  exact secondPassLoop_done E _ _ _ (after_emoji_no_colon A B (plain_no_colon hB))

/-- Parsing `A ++ ":" ++ u ++ ":" ++ n ++ ":" ++ B` for an unregistered (or empty) `u` and a
registered non-empty `n`, all parts free of `^`, `[`, `]`, `:`. -/
theorem overlapping_emoji_parse (C : Nat → Nat) (E : EmojiMapType) (A u n B : WString)
    (hu : plain u) (hun : E.count u = false)
    (hne : n ≠ []) (hreg : E.count n = true) (hn : plain n) (hA : plain A) (hB : plain B)
    (hlen : (A ++ [58] ++ u ++ [58] ++ n ++ [58] ++ B).length < SIZE_MOD) :
    parse C E (A ++ [58] ++ u ++ [58] ++ n ++ [58] ++ B)
      = some (if B = [] then A ++ [58] ++ u ++ [0xFFFC, 32] else A ++ [58] ++ u ++ [0xFFFC] ++ B,
          [FormatSpecifier.ofEmoji (A.length + 1 + u.length) n]) := by
  generalize htx : A ++ [58] ++ u ++ [58] ++ n ++ [58] ++ B = text at hlen ⊢
  have htext1 : text = A ++ 58 :: (u ++ 58 :: (n ++ 58 :: B)) := by rw [← htx]; simp
  have htext2 : text = (A ++ 58 :: u) ++ 58 :: (n ++ 58 :: B) := by rw [← htx]; simp
  have hPl : (A ++ 58 :: u).length = A.length + 1 + u.length := by
    simp only [List.length_append, List.length_cons]; omega
  have hL : text.length = A.length + u.length + n.length + B.length + 3 := by
    rw [htext1]; simp only [List.length_append, List.length_cons]; omega
  have hplain : ∀ c ∈ text, [94, 91].contains c = false := by
    intro c hc
    rw [htext1] at hc
    simp only [List.mem_append, List.mem_cons] at hc
    rcases hc with h | rfl | h | rfl | h | rfl | h
    · exact plain_no_start hA c h
    · decide
    · exact plain_no_start hu c h
    · decide
    · exact plain_no_start hn c h
    · decide
    · exact plain_no_start hB c h
  refine (parse_of_passes C E text (ChatMessage.ofText text 0)
    (ChatMessage.mk 0 text
      (if B = [] then (A ++ 58 :: u) ++ [0xFFFC, 32] else (A ++ 58 :: u) ++ [0xFFFC] ++ B) 0
      ([] ++ [FormatSpecifier.ofEmoji (A ++ 58 :: u).length n]) 0)
    (firstPassLoop_plain C text hplain) ?_).trans ?_
  · have hfuel : (ChatMessage.ofText text 0).ProcessedMsg.length + 1
        = (A.length + u.length + n.length + B.length + 1) + 1 + 1 + 1 := by
      simp only [ChatMessage.ofText, hL]
    rw [hfuel, secondPassLoop_skip E _ (ChatMessage.ofText text 0) A u (n ++ 58 :: B) 0 htext1
      (Nat.zero_le _) (fun x hx => plain_no_colon hA x (List.mem_of_mem_drop hx))
      (plain_no_colon hu) (Or.inr hun)]
    rw [secondPassLoop_emoji E _ (ChatMessage.ofText text 0) (A ++ 58 :: u) n B (A.length + 1)
      htext2 (by rw [hPl]; omega) (by
        intro x hx
        have h3 : (A ++ 58 :: u).drop (A.length + 1) = u := by
          have : A ++ 58 :: u = (A ++ [58]) ++ u := by simp
          have h4 : (A ++ [58]).length = A.length + 1 := by simp
          rw [this, ← h4, List.drop_left]
        rw [h3] at hx
        exact plain_no_colon hu x hx) (plain_no_colon hn) hne hreg hlen]
    exact secondPassLoop_done E _ _ _ (after_emoji_no_colon (A ++ 58 :: u) B (plain_no_colon hB))
  · simp only [hPl]
    split <;> simp

/-! ### Wrapping an annotation-free text -/

theorem handleSpecifiers_nil (chat : Chat) (S : LineDivisionState) (it : Nat) (b : Bool) :
    handleSpecifiers chat [] S it b = (S, it, b) := rfl

theorem AddWrappingLineBreak_at_end (l : List FormatSpecifier) (n : Int) (hn : 0 ≤ n)
    (h : ∀ f ∈ l, f.nStartPos < n) :
    AddWrappingLineBreak l n
      = (l ++ [FormatSpecifier.ofType n FormatSpecifierType.Wrap], l.length) := by
  have hn' : (if n < 0 then 0 else n) = n := if_neg (by omega)
  unfold AddWrappingLineBreak
  simp only [hn']
  by_cases hl : l = []
  · subst hl; rfl
  · simp only [hl, if_false]
    have hidx : wrapInsertIndex n l.reverse l.length = l.length := by
      cases hr : l.reverse with
      | nil => exact absurd (List.reverse_eq_nil_iff.1 hr) hl
      | cons x xs =>
        have hx : x ∈ l := by
          rw [← List.mem_reverse, hr]; exact List.mem_cons_self _ _
        rw [wrapInsertIndex, if_pos (h x hx)]
    rw [hidx, List.take_length, List.drop_length, List.append_nil]

/-- One character step of `DivideIntoLines` on a message whose annotation list holds breaks
before the current index `i` only, with the iterator at its end. -/
theorem divideStep_plain (chat : Chat) (text : WString) (i : Nat) (d : DivideState)
    (hM : d.State.MsgIndex = Int.ofNat i) (hIt : d.FormatIterator = d.FormatSpecifiers.length)
    (hlt : ∀ f ∈ d.FormatSpecifiers, f.nStartPos < Int.ofNat i) :
    (divideStep chat text d).State.MsgIndex = Int.ofNat (i + 1)
      ∧ (divideStep chat text d).FormatIterator = (divideStep chat text d).FormatSpecifiers.length
      ∧ (if d.State.CurrentLinePixelLength + chat.CharWidth (text.getD i 0) > chat.MaxLineLength
          then
            (divideStep chat text d).FormatSpecifiers = d.FormatSpecifiers ++ [wrapAt i]
            ∧ (divideStep chat text d).State.CurrentLinePixelLength
              = chat.CharWidth (text.getD i 0)
            ∧ (divideStep chat text d).State.Lines = d.State.Lines + 1
          else
            (divideStep chat text d).FormatSpecifiers = d.FormatSpecifiers
            ∧ (divideStep chat text d).State.CurrentLinePixelLength
              = d.State.CurrentLinePixelLength + chat.CharWidth (text.getD i 0)
            ∧ (divideStep chat text d).State.Lines = d.State.Lines) := by
  have hM' : d.State.MsgIndex.toNat = i := by rw [hM]; rfl
  unfold divideStep
  rw [hIt, List.drop_length, handleSpecifiers_nil]
  simp only [Bool.false_eq_true, if_false, hM']
  by_cases hw : d.State.CurrentLinePixelLength + chat.CharWidth (text.getD i 0)
      > chat.MaxLineLength
  · rw [if_pos hw, if_pos hw, hM,
      AddWrappingLineBreak_at_end d.FormatSpecifiers (Int.ofNat i) (Int.ofNat_zero_le i) hlt]
    refine ⟨?_, ?_, rfl, ?_, ?_⟩
    · show d.State.MsgIndex + 1 = Int.ofNat (i + 1)
      rw [hM]; rfl
    · show d.FormatSpecifiers.length + 1 = (d.FormatSpecifiers ++ [wrapAt i]).length
      simp
    · show (0 : Int) + chat.CharWidth (text.getD i 0) = chat.CharWidth (text.getD i 0)
      omega
    · rfl
  · rw [if_neg hw, if_neg hw]
    refine ⟨?_, rfl, rfl, rfl, rfl⟩
    show d.State.MsgIndex + 1 = Int.ofNat (i + 1)
    rw [hM]; rfl

theorem divideLoop_plain (chat : Chat) (text : WString) :
    ∀ (n i : Nat) (d : DivideState), i + n = text.length →
      d.State.MsgIndex = Int.ofNat i → d.FormatIterator = d.FormatSpecifiers.length →
      (∀ f ∈ d.FormatSpecifiers, f.nStartPos < Int.ofNat i) →
      (divideLoop chat text n d).FormatSpecifiers
          = d.FormatSpecifiers ++
            (wrapBreaksSpec chat.CharWidth chat.MaxLineLength (text.drop i) i
              d.State.CurrentLinePixelLength).map wrapAt
        ∧ (divideLoop chat text n d).State.Lines
          = d.State.Lines +
            Int.ofNat (wrapBreaksSpec chat.CharWidth chat.MaxLineLength (text.drop i) i
              d.State.CurrentLinePixelLength).length := by
  intro n
  induction n with
  | zero =>
    intro i d hi _ _ _
    rw [List.drop_of_length_le (by omega)]
    simp [divideLoop, wrapBreaksSpec]
  | succ n ih =>
    intro i d hi hM hIt hlt
    have hil : i < text.length := by omega
    obtain ⟨s1, s2, s3⟩ := divideStep_plain chat text i d hM hIt hlt
    rw [divideLoop, drop_eq_getD_cons text i hil, wrapBreaksSpec]
    by_cases hw : d.State.CurrentLinePixelLength + chat.CharWidth (text.getD i 0)
        > chat.MaxLineLength
    · rw [if_pos hw] at s3 ⊢
      obtain ⟨t1, t2, t3⟩ := s3
      obtain ⟨h1, h2⟩ := ih (i + 1) (divideStep chat text d) (by omega) s1 s2 (by
        intro f hf
        rw [t1] at hf
        simp only [List.mem_append, List.mem_singleton] at hf
        have e : Int.ofNat (i + 1) = Int.ofNat i + 1 := rfl
        rcases hf with h | rfl
        · have := hlt f h; omega
        · show Int.ofNat i < Int.ofNat (i + 1)
          omega)
      rw [h1, h2, t1, t2, t3]
      refine ⟨by simp, ?_⟩
      simp only [List.length_cons]
      have e : Int.ofNat ((wrapBreaksSpec chat.CharWidth chat.MaxLineLength (text.drop (i + 1))
          (i + 1) (chat.CharWidth (text.getD i 0))).length + 1)
          = Int.ofNat (wrapBreaksSpec chat.CharWidth chat.MaxLineLength (text.drop (i + 1))
          (i + 1) (chat.CharWidth (text.getD i 0))).length + 1 := rfl
      rw [e]; omega
    · rw [if_neg hw] at s3 ⊢
      obtain ⟨t1, t2, t3⟩ := s3
      obtain ⟨h1, h2⟩ := ih (i + 1) (divideStep chat text d) (by omega) s1 s2 (by
        intro f hf
        rw [t1] at hf
        have e : Int.ofNat (i + 1) = Int.ofNat i + 1 := rfl
        have := hlt f hf; omega)
      rw [h1, h2, t1, t2, t3]
      exact ⟨rfl, rfl⟩

theorem wrapBreaksSpec_none (cw : Nat → Int) (W : Int) :
    ∀ (text : WString) (i : Nat) (cur : Int), (∀ c ∈ text, 0 ≤ cw c) →
      cur + (text.map cw).sum ≤ W → wrapBreaksSpec cw W text i cur = [] := by
  intro text
  induction text with
  | nil => intro i cur _ _; rfl
  | cons c cs ih =>
    intro i cur hpos hsum
    have hcs : 0 ≤ (cs.map cw).sum := by
      apply List.sum_nonneg
      intro x hx
      obtain ⟨y, hy, rfl⟩ := List.mem_map.1 hx
      exact hpos y (List.mem_cons_of_mem _ hy)
    simp only [List.map_cons, List.sum_cons] at hsum
    rw [wrapBreaksSpec, if_neg (by omega)]
    exact ih (i + 1) (cur + cw c) (fun x hx => hpos x (List.mem_cons_of_mem _ hx)) (by omega)

theorem wrapBreaksSpec_one (cw : Nat → Int) (W : Int) (c : Nat) (hc : 0 < cw c) :
    ∀ (T : WString) (i : Nat) (cur : Int), (∀ x ∈ T, 0 ≤ cw x) →
      cur + (T.map cw).sum = W → wrapBreaksSpec cw W (T ++ [c]) i cur = [i + T.length] := by
  intro T
  induction T with
  | nil =>
    intro i cur _ hsum
    simp only [List.map_nil, List.sum_nil, add_zero] at hsum
    rw [List.nil_append, wrapBreaksSpec, if_pos (by omega)]
    rfl
  | cons x xs ih =>
    intro i cur hpos hsum
    have hxs : 0 ≤ (xs.map cw).sum := by
      apply List.sum_nonneg
      intro z hz
      obtain ⟨y, hy, rfl⟩ := List.mem_map.1 hz
      exact hpos y (List.mem_cons_of_mem _ hy)
    simp only [List.map_cons, List.sum_cons] at hsum
    rw [List.cons_append, wrapBreaksSpec, if_neg (by omega),
      ih (i + 1) (cur + cw x) (fun z hz => hpos z (List.mem_cons_of_mem _ hz)) (by omega)]
    simp only [List.length_cons]
    congr 1
    omega

/-- Layout of a message without annotations: the breaks are those of `wrapBreaksSpec`. -/
theorem DivideIntoLines_plain (chat : Chat) (cl : ChatMessage) (ChatMessageIndex : Int)
    (h : cl.FormatSpecifiers = []) :
    (DivideIntoLines chat cl ChatMessageIndex).1.FormatSpecifiers
        = (wrapBreaksSpec chat.CharWidth chat.MaxLineLength cl.ProcessedMsg 0 0).map wrapAt
      ∧ (DivideIntoLines chat cl ChatMessageIndex).1.Lines
        = Int.ofNat (wrapBreaksSpec chat.CharWidth chat.MaxLineLength
            cl.ProcessedMsg 0 0).length + 1 := by
  unfold DivideIntoLines
  simp only [h]
  have hc : ClearWrappingLineBreaks [] = [] := rfl
  rw [hc]
  obtain ⟨d0, hd0⟩ : ∃ d0 : DivideState, d0 =
      { FormatSpecifiers := [], FormatIterator := 0,
        State :=
          { Output := []
            CurLineSegmentInfo :=
              { LineSegmentInfo.zero with
                ChatMessageIndex := ChatMessageIndex
                Offset := 0
                PixelOffsetX := 0
                IsStartOfLine := true
                TextColor := cl.DefaultColor
                Emphasis := EmphasisType.Default }
            ChatMessageIndex := ChatMessageIndex
            MsgIndex := 0
            Lines := 0
            CurrentLinePixelLength := 0
            CurTextColor := cl.DefaultColor
            CurEmphasis := EmphasisType.Default } } := ⟨_, rfl⟩
  rw [← hd0]
  have hF : d0.FormatSpecifiers = [] := by rw [hd0]
  have hL : d0.State.Lines = 0 := by rw [hd0]
  have hP : d0.State.CurrentLinePixelLength = 0 := by rw [hd0]
  obtain ⟨h1, h2⟩ := divideLoop_plain chat cl.ProcessedMsg cl.ProcessedMsg.length 0 d0
    (by omega) (by rw [hd0]; rfl) (by rw [hd0]; rfl) (by rw [hF]; intro f hf; cases hf)
  rw [hF, hP, List.drop_zero, List.nil_append] at h1
  rw [hL, hP, List.drop_zero, zero_add] at h2
  refine ⟨h1, ?_⟩
  rw [AddSegment_Lines, if_pos rfl, h2]

/-! ### The horizontal coordinate of `GetPos` -/

theorem GetPosLineLoop_stop (c : ChatMessage) (Pos : Int) :
    ∀ (n : Nat) (i r : Int), GetPosLineLoop c Pos n i = some r → r < i + n →
      ∃ f, c.GetLineBreak r = some f ∧ Pos < f.nStartPos := by
  intro n
  induction n with
  | zero =>
    intro i r h hr
    rw [GetPosLineLoop] at h
    cases h
    simp at hr
  | succ n ih =>
    intro i r h hr
    rw [GetPosLineLoop] at h
    cases hb : c.GetLineBreak i with
    | none => rw [hb] at h; cases h
    | some f =>
      rw [hb] at h
      simp only at h
      by_cases hlt : Pos < f.nStartPos
      · rw [if_pos hlt] at h
        cases h
        exact ⟨f, hb, hlt⟩
      · rw [if_neg hlt] at h
        exact ih (i + 1) r h (by push_cast at hr; omega)

/-- The part of a line that `GetPos` measures: in a message without a line of more than `N`
characters, the offset `k` lies at most `N` characters behind the first offset `a` of the line
`r` that the line loop of `GetPos` finds, and fewer than `N` when `k` is not the end of the
text. -/
theorem linesAtMost_part (c : ChatMessage) (N : Int) (hN : c.linesAtMost N) (k : Nat)
    (hk : k ≤ c.ProcessedMsg.length) (r a : Int) (h0 : 0 ≤ r)
    (hr : (c.Lines = 1 ∧ r = 0)
      ∨ (GetPosLineLoop c k (c.Lines - 1).toNat 0 = some r ∧ r ≤ ((c.Lines - 1).toNat : Int)))
    (hstart : (if r = 0 then some (0 : Int)
        else (c.GetLineBreak (r - 1)).map (fun f => f.nStartPos)) = some a) :
    (k : Int) - a ≤ N ∧ (k < c.ProcessedMsg.length → (k : Int) - a < N) := by
  by_cases hlt : r < c.Lines - 1
  · rcases hr with ⟨h1, h2⟩ | ⟨h1, _⟩
    · omega
    · obtain ⟨f, hf, hkf⟩ := GetPosLineLoop_stop c k (c.Lines - 1).toNat 0 r h1 (by omega)
      have := hN r a f.nStartPos h0 (Or.inr (by omega)) hstart (by rw [if_pos hlt, hf]; rfl)
      omega
  · have hi : r = 0 ∨ r < c.Lines := by
      rcases hr with ⟨_, h2⟩ | ⟨_, h2⟩
      · exact Or.inl h2
      · omega
    have := hN r a (c.ProcessedMsg.length : Int) h0 hi hstart (by rw [if_neg hlt])
    omega

/-- Inside a message with a non-empty text whose line breaks exist, lie inside the text and are
ordered by position, and without a line of more than `N` characters, where `N` is at most 1022,
or at most 1023 when `k` is not the end of the text: `GetPos` measures the characters from `s`
up to `k`, where `s` is the greatest line-break position at or before `k`, or 0. -/
theorem GetPosInMessage_x (chat : Chat) (c : ChatMessage) (k : Nat)
    (hk : k ≤ c.ProcessedMsg.length) (hne : c.ProcessedMsg ≠ [])
    (hnul : ∀ x ∈ c.ProcessedMsg, x ≠ 0)
    (N : Int) (hN : c.linesAtMost N)
    (hkN : N ≤ 1022 ∨ (k < c.ProcessedMsg.length ∧ N ≤ 1023))
    (hbreaks : ∀ i : Int, 0 ≤ i → i < c.Lines - 1 →
      ∃ f, c.GetLineBreak i = some f ∧ 0 ≤ f.nStartPos
        ∧ f.nStartPos < (c.ProcessedMsg.length : Int))
    (hsorted : ∀ (i j : Int) (f g : FormatSpecifier), 0 ≤ i → i ≤ j → j < c.Lines - 1 →
      c.GetLineBreak i = some f → c.GetLineBreak j = some g → f.nStartPos ≤ g.nStartPos) :
    ∃ (nLine : Int) (s : Nat),
      GetPosInMessage chat c k
          = some (nLine, chat.GetWidth ((c.ProcessedMsg.drop s).take (k - s)))
        ∧ s ≤ k
        ∧ (s = 0 ∨ ∃ (i : Int) (f : FormatSpecifier), 0 ≤ i ∧ i < c.Lines - 1
            ∧ c.GetLineBreak i = some f ∧ f.nStartPos = (s : Int))
        ∧ (∀ (i : Int) (f : FormatSpecifier), 0 ≤ i → i < c.Lines - 1 →
            c.GetLineBreak i = some f → f.nStartPos ≤ (k : Int) → f.nStartPos ≤ (s : Int)) := by
  have hlen : 0 < c.ProcessedMsg.length := List.length_pos.2 hne
  have hpart : ∀ (r : Int) (s : Nat), 0 ≤ r →
      ((c.Lines = 1 ∧ r = 0)
        ∨ (GetPosLineLoop c k (c.Lines - 1).toNat 0 = some r
          ∧ r ≤ ((c.Lines - 1).toNat : Int))) →
      (if r = 0 then some (0 : Int)
        else (c.GetLineBreak (r - 1)).map (fun f => f.nStartPos)) = some (s : Int) →
      k - s ≤ 1022 := by
    intro r s h0 hr hst
    have := linesAtMost_part c N hN k hk r (s : Int) h0 hr hst
    omega
  have hfin : ∀ (nLine : Int) (s : Nat), s ≤ k → s < c.ProcessedMsg.length → k - s ≤ 1022 →
      (match (some (nLine, (s : Int)) : Option (Int × Int)) with
        | none => none
        | some (nLine, nOffset) =>
          if 0 ≤ nOffset ∧ nOffset < c.ProcessedMsg.length then
            some (nLine,
              chat.GetWidth (formatPrecS [] ((k : Int) - nOffset).toNat
                (c.ProcessedMsg.drop nOffset.toNat) [95]) - chat.GetWidth [95])
          else none)
        = some (nLine, chat.GetWidth ((c.ProcessedMsg.drop s).take (k - s))) := by
    intro nLine s hsk hs hbuf
    simp only
    rw [if_pos ⟨Int.natCast_nonneg _, by exact_mod_cast hs⟩]
    simp only [Int.toNat_ofNat]
    rw [GetPos_width chat _ s k hsk hbuf hnul]
  by_cases hL : c.Lines = 1
  · refine ⟨0, 0, ?_, Nat.zero_le _, Or.inl rfl, ?_⟩
    · unfold GetPosInMessage
      rw [if_pos hL]
      exact hfin 0 0 (Nat.zero_le _) hlen
        (hpart 0 0 (le_refl _) (Or.inl ⟨hL, rfl⟩) (by rw [if_pos rfl]; rfl))
    · intro i f h0 h1 _ _
      omega
  · obtain ⟨r, hr, h1, h2, h3⟩ := GetPosLineLoop_spec c k
      (fun f => 0 ≤ f.nStartPos ∧ f.nStartPos < (c.ProcessedMsg.length : Int))
      (c.Lines - 1).toNat 0 (fun j hj1 hj2 => hbreaks j hj1 (by omega))
    by_cases hr0 : r > 0
    · obtain ⟨f, hf, hfk, hf0, hflen⟩ := h3 hr0
      clear h3
      refine ⟨r, f.nStartPos.toNat, ?_, by omega, Or.inr ⟨r - 1, f, by omega, by omega, hf, ?_⟩,
        ?_⟩
      · unfold GetPosInMessage
        rw [if_neg hL, hr]
        simp only [hr0, if_true, hf]
        have e : f.nStartPos = ((f.nStartPos.toNat : Nat) : Int) :=
          (Int.toNat_of_nonneg hf0).symm
        have hst : (if r = 0 then some (0 : Int)
            else (c.GetLineBreak (r - 1)).map (fun f => f.nStartPos))
            = some ((f.nStartPos.toNat : Nat) : Int) := by
          rw [if_neg (by omega), hf, ← e]
          rfl
        rw [e]
        exact hfin r f.nStartPos.toNat (by omega) (by omega)
          (hpart r f.nStartPos.toNat (by omega) (Or.inr ⟨hr, by omega⟩) hst)
      · exact (Int.toNat_of_nonneg hf0).symm
      · intro i g hi0 hi1 hg hgk
        rw [Int.toNat_of_nonneg hf0]
        by_cases hir : i ≤ r - 1
        · exact hsorted i (r - 1) g f hi0 hir (by omega) hg hf
        · have hrl : r < 0 + ((c.Lines - 1).toNat : Int) := by omega
          obtain ⟨f', hf', hkf'⟩ := GetPosLineLoop_stop c k (c.Lines - 1).toNat 0 r hr hrl
          have := hsorted r i f' g (by omega) (by omega) hi1 hf' hg
          omega
    · have hr00 : r = 0 := by omega
      clear h3
      subst hr00
      refine ⟨0, 0, ?_, Nat.zero_le _, Or.inl rfl, ?_⟩
      · unfold GetPosInMessage
        rw [if_neg hL, hr]
        simp only [gt_iff_lt, lt_self_iff_false, if_false]
        exact hfin 0 0 (Nat.zero_le _) hlen
          (hpart 0 0 (le_refl _) (Or.inr ⟨hr, by omega⟩) (by rw [if_pos rfl]; rfl))
      · intro i g hi0 hi1 hg hgk
        have hrl : (0 : Int) < 0 + ((c.Lines - 1).toNat : Int) := by omega
        obtain ⟨f', hf', hkf'⟩ := GetPosLineLoop_stop c k (c.Lines - 1).toNat 0 0 hr hrl
        have := hsorted 0 i f' g (le_refl _) hi0 hi1 hf' hg
        omega

theorem GetPosWalk_reached (chat : Chat) (tab : ChatTab) (c : ChatMessage) (j Pos : Nat)
    (Limit nLine x : Int) (hx : GetPosInMessage chat c Pos = some (nLine, x)) :
    ∀ (n : Nat) (nLines : Int), j < n → n ≤ tab.Messages.length →
      (∀ i, j ≤ i → i < n →
        nLines + ((((tab.Messages.take n).drop (i + 1)).map (fun m => m.Lines)).sum) < Limit) →
      ∃ y, GetPosWalk chat tab c (some j) Pos Limit n nLines
        = some (true, { x := chat.GetOutputRect.x1 + 5 + x, y := y }) := by
  intro n
  induction n with
  | zero => intro nLines hj; omega
  | succ n ih =>
    intro nLines hj hn hsum
    have hget : tab.Messages[n]? = some (tab.Messages[n]) := List.getElem?_eq_getElem (by omega)
    have hfirst := hsum n (by omega) (Nat.lt_succ_self n)
    rw [List.drop_eq_nil_of_le (by simp)] at hfirst
    simp only [List.map_nil, List.sum_nil, add_zero] at hfirst
    rw [GetPosWalk, if_pos hfirst, hget]
    simp only
    by_cases hc : j = n
    · subst hc
      rw [if_pos rfl, hx]
      exact ⟨_, rfl⟩
    · rw [if_neg (by intro h; cases h; exact hc rfl)]
      apply ih _ (by omega) (by omega)
      intro i hi hin
      have := hsum i hi (by omega)
      rw [List.take_succ, hget] at this
      simp only [Option.toList_some] at this
      rw [List.drop_append_of_le_length (by simp only [List.length_take]; omega)] at this
      simp only [List.map_append, List.sum_append, List.map_cons, List.map_nil, List.sum_cons,
        List.sum_nil, add_zero] at this
      omega

/-- The horizontal coordinate of `GetPos` for a visible message with a non-empty text and
without a line of more than `N` characters, where `N` is at most 1022, or at most 1023 when `k`
is not the end of the text: it is `Output.x1 + 5` plus the width of the characters from `s` up to `k`, where `s` is the greatest
line-break position at or before `k`, or 0 when there is none. -/
theorem GetPos_x_nonempty (chat : Chat) (tab : ChatTab) (c : ChatMessage) (j k : Nat)
    (hF : chat.FontHeight ≠ 0) (hj : j < tab.Messages.length)
    (hvis : ∀ i, j ≤ i → i < tab.Messages.length →
      ((tab.Messages.drop (i + 1)).map (fun m => m.Lines)).sum
        < Int.tdiv (chat.GetOutputRect.y2 - chat.GetOutputRect.y1 - 10) chat.FontHeight)
    (hk : k ≤ c.ProcessedMsg.length) (hne : c.ProcessedMsg ≠ [])
    (hnul : ∀ x ∈ c.ProcessedMsg, x ≠ 0)
    (N : Int) (hN : c.linesAtMost N)
    (hkN : N ≤ 1022 ∨ (k < c.ProcessedMsg.length ∧ N ≤ 1023))
    (hbreaks : ∀ i : Int, 0 ≤ i → i < c.Lines - 1 →
      ∃ f, c.GetLineBreak i = some f ∧ 0 ≤ f.nStartPos
        ∧ f.nStartPos < (c.ProcessedMsg.length : Int))
    (hsorted : ∀ (i j : Int) (f g : FormatSpecifier), 0 ≤ i → i ≤ j → j < c.Lines - 1 →
      c.GetLineBreak i = some f → c.GetLineBreak j = some g → f.nStartPos ≤ g.nStartPos) :
    ∃ (s : Nat) (y : Int),
      GetPos chat tab c (some j) k
          = some (true, { x := chat.GetOutputRect.x1 + 5
                            + chat.GetWidth ((c.ProcessedMsg.drop s).take (k - s)), y := y })
        ∧ s ≤ k
        ∧ (s = 0 ∨ ∃ (i : Int) (f : FormatSpecifier), 0 ≤ i ∧ i < c.Lines - 1
            ∧ c.GetLineBreak i = some f ∧ f.nStartPos = (s : Int))
        ∧ (∀ (i : Int) (f : FormatSpecifier), 0 ≤ i → i < c.Lines - 1 →
            c.GetLineBreak i = some f → f.nStartPos ≤ (k : Int) → f.nStartPos ≤ (s : Int)) := by
  obtain ⟨nLine, s, hx, hsk, hs, hmax⟩ :=
    GetPosInMessage_x chat c k hk hne hnul N hN hkN hbreaks hsorted
  obtain ⟨y, hy⟩ := GetPosWalk_reached chat tab c j k
    (Int.tdiv (chat.GetOutputRect.y2 - chat.GetOutputRect.y1 - 10) chat.FontHeight) nLine _ hx
    tab.Messages.length 0 hj (le_refl _) (by
      intro i hi hin
      rw [List.take_length, zero_add]
      exact hvis i hi hin)
  refine ⟨s, y, ?_, hsk, hs, hmax⟩
  unfold GetPos
  rw [if_neg (by omega), if_neg hF]
  exact hy

/-! ### Bracket spans of any length -/

/-- A bracket span `[M]` with a non-empty `M` that holds no `]`, between plain texts: the whole
span is erased, and the annotation depends on the first character of `M` and on its length. -/
theorem bracket_span_parse (C : Nat → Nat) (E : EmojiMapType) (A M B : WString)
    (hM : M ≠ []) (h93 : ∀ c ∈ M, c ≠ 93)
    (hA : plain A) (hB : plain B) (hlen : (A ++ [91] ++ M ++ [93] ++ B).length < SIZE_MOD) :
    parse C E (A ++ [91] ++ M ++ [93] ++ B)
      = some (A ++ B,
          if M.getD 0 0 = 47 ∧ (M.length = 1 ∨ M.length = 2) then
            [FormatSpecifier.ofType A.length FormatSpecifierType.Default]
          else if CharToFT (M.getD 0 0) ≠ FormatSpecifierType.Unknown then
            [FormatSpecifier.ofType A.length (CharToFT (M.getD 0 0))]
          else []) := by
  generalize htx : A ++ [91] ++ M ++ [93] ++ B = text at hlen ⊢
  have htext : text = A ++ 91 :: (M ++ 93 :: B) := by rw [← htx]; simp
  have hL : text.length = A.length + M.length + B.length + 2 := by
    rw [htext]; simp only [List.length_append, List.length_cons]; omega
  have hMl : 0 < M.length := List.length_pos.2 hM
  have hfind : find_first_of text [94, 91] 0 = some A.length := by
    rw [htext]
    exact find_first_of_append A _ _ 91 0 (Nat.zero_le _) (plain_no_start hA) (by decide)
  have hbody := firstPassBody_bracket C (ChatMessage.ofText text 0) A M B hM
    (by intro c hc; simp [h93 c hc]) htext
  simp only [ChatMessage.ofText, List.nil_append] at hbody
  have hfuel : 2 * text.length + 2 = (2 * text.length) + 1 + 1 := by omega
  refine (parse_of_first_pass C E text
    (ChatMessage.mk 0 text (A ++ B) 0
      (if M.getD 0 0 = 47 ∧ (M.length = 1 ∨ M.length = 2) then
        [FormatSpecifier.ofType A.length FormatSpecifierType.Default]
      else if CharToFT (M.getD 0 0) ≠ FormatSpecifierType.Unknown then
        [FormatSpecifier.ofType A.length (CharToFT (M.getD 0 0))]
      else []) 0) ?_ ?_).trans rfl
  · rw [hfind, hfuel, firstPassLoop_some,
      if_pos (by
        simp only [ChatMessage.ofText]
        rw [hL, sizeSub_of_le _ _ (by omega) (by omega)]; omega)]
    simp only [ChatMessage.ofText, hbody, if_true]
    exact firstPassLoop_done C _ _ A.length A.length (by
      simp only [List.drop_left]; exact plain_no_start hB)
  · exact plain_no_colon (plain_append hA hB)

/-! ### The re-layout of a dirty tab returns -/

theorem hitTestWalk_stop (chat : Chat) (cl : ChatMessage) (x : Int) (n : Nat) (Len Pos : Int)
    (h : ¬ x > Len) : hitTestWalk chat cl x n Len Pos = some (Len, Pos) := by
  cases n with
  | zero => rfl
  | succ n => rw [hitTestWalk, if_neg (fun hc => h hc.1)]

theorem GetWidth_drop_pos (chat : Chat) (s : WString) (p : Nat)
    (h : 0 < chat.GetWidth (s.drop p)) : p < s.length := by
  by_contra hc
  rw [List.drop_of_length_le (by omega)] at h
  simp [Chat.GetWidth] at h

theorem tdiv_two_lt (w : Int) (h : 0 < w) : Int.tdiv w 2 < w := by
  have h1 := Int.tdiv_add_tmod w 2
  have h2 : 0 ≤ Int.tmod w 2 := Int.tmod_nonneg 2 (le_of_lt h)
  have h3 : 0 ≤ Int.tdiv w 2 := Int.tdiv_nonneg (le_of_lt h) (by norm_num)
  by_contra hc
  have : w ≤ Int.tdiv w 2 := by omega
  omega

/-- The walk of the hit-test from offset `p` with `Len` pixels accumulated, followed by the step
back and the half-width test, picks the character that the rule of the spec picks. -/
theorem hitTestWalk_spec (chat : Chat) (cl : ChatMessage) (x : Int)
    (hw : ∀ c ∈ cl.ProcessedMsg, 0 < chat.CharWidth c)
    (hnul : ∀ c ∈ cl.ProcessedMsg, c ≠ 0) :
    ∀ (n p : Nat) (Len : Int), p + n = cl.ProcessedMsg.length → x > Len →
      x < Len + chat.GetWidth (cl.ProcessedMsg.drop p) →
      ∃ (L : Int) (P : Nat), hitTestWalk chat cl x n Len (p : Int) = some (L, (P : Int))
        ∧ p < P ∧ P ≤ cl.ProcessedMsg.length
        ∧ hitTestSpec chat.CharWidth x (cl.ProcessedMsg.drop p) (p : Int) Len
          = some (if L - Int.tdiv (chat.CharWidth (cl.ProcessedMsg.getD (P - 1) 0)) 2 > x
              then (P : Int) - 1 - 1 else (P : Int) - 1) := by
  intro n
  induction n with
  | zero =>
    intro p Len hp hx hin
    rw [List.drop_of_length_le (by omega)] at hin
    simp only [Chat.GetWidth, List.map_nil, List.sum_nil, add_zero] at hin
    omega
  | succ n ih =>
    intro p Len hp hx hin
    have hlt : p < cl.ProcessedMsg.length := by omega
    have hmem : cl.ProcessedMsg.getD p 0 ∈ cl.ProcessedMsg := getD_mem _ _ hlt
    have hwp : 0 < chat.CharWidth (cl.ProcessedMsg.getD p 0) := hw _ hmem
    have hdrop := drop_eq_getD_cons cl.ProcessedMsg p hlt
    have hsplit : chat.GetWidth (cl.ProcessedMsg.drop p)
        = chat.CharWidth (cl.ProcessedMsg.getD p 0) + chat.GetWidth (cl.ProcessedMsg.drop (p + 1)) := by
      rw [hdrop]
      simp [Chat.GetWidth]
    have hcast : ((p : Int) + 1) = ((p + 1 : Nat) : Int) := by push_cast; rfl
    rw [hitTestWalk, if_pos ⟨hx, by exact_mod_cast hlt⟩, GetTextLen_one chat cl p hlt hnul]
    simp only
    rw [hdrop, hitTestSpec]
    by_cases hgt : Len + chat.CharWidth (cl.ProcessedMsg.getD p 0) > x
    · rw [hitTestWalk_stop chat cl x n _ _ (by omega), if_pos hgt, hcast]
      refine ⟨_, p + 1, rfl, by omega, by omega, ?_⟩
      simp only [Nat.add_sub_cancel]
      by_cases hh : Int.tdiv (chat.CharWidth (cl.ProcessedMsg.getD p 0)) 2
          < Len + chat.CharWidth (cl.ProcessedMsg.getD p 0) - x
      · rw [if_pos hh, if_pos (by omega)]
        congr 1
        push_cast
        omega
      · rw [if_neg hh, if_neg (by omega)]
        congr 1
        push_cast
        omega
    · rw [if_neg hgt]
      by_cases heq : Len + chat.CharWidth (cl.ProcessedMsg.getD p 0) = x
      · rw [hitTestWalk_stop chat cl x n _ _ (by omega), hcast]
        have hnext : p + 1 < cl.ProcessedMsg.length :=
          GetWidth_drop_pos chat _ _ (by omega)
        have hw2 : 0 < chat.CharWidth (cl.ProcessedMsg.getD (p + 1) 0) :=
          hw _ (getD_mem _ _ hnext)
        have hd2 := tdiv_two_lt _ hw2
        have hd0 : 0 ≤ Int.tdiv (chat.CharWidth (cl.ProcessedMsg.getD p 0)) 2 :=
          Int.tdiv_nonneg (le_of_lt hwp) (by norm_num)
        refine ⟨_, p + 1, rfl, by omega, by omega, ?_⟩
        simp only [Nat.add_sub_cancel]
        rw [drop_eq_getD_cons cl.ProcessedMsg (p + 1) hnext, hitTestSpec, if_pos (by omega),
          if_pos (by omega), if_neg (by omega)]
      · obtain ⟨L, P, h1, h2, h3, h4⟩ := ih (p + 1)
          (Len + chat.CharWidth (cl.ProcessedMsg.getD p 0)) (by omega) (by omega) (by omega)
        rw [hcast]
        exact ⟨L, P, h1, by omega, h3, h4⟩

/-- The selection hit-test on the line that starts at offset `s`, for a pixel offset inside the
width of the text from `s` on, stores the offset that the rule of the spec picks. -/
theorem hitTestInMessage_spec (chat : Chat) (cl : ChatMessage) (RelLine : Int) (s : Nat) (x : Int)
    (hstart : (if RelLine = 0 then some (0 : Int)
        else (cl.GetLineBreak (RelLine - 1)).map (fun f => f.nStartPos)) = some (s : Int))
    (hw : ∀ c ∈ cl.ProcessedMsg, 0 < chat.CharWidth c)
    (hnul : ∀ c ∈ cl.ProcessedMsg, c ≠ 0)
    (hx : 0 < x) (hin : x < chat.GetWidth (cl.ProcessedMsg.drop s)) :
    ∃ r, hitTestInMessage chat cl RelLine x = some r
      ∧ hitTestSpec chat.CharWidth x (cl.ProcessedMsg.drop s) (s : Int) 0 = some r := by
  have hs : s < cl.ProcessedMsg.length := GetWidth_drop_pos chat _ _ (by omega)
  have hfuel : ((cl.ProcessedMsg.length : Int) - (s : Int)).toNat = cl.ProcessedMsg.length - s := by
    omega
  obtain ⟨L, P, h1, h2, h3, h4⟩ := hitTestWalk_spec chat cl x hw hnul
    (cl.ProcessedMsg.length - s) s 0 (by omega) hx (by omega)
  refine ⟨_, ?_, h4⟩
  unfold hitTestInMessage
  simp only [hstart]
  rw [hfuel, h1]
  simp only
  have hP : ((P : Int) - 1) = ((P - 1 : Nat) : Int) := by omega
  rw [hP, GetTextLen_one chat cl (P - 1) (by omega) hnul]
  simp only
  split <;> rfl

/-! ### What the parser leaves in the annotation list -/

theorem CharToFT_cases (c : Nat) :
    CharToFT c = FormatSpecifierType.Bold ∨ CharToFT c = FormatSpecifierType.Italic
      ∨ CharToFT c = FormatSpecifierType.Strikethrough
      ∨ CharToFT c = FormatSpecifierType.Underline
      ∨ CharToFT c = FormatSpecifierType.Unknown := by
  unfold CharToFT
  simp only
  split
  · exact Or.inl rfl
  · split
    · exact Or.inr (Or.inl rfl)
    · split
      · exact Or.inr (Or.inr (Or.inl rfl))
      · split
        · exact Or.inr (Or.inr (Or.inr (Or.inl rfl)))
        · exact Or.inr (Or.inr (Or.inr (Or.inr rfl)))

theorem styleOnly_append_singleton (l : List FormatSpecifier) (f : FormatSpecifier)
    (hl : styleOnly l)
    (hf : f.ft ≠ FormatSpecifierType.Wrap ∧ f.ft ≠ FormatSpecifierType.Linebreak
      ∧ f.ft ≠ FormatSpecifierType.Emoji) : styleOnly (l ++ [f]) := by
  intro g hg
  rcases List.mem_append.1 hg with h | h
  · exact hl g h
  · rw [List.mem_singleton] at h
    rw [h]; exact hf

theorem styleOnly_fixed (f : FormatSpecifier)
    (h : f.ft = FormatSpecifierType.Color ∨ f.ft = FormatSpecifierType.Default) :
    f.ft ≠ FormatSpecifierType.Wrap ∧ f.ft ≠ FormatSpecifierType.Linebreak
      ∧ f.ft ≠ FormatSpecifierType.Emoji := by
  rcases h with h | h <;> rw [h] <;> decide

theorem styleOnly_CharToFT (p : Int) (c : Nat) :
    (FormatSpecifier.ofType p (CharToFT c)).ft ≠ FormatSpecifierType.Wrap
      ∧ (FormatSpecifier.ofType p (CharToFT c)).ft ≠ FormatSpecifierType.Linebreak
      ∧ (FormatSpecifier.ofType p (CharToFT c)).ft ≠ FormatSpecifierType.Emoji := by
  show CharToFT c ≠ _ ∧ CharToFT c ≠ _ ∧ CharToFT c ≠ _
  rcases CharToFT_cases c with h | h | h | h | h <;> rw [h] <;> decide

theorem firstPassBody_styleOnly (C : Nat → Nat) (m : ChatMessage) (Pos : Nat)
    (h : styleOnly m.FormatSpecifiers) : styleOnly (firstPassBody C m Pos).1.FormatSpecifiers := by
  unfold firstPassBody
  split
  · exact h
  · simp only
    split
    · split
      · exact styleOnly_append_singleton _ _ h (styleOnly_fixed _ (Or.inl rfl))
      · split
        · split
          · exact styleOnly_append_singleton _ _ h (styleOnly_fixed _ (Or.inl rfl))
          · exact h
        · exact h
    · split
      · split
        · exact h
        · simp only [ChatMessage.Erase]
          split
          · exact styleOnly_append_singleton _ _ h (styleOnly_fixed _ (Or.inr rfl))
          · split
            · exact styleOnly_append_singleton _ _ h (styleOnly_CharToFT _ _)
            · exact h
      · exact h

theorem firstPassLoop_styleOnly (C : Nat → Nat) :
    ∀ (fuel : Nat) (m m' : ChatMessage) (op : Option Nat), styleOnly m.FormatSpecifiers →
      firstPassLoop C fuel m op = some m' → styleOnly m'.FormatSpecifiers := by
  intro fuel
  induction fuel with
  | zero => intro m m' op _ h; simp [firstPassLoop] at h
  | succ n ih =>
    intro m m' op hm h
    cases op with
    | none =>
      rw [firstPassLoop_none] at h
      cases h; exact hm
    | some p =>
      rw [firstPassLoop_some] at h
      split at h
      · exact ih _ _ _ (firstPassBody_styleOnly C m p hm) h
      · cases h; exact hm

theorem emojiLast_of_noEmoji (l : List FormatSpecifier) (h : noEmoji l) : emojiLast l := by
  unfold emojiLast
  induction l with
  | nil => exact List.Pairwise.nil
  | cons a t ih =>
    exact List.Pairwise.cons (fun b _ hae => absurd hae (h a (List.mem_cons_self _ _)))
      (ih (fun f hf => h f (List.mem_cons_of_mem _ hf)))

/-- The emoji pass keeps the list free of `Linebreak` annotations, appends each `Emoji`
annotation at a position that is greater than those of the `Emoji` annotations before it, and
takes its names from the emoji map. -/
theorem secondPassLoop_annotations (E : EmojiMapType) :
    ∀ (fuel : Nat) (m m' : ChatMessage) (sp : Nat),
      noLinebreak m.FormatSpecifiers → emojiLast m.FormatSpecifiers →
      emojiRegistered E m.FormatSpecifiers →
      (∀ f ∈ m.FormatSpecifiers, f.ft = FormatSpecifierType.Emoji → f.nStartPos < (sp : Int)) →
      secondPassLoop E fuel m sp = some m' →
      noLinebreak m'.FormatSpecifiers ∧ emojiLast m'.FormatSpecifiers
        ∧ emojiRegistered E m'.FormatSpecifiers := by
  intro fuel
  induction fuel with
  | zero => intro m m' sp _ _ _ _ h; simp [secondPassLoop] at h
  | succ n ih =>
    intro m m' sp h1 h2 h3 h4 h
    rw [secondPassLoop] at h
    split at h
    · cases h; exact ⟨h1, h2, h3⟩
    · rename_i p hp
      have hsp : sp ≤ p := (find_some _ _ _ _ hp).1
      split at h
      · cases h; exact ⟨h1, h2, h3⟩
      · simp only at h
        split at h
        · rename_i hname
          refine ih _ _ _ ?_ ?_ ?_ ?_ h
          · intro f hf
            rcases List.mem_append.1 hf with hf | hf
            · exact h1 f hf
            · rw [List.mem_singleton] at hf
              rw [hf]; exact fun hw => by cases hw
          · show List.Pairwise _ (m.FormatSpecifiers ++ [_])
            rw [List.pairwise_append]
            refine ⟨h2, List.pairwise_singleton _ _, ?_⟩
            intro a ha b hb hae
            rw [List.mem_singleton] at hb
            rw [hb]
            have := h4 a ha hae
            show a.nStartPos < (p : Int)
            omega
          · intro f hf hfe
            rcases List.mem_append.1 hf with hf | hf
            · exact h3 f hf hfe
            · rw [List.mem_singleton] at hf
              rw [hf]; exact hname.2
          · intro f hf hfe
            rcases List.mem_append.1 hf with hf | hf
            · have := h4 f hf hfe
              push_cast; omega
            · rw [List.mem_singleton] at hf
              rw [hf]
              show (p : Int) < ((p + 1 : Nat) : Int)
              push_cast; omega
        · refine ih _ _ _ h1 h2 h3 ?_ h
          intro f hf hfe
          have := h4 f hf hfe
          push_cast; omega

/-- The annotation list of a parsed message holds no `Wrap` and no `Linebreak` annotation, its
`Emoji` annotations are followed by greater positions only, and their names are keys of the
emoji map. -/
theorem SubstituteFormatSpecifiers_annotations (C : Nat → Nat) (E : EmojiMapType)
    (text : WString) (DefaultColor : Nat) (m : ChatMessage)
    (h : SubstituteFormatSpecifiers C E (ChatMessage.ofText text DefaultColor) = some m) :
    noWrap m.FormatSpecifiers ∧ noLinebreak m.FormatSpecifiers ∧ emojiLast m.FormatSpecifiers
      ∧ emojiRegistered E m.FormatSpecifiers := by
  have hw := SubstituteFormatSpecifiers_noWrap C E _ m (fun f hf => by cases hf) h
  unfold SubstituteFormatSpecifiers at h
  split at h
  · exact absurd h (by simp)
  · rename_i m1 hm1
    have hs : styleOnly m1.FormatSpecifiers :=
      firstPassLoop_styleOnly C _ _ _ _ (fun f hf => by cases hf) hm1
    have := secondPassLoop_annotations E _ m1 m 0 (fun f hf => (hs f hf).2.1)
      (emojiLast_of_noEmoji _ (fun f hf => (hs f hf).2.2))
      (fun f hf hfe => absurd hfe (hs f hf).2.2)
      (fun f hf hfe => absurd hfe (hs f hf).2.2) h
    exact ⟨hw, this⟩

/-! ### The annotation loop of `DivideIntoLines` -/

theorem sameLayout_symm (S T : LineDivisionState) (h : sameLayout S T) : sameLayout T S := by
  obtain ⟨h1, h2, h3, h4, h5, h6, h7⟩ := h
  exact ⟨h1.symm, h2.symm, h3.symm, h4.symm, h5.symm, h6.symm, h7.symm⟩

/-- An annotation other than `Linebreak` either changes the pending colour and emphasis only,
or changes the current colour and emphasis and then calls `AddSegment(false)`. -/
theorem HandleFormatSpecifier_cases (S : LineDivisionState) (f : FormatSpecifier)
    (hf : f.ft ≠ FormatSpecifierType.Linebreak) :
    sameLayout S (S.HandleFormatSpecifier f)
      ∨ ∃ S1, sameLayout S S1 ∧ S1.MsgIndex - S1.CurLineSegmentInfo.Offset ≠ 0
          ∧ S.HandleFormatSpecifier f = S1.AddSegment false := by
  unfold LineDivisionState.HandleFormatSpecifier
  rw [if_neg hf]
  simp only
  split
  · left
    cases f.ft <;> exact ⟨rfl, rfl, rfl, rfl, rfl, rfl, rfl⟩
  · rename_i hne
    right
    refine ⟨_, ?_, hne, rfl⟩
    cases f.ft <;> exact ⟨rfl, rfl, rfl, rfl, rfl, rfl, rfl⟩

theorem HandleFormatSpecifier_inv (P : LineDivisionState → Prop)
    (hcongr : ∀ S T, sameLayout S T → P S → P T)
    (hadd : ∀ S, P S → S.MsgIndex - S.CurLineSegmentInfo.Offset ≠ 0 → P (S.AddSegment false))
    (S : LineDivisionState) (f : FormatSpecifier) (hf : f.ft ≠ FormatSpecifierType.Linebreak)
    (hS : P S) : P (S.HandleFormatSpecifier f) := by
  rcases HandleFormatSpecifier_cases S f hf with h | ⟨S1, h1, hne, h2⟩
  · exact hcongr _ _ h hS
  · rw [h2]
    exact hadd S1 (hcongr _ _ h1 hS) hne

theorem placeEmoji_MsgIndex (chat : Chat) (S : LineDivisionState) (f : FormatSpecifier) :
    (placeEmoji chat S f).MsgIndex = S.MsgIndex := by
  unfold placeEmoji
  split
  · rfl
  · simp only
    split <;> rfl

theorem handleSpecifiers_stop (chat : Chat) (rest : List FormatSpecifier)
    (S : LineDivisionState) (it : Nat) (handled : Bool)
    (h : ∀ f ∈ rest, f.nStartPos ≠ S.MsgIndex) :
    handleSpecifiers chat rest S it handled = (S, it, handled) := by
  cases rest with
  | nil => rfl
  | cons f rest => rw [handleSpecifiers, if_neg (h f (List.mem_cons_self _ _))]

/-- The annotation loop keeps a property `P` of the division state that the style annotations
and `AddSegment(false)` keep; an emoji may leave the state in `P'` instead, and then ends the
loop with `bHandledAsObject` set. -/
theorem handleSpecifiers_inv (chat : Chat) (A : FormatSpecifier → Prop)
    (P P' : LineDivisionState → Prop)
    (hcongr : ∀ S T, sameLayout S T → P S → P T)
    (hadd : ∀ S, P S → P (S.AddSegment false))
    (hemoji : ∀ S f, P S → A f → f.ft = FormatSpecifierType.Emoji →
      P (placeEmoji chat (S.AddSegment false) f) ∨ P' (placeEmoji chat (S.AddSegment false) f)) :
    ∀ (rest : List FormatSpecifier) (S : LineDivisionState) (it : Nat) (handled : Bool),
      noLinebreak rest → emojiLast rest → (∀ f ∈ rest, A f) → P S →
      P (handleSpecifiers chat rest S it handled).1
        ∨ (P' (handleSpecifiers chat rest S it handled).1
          ∧ (handleSpecifiers chat rest S it handled).2.2 = true) := by
  intro rest
  induction rest with
  | nil => intro S it handled _ _ _ hS; exact Or.inl hS
  | cons f rest ih =>
    intro S it handled hL hQ hA hS
    have hL' : noLinebreak rest := fun g hg => hL g (List.mem_cons_of_mem _ hg)
    have hQ' : emojiLast rest := (List.pairwise_cons.1 hQ).2
    have hA' : ∀ g ∈ rest, A g := fun g hg => hA g (List.mem_cons_of_mem _ hg)
    rw [handleSpecifiers]
    by_cases hpos : f.nStartPos = S.MsgIndex
    · rw [if_pos hpos]
      by_cases hE : f.ft = FormatSpecifierType.Emoji
      · rw [if_pos hE]
        rcases hemoji S f hS (hA f (List.mem_cons_self _ _)) hE with h | h
        · exact ih _ _ _ hL' hQ' hA' h
        · have hstop := handleSpecifiers_stop chat rest
            (placeEmoji chat (S.AddSegment false) f) (it + 1) true (by
              intro g hg
              have h1 := (List.pairwise_cons.1 hQ).1 g hg hE
              have h2 : (placeEmoji chat (S.AddSegment false) f).MsgIndex = S.MsgIndex := by
                rw [placeEmoji_MsgIndex]; rfl
              rw [h2]
              omega)
          rw [hstop]
          exact Or.inr ⟨h, rfl⟩
      · rw [if_neg hE]
        exact ih _ _ _ hL' hQ' hA'
          (HandleFormatSpecifier_inv P hcongr (fun T hT _ => hadd T hT) S f
            (hL f (List.mem_cons_self _ _)) hS)
    · rw [if_neg hpos]
      exact Or.inl hS

/-- When the annotation loop ends with `bHandledAsObject` unset and started with it unset, it
has met no emoji, so a property kept by the style annotations holds at its end. -/
theorem handleSpecifiers_handled (chat : Chat) :
    ∀ (rest : List FormatSpecifier) (S : LineDivisionState) (it : Nat),
      (handleSpecifiers chat rest S it true).2.2 = true := by
  intro rest
  induction rest with
  | nil => intro S it; rfl
  | cons f rest ih =>
    intro S it
    rw [handleSpecifiers]
    split
    · split
      · exact ih _ _
      · exact ih _ _
    · rfl

/-! ### Where `AddWrappingLineBreak` inserts -/

theorem wrapInsertIndex_split (n : Int) :
    ∀ r : List FormatSpecifier, ∃ post pre, r = post ++ pre
      ∧ wrapInsertIndex n r r.length = pre.length
      ∧ (∀ f ∈ post, ¬ f.nStartPos < n)
      ∧ (pre = [] ∨ ∃ g pre', pre = g :: pre' ∧ g.nStartPos < n) := by
  intro r
  induction r with
  | nil => exact ⟨[], [], rfl, rfl, fun f hf => (by cases hf), Or.inl rfl⟩
  | cons f rest ih =>
    by_cases hf : f.nStartPos < n
    · refine ⟨[], f :: rest, rfl, ?_, fun g hg => (by cases hg), Or.inr ⟨f, rest, rfl, hf⟩⟩
      rw [wrapInsertIndex, if_pos hf]
    · obtain ⟨post, pre, h1, h2, h3, h4⟩ := ih
      refine ⟨f :: post, pre, by rw [h1]; rfl, ?_, ?_, h4⟩
      · rw [wrapInsertIndex, if_neg hf]
        simpa using h2
      · intro g hg
        rcases List.mem_cons.1 hg with h | h
        · rw [h]; exact hf
        · exact h3 g h

/-- The list that `AddWrappingLineBreak` leaves: the new annotation stands behind the last
annotation with a smaller position. -/
theorem AddWrappingLineBreak_split (l : List FormatSpecifier) (n : Int) (hn : 0 ≤ n) :
    ∃ pre post, l = pre ++ post
      ∧ (AddWrappingLineBreak l n).1
        = pre ++ [FormatSpecifier.ofType n FormatSpecifierType.Wrap] ++ post
      ∧ (AddWrappingLineBreak l n).2 = pre.length
      ∧ (∀ f ∈ post, ¬ f.nStartPos < n)
      ∧ (pre = [] ∨ ∃ pre' g, pre = pre' ++ [g] ∧ g.nStartPos < n) := by
  have hn' : (if n < 0 then 0 else n) = n := if_neg (by omega)
  unfold AddWrappingLineBreak
  simp only [hn']
  by_cases hl : l = []
  · subst hl
    exact ⟨[], [], rfl, rfl, rfl, fun f hf => (by cases hf), Or.inl rfl⟩
  · simp only [hl, if_false]
    obtain ⟨post, pre, h1, h2, h3, h4⟩ := wrapInsertIndex_split n l.reverse
    have hlen : l.reverse.length = l.length := List.length_reverse l
    rw [hlen] at h2
    have hl2 : l = pre.reverse ++ post.reverse := by
      have := congrArg List.reverse h1
      rw [List.reverse_reverse, List.reverse_append] at this
      exact this
    have hk : pre.length = pre.reverse.length := (List.length_reverse pre).symm
    have ht : l.take pre.reverse.length = pre.reverse := by
      rw [hl2]; exact List.take_left _ _
    have hd : l.drop pre.reverse.length = post.reverse := by
      rw [hl2]; exact List.drop_left _ _
    refine ⟨pre.reverse, post.reverse, hl2, ?_, ?_, ?_, ?_⟩
    · rw [h2, hk, ht, hd]
    · rw [h2, hk]
    · intro f hf
      exact h3 f (List.mem_reverse.1 hf)
    · rcases h4 with h | ⟨g, pre', h, hg⟩
      · left; rw [h]; rfl
      · right
        exact ⟨pre'.reverse, g, by rw [h, List.reverse_cons], hg⟩

theorem AddWrappingLineBreak_mem (l : List FormatSpecifier) (n : Int) (hn : 0 ≤ n)
    (f : FormatSpecifier) (hf : f ∈ (AddWrappingLineBreak l n).1) :
    f ∈ l ∨ f = FormatSpecifier.ofType n FormatSpecifierType.Wrap := by
  obtain ⟨pre, post, h1, h2, _⟩ := AddWrappingLineBreak_split l n hn
  rw [h2] at hf
  rw [h1]
  simp only [List.mem_append, List.mem_singleton] at hf ⊢
  tauto

theorem AddWrappingLineBreak_noLinebreak (l : List FormatSpecifier) (n : Int) (hn : 0 ≤ n)
    (h : noLinebreak l) : noLinebreak (AddWrappingLineBreak l n).1 := by
  intro f hf
  rcases AddWrappingLineBreak_mem l n hn f hf with h1 | h1
  · exact h f h1
  · rw [h1]; exact fun hw => by cases hw

theorem AddWrappingLineBreak_emojiLast (l : List FormatSpecifier) (n : Int) (hn : 0 ≤ n)
    (h : emojiLast l) : emojiLast (AddWrappingLineBreak l n).1 := by
  obtain ⟨pre, post, h1, h2, _, h4, h5⟩ := AddWrappingLineBreak_split l n hn
  unfold emojiLast at h ⊢
  rw [h1, List.pairwise_append] at h
  obtain ⟨hp, hq, hpq⟩ := h
  rw [h2, List.append_assoc, List.pairwise_append]
  refine ⟨hp, ?_, ?_⟩
  · rw [List.singleton_append, List.pairwise_cons]
    exact ⟨fun b _ hw => (by cases hw), hq⟩
  · intro a ha b hb
    rw [List.singleton_append] at hb
    rcases List.mem_cons.1 hb with hb | hb
    · rw [hb]
      intro hae
      show a.nStartPos < n
      rcases h5 with h5 | ⟨pre', g, h5, hg⟩
      · rw [h5] at ha; cases ha
      · rw [h5] at ha hp
        rcases List.mem_append.1 ha with ha | ha
        · have := (List.pairwise_append.1 hp).2.2 a ha g (List.mem_singleton_self g) hae
          omega
        · rw [List.mem_singleton] at ha
          rw [ha]; exact hg
    · exact hpq a ha b hb

/-! ### The segments partition the text -/

theorem u16_of_range (x : Int) (h0 : 0 ≤ x) (h1 : x < 65536) : u16 x = x := by
  unfold u16
  exact Int.emod_eq_of_lt h0 h1

theorem segmentsPartition_append (l : List LineSegmentInfo) (s : LineSegmentInfo) :
    ∀ (a b c : Int), segmentsPartition l a b → s.Offset = b → 1 ≤ s.LengthInCharacters →
      c = b + s.LengthInCharacters → segmentsPartition (l ++ [s]) a c := by
  induction l with
  | nil =>
    intro a b c h hs hl hc
    simp only [segmentsPartition] at h
    subst h
    exact ⟨hs, hl, hc.symm⟩
  | cons t rest ih =>
    intro a b c h hs hl hc
    obtain ⟨h1, h2, h3⟩ := h
    exact ⟨h1, h2, ih _ _ _ h3 hs hl hc⟩

theorem chainInv_congr (i o : Nat) (S T : LineDivisionState) (h : sameLayout S T)
    (hS : chainInv S i o) : chainInv T i o := by
  obtain ⟨h1, h2, _, _, h5, _, _⟩ := h
  obtain ⟨a, b, c⟩ := hS
  exact ⟨h5 ▸ a, h2 ▸ b, h1 ▸ c⟩

theorem AddSegment_Output (S : LineDivisionState) (b : Bool) :
    (S.AddSegment b).Output
      = if u16 (S.MsgIndex - S.CurLineSegmentInfo.Offset) > 0 then
          S.Output ++ [{ S.CurLineSegmentInfo with
            LengthInCharacters := u16 (S.MsgIndex - S.CurLineSegmentInfo.Offset) }]
        else S.Output := rfl

theorem AddSegment_chain (S : LineDivisionState) (b : Bool) (i o : Nat)
    (h : chainInv S i o) (ho : o ≤ i) (hi : i < 65536) : chainInv (S.AddSegment b) i i := by
  obtain ⟨h1, h2, h3⟩ := h
  have hu : u16 (S.MsgIndex - S.CurLineSegmentInfo.Offset) = (i : Int) - (o : Int) := by
    rw [h1, h2]
    exact u16_of_range _ (by omega) (by omega)
  refine ⟨h1, ?_, ?_⟩
  · show u16 S.MsgIndex = (i : Int)
    rw [h1]
    exact u16_of_range _ (by omega) (by omega)
  · rw [AddSegment_Output, hu]
    by_cases hpos : (i : Int) - (o : Int) > 0
    · rw [if_pos hpos]
      exact segmentsPartition_append S.Output _ 0 (o : Int) (i : Int) h3 h2
        (by show (1 : Int) ≤ (i : Int) - (o : Int); omega)
        (by show (i : Int) = (o : Int) + ((i : Int) - (o : Int)); omega)
    · rw [if_neg hpos]
      have e : (i : Int) = (o : Int) := by omega
      rw [e]
      exact h3

theorem placeEmoji_chain (chat : Chat) (S : LineDivisionState) (f : FormatSpecifier) (i : Nat)
    (h : chainInv S i i) (hi : i + 1 < 65536) :
    chainInv (placeEmoji chat S f) i i ∨ chainInv (placeEmoji chat S f) i (i + 1) := by
  obtain ⟨h1, h2, h3⟩ := h
  unfold placeEmoji
  split
  · exact Or.inl ⟨h1, h2, h3⟩
  · right
    simp only
    have hu : u16 (S.MsgIndex + 1) = ((i + 1 : Nat) : Int) := by
      rw [h1]
      rw [u16_of_range _ (by omega) (by omega)]
      push_cast; rfl
    have hu0 : u16 S.MsgIndex = (i : Int) := by
      rw [h1]; exact u16_of_range _ (by omega) (by omega)
    have e : ((i + 1 : Nat) : Int) = (i : Int) + 1 := by push_cast; rfl
    split
    · exact ⟨h1, hu, segmentsPartition_append S.Output _ 0 (i : Int) _ h3 hu0 (le_refl _) e⟩
    · exact ⟨h1, hu, segmentsPartition_append S.Output _ 0 (i : Int) _ h3 hu0 (le_refl _) e⟩

theorem noLinebreak_drop (l : List FormatSpecifier) (k : Nat) (h : noLinebreak l) :
    noLinebreak (l.drop k) := fun f hf => h f (List.mem_of_mem_drop hf)

theorem emojiLast_drop (l : List FormatSpecifier) (k : Nat) (h : emojiLast l) :
    emojiLast (l.drop k) := List.Pairwise.sublist (List.drop_sublist k l) h

/-- One step of the layout loop keeps the segments written and the pending segment a partition
of the text before the character index. -/
theorem divideStep_chain (chat : Chat) (text : WString) (d : DivideState) (i : Nat)
    (hi : i + 1 < 65536)
    (hL : noLinebreak d.FormatSpecifiers) (hQ : emojiLast d.FormatSpecifiers)
    (h : ∃ o, o ≤ i ∧ chainInv d.State i o) :
    noLinebreak (divideStep chat text d).FormatSpecifiers
      ∧ emojiLast (divideStep chat text d).FormatSpecifiers
      ∧ ∃ o, o ≤ i + 1 ∧ chainInv (divideStep chat text d).State (i + 1) o := by
  have hr := handleSpecifiers_inv chat (fun _ => True)
    (fun S => ∃ o, o ≤ i ∧ chainInv S i o) (fun S => chainInv S i (i + 1))
    (fun S T hST hS => by
      obtain ⟨o, ho, hS⟩ := hS
      exact ⟨o, ho, chainInv_congr i o S T hST hS⟩)
    (fun S hS => by
      obtain ⟨o, ho, hS⟩ := hS
      exact ⟨i, le_refl _, AddSegment_chain S false i o hS ho (by omega)⟩)
    (fun S f hS _ _ => by
      obtain ⟨o, ho, hS⟩ := hS
      rcases placeEmoji_chain chat _ f i (AddSegment_chain S false i o hS ho (by omega)) hi with
        h | h
      · exact Or.inl ⟨i, le_refl _, h⟩
      · exact Or.inr h)
    (d.FormatSpecifiers.drop d.FormatIterator) d.State d.FormatIterator false
    (noLinebreak_drop _ _ hL) (emojiLast_drop _ _ hQ) (fun _ _ => trivial) h
  have e1 : ((i : Int) + 1) = ((i + 1 : Nat) : Int) := by push_cast; rfl
  unfold divideStep
  simp only
  by_cases hh : (handleSpecifiers chat (d.FormatSpecifiers.drop d.FormatIterator) d.State
      d.FormatIterator false).2.2 = true
  · rw [if_pos hh]
    refine ⟨hL, hQ, ?_⟩
    rcases hr with ⟨o, ho, h1, h2, h3⟩ | ⟨⟨h1, h2, h3⟩, _⟩
    · exact ⟨o, by omega, by show _ + 1 = _; rw [h1, e1], h2, h3⟩
    · exact ⟨i + 1, le_refl _, by show _ + 1 = _; rw [h1, e1], h2, h3⟩
  · rw [if_neg hh]
    rcases hr with ⟨o, ho, hS⟩ | ⟨_, h4⟩
    · by_cases hw : (handleSpecifiers chat (d.FormatSpecifiers.drop d.FormatIterator) d.State
          d.FormatIterator false).1.CurrentLinePixelLength
          + chat.CharWidth (text.getD (handleSpecifiers chat
              (d.FormatSpecifiers.drop d.FormatIterator) d.State
              d.FormatIterator false).1.MsgIndex.toNat 0) > chat.MaxLineLength
      · rw [if_pos hw]
        have hn : (0 : Int) ≤ (handleSpecifiers chat (d.FormatSpecifiers.drop d.FormatIterator)
            d.State d.FormatIterator false).1.MsgIndex := by rw [hS.1]; omega
        refine ⟨AddWrappingLineBreak_noLinebreak _ _ hn hL,
          AddWrappingLineBreak_emojiLast _ _ hn hQ, i, by omega, ?_⟩
        obtain ⟨h1, h2, h3⟩ := AddSegment_chain _ true i o hS ho (by omega)
        exact ⟨by show _ + 1 = _; rw [h1, e1], h2, h3⟩
      · rw [if_neg hw]
        obtain ⟨h1, h2, h3⟩ := hS
        exact ⟨hL, hQ, o, by omega, by show _ + 1 = _; rw [h1, e1], h2, h3⟩
    · exact absurd h4 hh

theorem divideLoop_chain (chat : Chat) (text : WString) (len : Nat) (hlen : len < 65536) :
    ∀ (n i : Nat) (d : DivideState), i + n = len →
      noLinebreak d.FormatSpecifiers → emojiLast d.FormatSpecifiers →
      (∃ o, o ≤ i ∧ chainInv d.State i o) →
      ∃ o, o ≤ len ∧ chainInv (divideLoop chat text n d).State len o := by
  intro n
  induction n with
  | zero =>
    intro i d hi _ _ h
    have : i = len := by omega
    subst this
    exact h
  | succ n ih =>
    intro i d hi hL hQ h
    obtain ⟨h1, h2, h3⟩ := divideStep_chain chat text d i (by omega) hL hQ h
    rw [divideLoop]
    exact ih (i + 1) _ (by omega) h1 h2 h3

/-- The segments that `DivideIntoLines` writes for a message without `Linebreak` annotation,
with greater positions only behind each `Emoji` annotation and a text of fewer than 65536
characters, partition the text. -/
theorem DivideIntoLines_partition (chat : Chat) (cl : ChatMessage) (ChatMessageIndex : Int)
    (hL : noLinebreak cl.FormatSpecifiers) (hQ : emojiLast cl.FormatSpecifiers)
    (hlen : cl.ProcessedMsg.length < 65536) :
    segmentsPartition (DivideIntoLines chat cl ChatMessageIndex).2 0 cl.ProcessedMsg.length := by
  unfold DivideIntoLines
  simp only
  obtain ⟨o, ho, hS⟩ := divideLoop_chain chat cl.ProcessedMsg cl.ProcessedMsg.length hlen
    cl.ProcessedMsg.length 0
    { FormatSpecifiers := ClearWrappingLineBreaks cl.FormatSpecifiers, FormatIterator := 0,
      State :=
        { Output := []
          CurLineSegmentInfo :=
            { LineSegmentInfo.zero with
              ChatMessageIndex := ChatMessageIndex
              Offset := 0
              PixelOffsetX := 0
              IsStartOfLine := true
              TextColor := cl.DefaultColor
              Emphasis := EmphasisType.Default }
          ChatMessageIndex := ChatMessageIndex
          MsgIndex := 0
          Lines := 0
          CurrentLinePixelLength := 0
          CurTextColor := cl.DefaultColor
          CurEmphasis := EmphasisType.Default } }
    (by omega)
    (fun f hf => hL f (List.mem_of_mem_filter hf))
    (List.Pairwise.sublist (List.filter_sublist _) hQ)
    ⟨0, le_refl _, rfl, rfl, rfl⟩
  exact (AddSegment_chain _ true _ o hS ho hlen).2.2

theorem segmentsPartition_sum (l : List LineSegmentInfo) :
    ∀ (a b : Int), segmentsPartition l a b →
      a + (l.map (fun s => s.LengthInCharacters)).sum = b := by
  induction l with
  | nil =>
    intro a b h
    simp only [segmentsPartition] at h
    simp [h]
  | cons s rest ih =>
    intro a b h
    obtain ⟨_, _, h3⟩ := h
    have := ih _ _ h3
    simp only [List.map_cons, List.sum_cons]
    omega

/-- The annotation loop when every emoji it meets is found in the emoji map: either no emoji
was met, `P` holds and `bHandledAsObject` is as before, or an emoji ended the loop in `P'`
with `bHandledAsObject` set. -/
theorem handleSpecifiers_inv_found (chat : Chat) (A : FormatSpecifier → Prop)
    (P P' : LineDivisionState → Prop)
    (hcongr : ∀ S T, sameLayout S T → P S → P T)
    (hadd : ∀ S, P S → P (S.AddSegment false))
    (hemoji : ∀ S f, P S → A f → f.ft = FormatSpecifierType.Emoji →
      P' (placeEmoji chat (S.AddSegment false) f)) :
    ∀ (rest : List FormatSpecifier) (S : LineDivisionState) (it : Nat) (handled : Bool),
      noLinebreak rest → emojiLast rest → (∀ f ∈ rest, A f) → P S →
      (P (handleSpecifiers chat rest S it handled).1
          ∧ (handleSpecifiers chat rest S it handled).2.2 = handled)
        ∨ (P' (handleSpecifiers chat rest S it handled).1
          ∧ (handleSpecifiers chat rest S it handled).2.2 = true) := by
  intro rest
  induction rest with
  | nil => intro S it handled _ _ _ hS; exact Or.inl ⟨hS, rfl⟩
  | cons f rest ih =>
    intro S it handled hL hQ hA hS
    have hL' : noLinebreak rest := fun g hg => hL g (List.mem_cons_of_mem _ hg)
    have hQ' : emojiLast rest := (List.pairwise_cons.1 hQ).2
    have hA' : ∀ g ∈ rest, A g := fun g hg => hA g (List.mem_cons_of_mem _ hg)
    rw [handleSpecifiers]
    by_cases hpos : f.nStartPos = S.MsgIndex
    · rw [if_pos hpos]
      by_cases hE : f.ft = FormatSpecifierType.Emoji
      · rw [if_pos hE]
        have h := hemoji S f hS (hA f (List.mem_cons_self _ _)) hE
        have hstop := handleSpecifiers_stop chat rest
          (placeEmoji chat (S.AddSegment false) f) (it + 1) true (by
            intro g hg
            have h1 := (List.pairwise_cons.1 hQ).1 g hg hE
            have h2 : (placeEmoji chat (S.AddSegment false) f).MsgIndex = S.MsgIndex := by
              rw [placeEmoji_MsgIndex]; rfl
            rw [h2]
            omega)
        rw [hstop]
        exact Or.inr ⟨h, rfl⟩
      · rw [if_neg hE]
        exact ih _ _ _ hL' hQ' hA'
          (HandleFormatSpecifier_inv P hcongr (fun T hT _ => hadd T hT) S f
            (hL f (List.mem_cons_self _ _)) hS)
    · rw [if_neg hpos]
      exact Or.inl ⟨hS, rfl⟩

/-! ### No segment reaches beyond the wrap width -/

theorem find_of_count (E : EmojiMapType) (name : WString) (h : E.count name = true) :
    ∃ b, E.find name = some b := by
  unfold EmojiMapType.count at h
  unfold EmojiMapType.find
  rw [List.any_eq_true] at h
  obtain ⟨e, he, hen⟩ := h
  cases hf : List.find? (fun e => e.1 == name) E with
  | none =>
    rw [List.find?_eq_none] at hf
    exact absurd hen (hf e he)
  | some x => exact ⟨x.2, rfl⟩

theorem fitInv_congr (chat : Chat) (text : WString) (i o : Nat) (S T : LineDivisionState)
    (h : sameLayout S T) (hS : fitInv chat text S i o) : fitInv chat text T i o := by
  obtain ⟨h1, _, h3, h4, _, h6, _⟩ := h
  obtain ⟨a, b, c, d, e⟩ := hS
  exact ⟨h1 ▸ a, h6 ▸ b, h6 ▸ c, h4 ▸ d, h3 ▸ h6 ▸ e⟩

theorem AddSegment_fit (chat : Chat) (text : WString) (S : LineDivisionState) (b : Bool)
    (i o : Nat) (hW : chat.MaxLineLength < 65536)
    (hc : chainInv S i o) (h : fitInv chat text S i o) (ho : o ≤ i) (hi : i < 65536) :
    fitInv chat text (S.AddSegment b) i i
      ∧ (S.AddSegment b).CurrentLinePixelLength = (if b then 0 else S.CurrentLinePixelLength)
      ∧ (S.AddSegment b).CurLineSegmentInfo.PixelOffsetX
        = (if b then 0 else S.CurrentLinePixelLength) := by
  obtain ⟨h1, h2, _⟩ := hc
  obtain ⟨f1, f2, f3, f4, f5⟩ := h
  have hu : u16 (S.MsgIndex - S.CurLineSegmentInfo.Offset) = (i : Int) - (o : Int) := by
    rw [h1, h2]
    exact u16_of_range _ (by omega) (by omega)
  have hcur : (0 : Int) ≤ (if b then 0 else S.CurrentLinePixelLength)
      ∧ (if b then 0 else S.CurrentLinePixelLength) ≤ chat.MaxLineLength := by
    cases b
    · exact ⟨f2, f3⟩
    · exact ⟨le_refl _, le_trans f2 f3⟩
  have hpx : u16 (if b then 0 else S.CurrentLinePixelLength)
      = (if b then 0 else S.CurrentLinePixelLength) :=
    u16_of_range _ hcur.1 (by omega)
  refine ⟨⟨?_, hcur.1, hcur.2, rfl, ?_⟩, rfl, hpx⟩
  · rw [AddSegment_Output, hu]
    by_cases hpos : (i : Int) - (o : Int) > 0
    · rw [if_pos hpos]
      intro s hs
      rcases List.mem_append.1 hs with hs | hs
      · exact f1 s hs
      · rw [List.mem_singleton] at hs
        rw [hs]
        unfold Chat.segmentWidth
        simp only [f4, h2]
        have e1 : ((o : Int)).toNat = o := Int.toNat_ofNat o
        have e2 : ((i : Int) - (o : Int)).toNat = i - o := by omega
        rw [e1, e2, f5]
        exact f3
    · rw [if_neg hpos]
      exact f1
  · show u16 (if b then 0 else S.CurrentLinePixelLength)
        + chat.GetWidth ((text.drop i).take (i - i)) = (if b then 0 else S.CurrentLinePixelLength)
    rw [hpx, Nat.sub_self, List.take_zero]
    simp [Chat.GetWidth]

theorem placeEmoji_fit (chat : Chat) (text : WString) (S : LineDivisionState)
    (f : FormatSpecifier) (i : Nat) (hW : chat.MaxLineLength < 65536)
    (hreg : chat.m_EmojiMap.count f.EmojiName = true)
    (hew : ∀ name b, chat.m_EmojiMap.find name = some b →
      0 ≤ chat.EmojiWidth chat.FontHeight b
        ∧ chat.EmojiWidth chat.FontHeight b ≤ chat.MaxLineLength)
    (hc : chainInv S i i) (h : fitInv chat text S i i) (hi : i + 1 < 65536) :
    chainInv (placeEmoji chat S f) i (i + 1) ∧ fitInv chat text (placeEmoji chat S f) i (i + 1) := by
  obtain ⟨b, hb⟩ := find_of_count _ _ hreg
  obtain ⟨e0, e1⟩ := hew _ b hb
  obtain ⟨h1, h2, h3⟩ := hc
  obtain ⟨f1, f2, f3, f4, f5⟩ := h
  have hu : u16 (S.MsgIndex + 1) = ((i + 1 : Nat) : Int) := by
    rw [h1, u16_of_range _ (by omega) (by omega)]
    push_cast; rfl
  have hu0 : u16 S.MsgIndex = (i : Int) := by
    rw [h1]; exact u16_of_range _ (by omega) (by omega)
  have e : ((i + 1 : Nat) : Int) = (i : Int) + 1 := by push_cast; rfl
  have htake : (text.drop (i + 1)).take (i - (i + 1)) = [] := by
    rw [show i - (i + 1) = 0 by omega, List.take_zero]
  have hg0 : chat.GetWidth [] = 0 := rfl
  unfold placeEmoji
  rw [hb]
  simp only
  by_cases hwrap : S.CurrentLinePixelLength ≠ 0
      ∧ S.CurrentLinePixelLength + chat.EmojiWidth chat.FontHeight b > chat.MaxLineLength
  · rw [if_pos hwrap]
    have hz : u16 0 = 0 := u16_of_range 0 (le_refl _) (by norm_num)
    have hn : u16 (0 + chat.EmojiWidth chat.FontHeight b) = 0 + chat.EmojiWidth chat.FontHeight b :=
      u16_of_range _ (by omega) (by omega)
    refine ⟨⟨h1, hu, segmentsPartition_append S.Output _ 0 (i : Int) _ h3 hu0 (le_refl _) e⟩,
      ?_, by show (0 : Int) ≤ 0 + _; omega, by show (0 : Int) + _ ≤ _; omega, f4, ?_⟩
    · intro s hs
      rcases List.mem_append.1 hs with hs | hs
      · exact f1 s hs
      · rw [List.mem_singleton] at hs
        rw [hs]
        show u16 0 + chat.EmojiWidth chat.FontHeight b ≤ chat.MaxLineLength
        rw [hz]; omega
    · show u16 (0 + chat.EmojiWidth chat.FontHeight b)
          + chat.GetWidth ((text.drop (i + 1)).take (i - (i + 1)))
        = 0 + chat.EmojiWidth chat.FontHeight b
      rw [hn, htake, hg0]; omega
  · rw [if_neg hwrap]
    have hle : S.CurrentLinePixelLength + chat.EmojiWidth chat.FontHeight b
        ≤ chat.MaxLineLength := by
      by_cases hz : S.CurrentLinePixelLength = 0
      · rw [hz]; omega
      · by_contra hc
        exact hwrap ⟨hz, by omega⟩
    have hz : u16 S.CurrentLinePixelLength = S.CurrentLinePixelLength :=
      u16_of_range _ f2 (by omega)
    have hn : u16 (S.CurrentLinePixelLength + chat.EmojiWidth chat.FontHeight b)
        = S.CurrentLinePixelLength + chat.EmojiWidth chat.FontHeight b :=
      u16_of_range _ (by omega) (by omega)
    refine ⟨⟨h1, hu, segmentsPartition_append S.Output _ 0 (i : Int) _ h3 hu0 (le_refl _) e⟩,
      ?_, by show (0 : Int) ≤ _ + _; omega, hle, f4, ?_⟩
    · intro s hs
      rcases List.mem_append.1 hs with hs | hs
      · exact f1 s hs
      · rw [List.mem_singleton] at hs
        rw [hs]
        show u16 S.CurrentLinePixelLength + chat.EmojiWidth chat.FontHeight b
          ≤ chat.MaxLineLength
        rw [hz]; exact hle
    · show u16 (S.CurrentLinePixelLength + chat.EmojiWidth chat.FontHeight b)
          + chat.GetWidth ((text.drop (i + 1)).take (i - (i + 1)))
        = S.CurrentLinePixelLength + chat.EmojiWidth chat.FontHeight b
      rw [hn, htake, hg0]; omega

theorem AddWrappingLineBreak_emojiRegistered (E : EmojiMapType) (l : List FormatSpecifier)
    (n : Int) (hn : 0 ≤ n) (h : emojiRegistered E l) :
    emojiRegistered E (AddWrappingLineBreak l n).1 := by
  intro f hf hfe
  rcases AddWrappingLineBreak_mem l n hn f hf with h1 | h1
  · exact h f h1 hfe
  · rw [h1] at hfe; cases hfe

/-- One step of the layout loop keeps every written segment within the wrap width. -/
theorem divideStep_fit (chat : Chat) (text : WString) (d : DivideState) (i : Nat)
    (hi : i < text.length) (hlen : text.length < 65536) (hW : chat.MaxLineLength < 65536)
    (hcw : ∀ c ∈ text, 0 ≤ chat.CharWidth c ∧ chat.CharWidth c ≤ chat.MaxLineLength)
    (hew : ∀ name b, chat.m_EmojiMap.find name = some b →
      0 ≤ chat.EmojiWidth chat.FontHeight b
        ∧ chat.EmojiWidth chat.FontHeight b ≤ chat.MaxLineLength)
    (hL : noLinebreak d.FormatSpecifiers) (hQ : emojiLast d.FormatSpecifiers)
    (hR : emojiRegistered chat.m_EmojiMap d.FormatSpecifiers)
    (h : ∃ o, o ≤ i ∧ chainInv d.State i o ∧ fitInv chat text d.State i o) :
    noLinebreak (divideStep chat text d).FormatSpecifiers
      ∧ emojiLast (divideStep chat text d).FormatSpecifiers
      ∧ emojiRegistered chat.m_EmojiMap (divideStep chat text d).FormatSpecifiers
      ∧ ∃ o, o ≤ i + 1 ∧ chainInv (divideStep chat text d).State (i + 1) o
          ∧ fitInv chat text (divideStep chat text d).State (i + 1) o := by
  have hr := handleSpecifiers_inv_found chat
    (fun f => f.ft = FormatSpecifierType.Emoji → chat.m_EmojiMap.count f.EmojiName = true)
    (fun S => ∃ o, o ≤ i ∧ chainInv S i o ∧ fitInv chat text S i o)
    (fun S => chainInv S i (i + 1) ∧ fitInv chat text S i (i + 1))
    (fun S T hST hS => by
      obtain ⟨o, ho, hS1, hS2⟩ := hS
      exact ⟨o, ho, chainInv_congr i o S T hST hS1, fitInv_congr chat text i o S T hST hS2⟩)
    (fun S hS => by
      obtain ⟨o, ho, hS1, hS2⟩ := hS
      exact ⟨i, le_refl _, AddSegment_chain S false i o hS1 ho (by omega),
        (AddSegment_fit chat text S false i o hW hS1 hS2 ho (by omega)).1⟩)
    (fun S f hS hA hE => by
      obtain ⟨o, ho, hS1, hS2⟩ := hS
      exact placeEmoji_fit chat text _ f i hW (hA hE) hew
        (AddSegment_chain S false i o hS1 ho (by omega))
        (AddSegment_fit chat text S false i o hW hS1 hS2 ho (by omega)).1 (by omega))
    (d.FormatSpecifiers.drop d.FormatIterator) d.State d.FormatIterator false
    (noLinebreak_drop _ _ hL) (emojiLast_drop _ _ hQ)
    (fun f hf => hR f (List.mem_of_mem_drop hf)) h
  have e1 : ((i : Int) + 1) = ((i + 1 : Nat) : Int) := by push_cast; rfl
  have hmem : text.getD i 0 ∈ text := getD_mem text i hi
  obtain ⟨w0, w1⟩ := hcw _ hmem
  have hsame : (text.drop (i + 1)).take (i + 1 - (i + 1)) = (text.drop (i + 1)).take (i - (i + 1)) := by
    rw [Nat.sub_self, show i - (i + 1) = 0 by omega]
  unfold divideStep
  simp only
  generalize handleSpecifiers chat (d.FormatSpecifiers.drop d.FormatIterator) d.State
    d.FormatIterator false = r at hr ⊢
  obtain ⟨S, it, hd⟩ := r
  simp only at hr ⊢
  rcases hr with ⟨⟨o, ho, hS1, hS2⟩, hh⟩ | ⟨⟨hS1, hS2⟩, hh⟩
  · rw [if_neg (by rw [hh]; exact Bool.false_ne_true)]
    have hidx : S.MsgIndex.toNat = i := by rw [hS1.1]; exact Int.toNat_ofNat i
    rw [hidx]
    by_cases hw : S.CurrentLinePixelLength + chat.CharWidth (text.getD i 0) > chat.MaxLineLength
    · rw [if_pos hw]
      have hn : (0 : Int) ≤ S.MsgIndex := by rw [hS1.1]; omega
      refine ⟨AddWrappingLineBreak_noLinebreak _ _ hn hL,
        AddWrappingLineBreak_emojiLast _ _ hn hQ,
        AddWrappingLineBreak_emojiRegistered _ _ _ hn hR, i, by omega, ?_, ?_⟩
      · obtain ⟨h1, h2, h3⟩ := AddSegment_chain _ true i o hS1 ho (by omega)
        exact ⟨by show (S.AddSegment true).MsgIndex + 1 = _; rw [h1, e1], h2, h3⟩
      · obtain ⟨⟨g1, _, _, g4, _⟩, gc, gp⟩ :=
          AddSegment_fit chat text _ true i o hW hS1 hS2 ho (by omega)
        rw [if_pos rfl] at gc gp
        refine ⟨g1, ?_, ?_, g4, ?_⟩
        · show (0 : Int) ≤ (S.AddSegment true).CurrentLinePixelLength
            + chat.CharWidth (text.getD i 0)
          rw [gc]; omega
        · show (S.AddSegment true).CurrentLinePixelLength + chat.CharWidth (text.getD i 0)
            ≤ chat.MaxLineLength
          rw [gc]; omega
        · show (S.AddSegment true).CurLineSegmentInfo.PixelOffsetX
              + chat.GetWidth ((text.drop i).take (i + 1 - i))
            = (S.AddSegment true).CurrentLinePixelLength + chat.CharWidth (text.getD i 0)
          rw [gp, gc, segWidth_succ chat text i i (le_refl _) hi, Nat.sub_self, List.take_zero]
          simp [Chat.GetWidth]
    · rw [if_neg hw]
      obtain ⟨g1, g2, g3, g4, g5⟩ := hS2
      obtain ⟨h1, h2, h3⟩ := hS1
      refine ⟨hL, hQ, hR, o, by omega, ⟨by show S.MsgIndex + 1 = _; rw [h1, e1], h2, h3⟩,
        g1, ?_, ?_, g4, ?_⟩
      · show (0 : Int) ≤ S.CurrentLinePixelLength + chat.CharWidth (text.getD i 0)
        omega
      · show S.CurrentLinePixelLength + chat.CharWidth (text.getD i 0) ≤ chat.MaxLineLength
        omega
      · show S.CurLineSegmentInfo.PixelOffsetX + chat.GetWidth ((text.drop o).take (i + 1 - o))
          = S.CurrentLinePixelLength + chat.CharWidth (text.getD i 0)
        rw [segWidth_succ chat text o i ho hi]
        omega
  · rw [if_pos hh]
    obtain ⟨g1, g2, g3, g4, g5⟩ := hS2
    obtain ⟨h1, h2, h3⟩ := hS1
    refine ⟨hL, hQ, hR, i + 1, le_refl _, ⟨by show S.MsgIndex + 1 = _; rw [h1, e1], h2, h3⟩,
      g1, g2, g3, g4, ?_⟩
    show S.CurLineSegmentInfo.PixelOffsetX
        + chat.GetWidth ((text.drop (i + 1)).take (i + 1 - (i + 1))) = S.CurrentLinePixelLength
    rw [hsame]
    exact g5

theorem divideLoop_fit (chat : Chat) (text : WString) (hlen : text.length < 65536)
    (hW : chat.MaxLineLength < 65536)
    (hcw : ∀ c ∈ text, 0 ≤ chat.CharWidth c ∧ chat.CharWidth c ≤ chat.MaxLineLength)
    (hew : ∀ name b, chat.m_EmojiMap.find name = some b →
      0 ≤ chat.EmojiWidth chat.FontHeight b
        ∧ chat.EmojiWidth chat.FontHeight b ≤ chat.MaxLineLength) :
    ∀ (n i : Nat) (d : DivideState), i + n = text.length →
      noLinebreak d.FormatSpecifiers → emojiLast d.FormatSpecifiers →
      emojiRegistered chat.m_EmojiMap d.FormatSpecifiers →
      (∃ o, o ≤ i ∧ chainInv d.State i o ∧ fitInv chat text d.State i o) →
      ∃ o, o ≤ text.length ∧ chainInv (divideLoop chat text n d).State text.length o
        ∧ fitInv chat text (divideLoop chat text n d).State text.length o := by
  intro n
  induction n with
  | zero =>
    intro i d hi _ _ _ h
    have : i = text.length := by omega
    subst this
    exact h
  | succ n ih =>
    intro i d hi hL hQ hR h
    obtain ⟨h1, h2, h3, h4⟩ :=
      divideStep_fit chat text d i (by omega) hlen hW hcw hew hL hQ hR h
    rw [divideLoop]
    exact ih (i + 1) _ (by omega) h1 h2 h3 h4

/-- No segment that `DivideIntoLines` writes reaches beyond the wrap width, when the advance
widths of the characters and the widths of the emojis lie between 0 and the wrap width. -/
theorem DivideIntoLines_fit (chat : Chat) (cl : ChatMessage) (ChatMessageIndex : Int)
    (hL : noLinebreak cl.FormatSpecifiers) (hQ : emojiLast cl.FormatSpecifiers)
    (hR : emojiRegistered chat.m_EmojiMap cl.FormatSpecifiers)
    (hlen : cl.ProcessedMsg.length < 65536) (hW : chat.MaxLineLength < 65536)
    (hcw : ∀ c ∈ cl.ProcessedMsg, 0 ≤ chat.CharWidth c ∧ chat.CharWidth c ≤ chat.MaxLineLength)
    (hew : ∀ name b, chat.m_EmojiMap.find name = some b →
      0 ≤ chat.EmojiWidth chat.FontHeight b
        ∧ chat.EmojiWidth chat.FontHeight b ≤ chat.MaxLineLength) :
    ∀ s ∈ (DivideIntoLines chat cl ChatMessageIndex).2,
      s.PixelOffsetX + chat.segmentWidth cl.ProcessedMsg s ≤ chat.MaxLineLength := by
  by_cases hne : cl.ProcessedMsg = []
  · rw [(DivideIntoLines_empty chat cl ChatMessageIndex hne).2]
    intro s hs; cases hs
  · obtain ⟨c, rest, hc⟩ := List.exists_cons_of_ne_nil hne
    have hW0 : 0 ≤ chat.MaxLineLength := by
      have := hcw c (by rw [hc]; exact List.mem_cons_self _ _)
      omega
    unfold DivideIntoLines
    simp only
    obtain ⟨o, ho, hS1, hS2⟩ := divideLoop_fit chat cl.ProcessedMsg hlen hW hcw hew
      cl.ProcessedMsg.length 0
      { FormatSpecifiers := ClearWrappingLineBreaks cl.FormatSpecifiers, FormatIterator := 0,
        State :=
          { Output := []
            CurLineSegmentInfo :=
              { LineSegmentInfo.zero with
                ChatMessageIndex := ChatMessageIndex
                Offset := 0
                PixelOffsetX := 0
                IsStartOfLine := true
                TextColor := cl.DefaultColor
                Emphasis := EmphasisType.Default }
            ChatMessageIndex := ChatMessageIndex
            MsgIndex := 0
            Lines := 0
            CurrentLinePixelLength := 0
            CurTextColor := cl.DefaultColor
            CurEmphasis := EmphasisType.Default } }
      (by omega)
      (fun f hf => hL f (List.mem_of_mem_filter hf))
      (List.Pairwise.sublist (List.filter_sublist _) hQ)
      (fun f hf => hR f (List.mem_of_mem_filter hf))
      ⟨0, le_refl _, ⟨rfl, rfl, rfl⟩, fun s hs => (by cases hs), le_refl _, hW0, rfl, rfl⟩
    exact (AddSegment_fit chat cl.ProcessedMsg _ true _ o hW hS1 hS2 ho hlen).1.1

/-! ### Line breaks and `GetLineBreak` -/

theorem GetLineBreakFrom_eq (n : Int) :
    ∀ (l : List FormatSpecifier) (i : Int), i ≤ n →
      GetLineBreakFrom n l i = (lineBreaks l)[(n - i).toNat]? := by
  intro l
  induction l with
  | nil => intro i _; rfl
  | cons f rest ih =>
    intro i hi
    rw [GetLineBreakFrom]
    by_cases hb : f.ft = FormatSpecifierType.Wrap ∨ f.ft = FormatSpecifierType.Linebreak
    · have hf : lineBreaks (f :: rest) = f :: lineBreaks rest := by
        unfold lineBreaks
        rw [List.filter_cons_of_pos (by simpa using hb)]
      rw [if_pos hb, hf]
      by_cases hin : i = n
      · rw [if_pos hin, hin]
        simp
      · rw [if_neg hin, ih (i + 1) (by omega)]
        have e : (n - i).toNat = (n - (i + 1)).toNat + 1 := by omega
        rw [e, List.getElem?_cons_succ]
    · have hf : lineBreaks (f :: rest) = lineBreaks rest := by
        unfold lineBreaks
        rw [List.filter_cons_of_neg (by simpa using hb)]
      rw [if_neg hb, hf]
      exact ih i hi

theorem GetLineBreak_eq (c : ChatMessage) (n : Nat) :
    c.GetLineBreak (n : Int) = (lineBreaks c.FormatSpecifiers)[n]? := by
  unfold ChatMessage.GetLineBreak
  rw [GetLineBreakFrom_eq (n : Int) _ 0 (by omega)]
  congr 1

/-- A wrap break whose position is beyond every line break of the list is appended to the
list of line breaks. -/
theorem AddWrappingLineBreak_lineBreaks (l : List FormatSpecifier) (n : Int) (hn : 0 ≤ n)
    (h : ∀ f ∈ lineBreaks l, f.nStartPos < n) :
    lineBreaks (AddWrappingLineBreak l n).1
      = lineBreaks l ++ [FormatSpecifier.ofType n FormatSpecifierType.Wrap] := by
  obtain ⟨pre, post, h1, h2, _, h4, _⟩ := AddWrappingLineBreak_split l n hn
  have hpost : lineBreaks post = [] := by
    unfold lineBreaks
    rw [List.filter_eq_nil_iff]
    intro f hf hb
    have hfl : f ∈ lineBreaks l := by
      unfold lineBreaks
      rw [h1, List.mem_filter]
      exact ⟨List.mem_append_right _ hf, hb⟩
    exact h4 f hf (h f hfl)
  have hsplit : lineBreaks l = lineBreaks pre := by
    rw [h1]
    unfold lineBreaks at hpost ⊢
    rw [List.filter_append, hpost, List.append_nil]
  rw [h2, hsplit]
  unfold lineBreaks at hpost ⊢
  rw [List.filter_append, List.filter_append, hpost, List.append_nil]
  congr 1

/-! ### Pixel offsets of the segments and line starts -/

theorem lineInv_congr (chat : Chat) (text : WString) (B : List Nat) (ls i o : Nat)
    (S T : LineDivisionState) (h : sameLayout S T) (hS : lineInv chat text B ls S i o) :
    lineInv chat text B ls T i o := by
  obtain ⟨h1, _, h3, _, _, h6, h7⟩ := h
  obtain ⟨a, b, c, d, e, f, g⟩ := hS
  exact ⟨h7 ▸ a, h6 ▸ b, h6 ▸ c, d, h6 ▸ e, h3 ▸ f, h1 ▸ g⟩

theorem segAligned_mono (chat : Chat) (text : WString) (B : List Nat) (i : Nat)
    (s : LineSegmentInfo) (h : segAligned chat text B i s) :
    segAligned chat text B (i + 1) s ∧ segAligned chat text (B ++ [i]) (i + 1) s := by
  obtain ⟨so, sl, h1, h2, h3, h4, h5, h6⟩ := h
  refine ⟨⟨so, sl, h1, by omega, h3, h4, h5, h6⟩, so, sl, h1, by omega, ?_, h4, ?_, h6⟩
  · rcases h3 with h3 | h3
    · exact Or.inl h3
    · exact Or.inr (List.mem_append_left _ h3)
  · intro b hb hbs
    rcases List.mem_append.1 hb with hb | hb
    · exact h5 b hb hbs
    · rw [List.mem_singleton] at hb
      omega

/-- The segment list after `AddSegment` stays aligned. -/
theorem AddSegment_aligned (chat : Chat) (text : WString) (B : List Nat) (ls : Nat)
    (S : LineDivisionState) (b : Bool) (i o : Nat)
    (hc : chainInv S i o) (ho : o ≤ i) (hi : i < 65536)
    (hls : ls = 0 ∨ ls ∈ B) (hmax : ∀ x ∈ B, x ≤ ls)
    (h : lineInv chat text B ls S i o) :
    ∀ s ∈ (S.AddSegment b).Output, segAligned chat text B i s := by
  obtain ⟨h1, h2, _⟩ := hc
  obtain ⟨_, _, _, l4, _, l6, l7⟩ := h
  have hu : u16 (S.MsgIndex - S.CurLineSegmentInfo.Offset) = (i : Int) - (o : Int) := by
    rw [h1, h2]
    exact u16_of_range _ (by omega) (by omega)
  rw [AddSegment_Output, hu]
  by_cases hpos : (i : Int) - (o : Int) > 0
  · rw [if_pos hpos]
    intro s hs
    rcases List.mem_append.1 hs with hs | hs
    · exact l7 s hs
    · rw [List.mem_singleton] at hs
      rw [hs]
      exact ⟨o, ls, h2, by omega, hls, l4, fun x hx _ => hmax x hx, l6⟩
  · rw [if_neg hpos]
    exact l7

theorem AddSegment_line (chat : Chat) (text : WString) (B : List Nat) (ls : Nat)
    (S : LineDivisionState) (i o : Nat)
    (hc : chainInv S i o) (ho : o ≤ i) (hi : i < 65536)
    (hls : ls = 0 ∨ ls ∈ B) (hmax : ∀ x ∈ B, x ≤ ls)
    (h : lineInv chat text B ls S i o) :
    lineInv chat text B ls (S.AddSegment false) i i := by
  have ha := AddSegment_aligned chat text B ls S false i o hc ho hi hls hmax h
  obtain ⟨l1, l2, l3, l4, l5, l6, l7⟩ := h
  refine ⟨l1, l2, l3, by omega, l5, ?_, ha⟩
  show u16 S.CurrentLinePixelLength = _
  rw [u16_of_range _ l2 l3]
  exact l5

theorem AddWrappingLineBreak_noEmoji (l : List FormatSpecifier) (n : Int) (hn : 0 ≤ n)
    (h : noEmoji l) : noEmoji (AddWrappingLineBreak l n).1 := by
  intro f hf
  rcases AddWrappingLineBreak_mem l n hn f hf with h1 | h1
  · exact h f h1
  · rw [h1]; exact fun hw => by cases hw

/-- One step of the layout loop on a message without emoji keeps the pixel offsets of the
segments aligned with the line starts. -/
theorem divideStep_line (chat : Chat) (text : WString) (d : DivideState) (i : Nat)
    (hi : i < text.length) (hlen : text.length < 65536) (hW : chat.MaxLineLength < 65536)
    (hcw : ∀ c ∈ text, 0 ≤ chat.CharWidth c ∧ chat.CharWidth c < 65536)
    (hL : noLinebreak d.FormatSpecifiers) (hE : noEmoji d.FormatSpecifiers)
    (B : List Nat) (ls : Nat) (hB : breaksInv d.FormatSpecifiers B ls i)
    (h : ∃ o, o ≤ i ∧ chainInv d.State i o ∧ lineInv chat text B ls d.State i o) :
    noLinebreak (divideStep chat text d).FormatSpecifiers
      ∧ noEmoji (divideStep chat text d).FormatSpecifiers
      ∧ ∃ B' ls', breaksInv (divideStep chat text d).FormatSpecifiers B' ls' (i + 1)
          ∧ ∃ o, o ≤ i + 1 ∧ chainInv (divideStep chat text d).State (i + 1) o
              ∧ lineInv chat text B' ls' (divideStep chat text d).State (i + 1) o := by
  obtain ⟨hB1, hB2, hB3, hB4, hB5⟩ := hB
  have hr := handleSpecifiers_inv_found chat
    (fun f => f.ft ≠ FormatSpecifierType.Emoji)
    (fun S => ∃ o, o ≤ i ∧ chainInv S i o ∧ lineInv chat text B ls S i o)
    (fun _ => False)
    (fun S T hST hS => by
      obtain ⟨o, ho, hS1, hS2⟩ := hS
      exact ⟨o, ho, chainInv_congr i o S T hST hS1, lineInv_congr chat text B ls i o S T hST hS2⟩)
    (fun S hS => by
      obtain ⟨o, ho, hS1, hS2⟩ := hS
      exact ⟨i, le_refl _, AddSegment_chain S false i o hS1 ho (by omega),
        AddSegment_line chat text B ls S i o hS1 ho (by omega) hB4 hB5 hS2⟩)
    (fun S f _ hA hfe => absurd hfe hA)
    (d.FormatSpecifiers.drop d.FormatIterator) d.State d.FormatIterator false
    (noLinebreak_drop _ _ hL) (emojiLast_drop _ _ (emojiLast_of_noEmoji _ hE))
    (fun f hf => hE f (List.mem_of_mem_drop hf)) h
  have e1 : ((i : Int) + 1) = ((i + 1 : Nat) : Int) := by push_cast; rfl
  have hmem : text.getD i 0 ∈ text := getD_mem text i hi
  obtain ⟨w0, w1⟩ := hcw _ hmem
  unfold divideStep
  simp only
  generalize handleSpecifiers chat (d.FormatSpecifiers.drop d.FormatIterator) d.State
    d.FormatIterator false = r at hr ⊢
  obtain ⟨S, it, hd⟩ := r
  simp only at hr ⊢
  rcases hr with ⟨⟨o, ho, hS1, hS2⟩, hh⟩ | ⟨hF, _⟩
  · rw [if_neg (by rw [hh]; exact Bool.false_ne_true)]
    have hidx : S.MsgIndex.toNat = i := by rw [hS1.1]; exact Int.toNat_ofNat i
    rw [hidx]
    by_cases hw : S.CurrentLinePixelLength + chat.CharWidth (text.getD i 0) > chat.MaxLineLength
    · rw [if_pos hw]
      have hn : (0 : Int) ≤ S.MsgIndex := by rw [hS1.1]; omega
      have hbr : lineBreaks (AddWrappingLineBreak d.FormatSpecifiers S.MsgIndex).1
          = (B ++ [i]).map wrapAt := by
        rw [AddWrappingLineBreak_lineBreaks _ _ hn (by
          intro f hf
          rw [hB1] at hf
          obtain ⟨b, hb, rfl⟩ := List.mem_map.1 hf
          have := hB2 b hb
          rw [hS1.1]
          show Int.ofNat b < (i : Int)
          have e : Int.ofNat b = (b : Int) := rfl
          rw [e]; omega), hB1, hS1.1, List.map_append]
        rfl
      refine ⟨AddWrappingLineBreak_noLinebreak _ _ hn hL,
        AddWrappingLineBreak_noEmoji _ _ hn hE, B ++ [i], i,
        ⟨hbr, ?_, ?_, Or.inr (List.mem_append_right _ (List.mem_singleton_self i)), ?_⟩,
        i, by omega, ?_, ?_⟩
      · intro b hb
        rcases List.mem_append.1 hb with hb | hb
        · have := hB2 b hb; omega
        · rw [List.mem_singleton] at hb; omega
      · rw [List.pairwise_append]
        refine ⟨hB3, List.pairwise_singleton _ _, ?_⟩
        intro a ha b hb
        rw [List.mem_singleton] at hb
        rw [hb]; exact hB2 a ha
      · intro b hb
        rcases List.mem_append.1 hb with hb | hb
        · have := hB2 b hb; omega
        · rw [List.mem_singleton] at hb; omega
      · obtain ⟨h1, h2, h3⟩ := AddSegment_chain _ true i o hS1 ho (by omega)
        exact ⟨by show (S.AddSegment true).MsgIndex + 1 = _; rw [h1, e1], h2, h3⟩
      · have ha := AddSegment_aligned chat text B ls S true i o hS1 ho (by omega) hB4 hB5 hS2
        obtain ⟨l1, _, _, _, _, _, _⟩ := hS2
        have hz : u16 0 = 0 := u16_of_range 0 (le_refl _) (by norm_num)
        refine ⟨?_, ?_, ?_, le_refl _, ?_, ?_, fun s hs => (segAligned_mono _ _ _ _ _ (ha s hs)).2⟩
        · show (S.AddSegment true).Lines = ((B ++ [i]).length : Int)
          rw [AddSegment_Lines, if_pos rfl, l1]
          simp
        · show (0 : Int) ≤ 0 + chat.CharWidth (text.getD i 0)
          omega
        · show (0 : Int) + chat.CharWidth (text.getD i 0) < 65536
          omega
        · show (0 : Int) + chat.CharWidth (text.getD i 0)
            = chat.GetWidth ((text.drop i).take (i + 1 - i))
          rw [segWidth_succ chat text i i (le_refl _) hi, Nat.sub_self, List.take_zero]
          simp [Chat.GetWidth]
        · show u16 0 = chat.GetWidth ((text.drop i).take (i - i))
          rw [hz, Nat.sub_self, List.take_zero]
          rfl
    · rw [if_neg hw]
      obtain ⟨l1, l2, l3, l4, l5, l6, l7⟩ := hS2
      obtain ⟨h1, h2, h3⟩ := hS1
      refine ⟨hL, hE, B, ls, ⟨hB1, fun b hb => by have := hB2 b hb; omega, hB3, hB4, hB5⟩,
        o, by omega, ⟨by show S.MsgIndex + 1 = _; rw [h1, e1], h2, h3⟩,
        l1, ?_, ?_, l4, ?_, l6, fun s hs => (segAligned_mono _ _ _ _ _ (l7 s hs)).1⟩
      · show (0 : Int) ≤ S.CurrentLinePixelLength + chat.CharWidth (text.getD i 0)
        omega
      · show S.CurrentLinePixelLength + chat.CharWidth (text.getD i 0) < 65536
        omega
      · show S.CurrentLinePixelLength + chat.CharWidth (text.getD i 0)
          = chat.GetWidth ((text.drop ls).take (i + 1 - ls))
        rw [segWidth_succ chat text ls i (by omega) hi, l5]
  · exact absurd hF (fun h => h)

theorem divideLoop_line (chat : Chat) (text : WString) (hlen : text.length < 65536)
    (hW : chat.MaxLineLength < 65536)
    (hcw : ∀ c ∈ text, 0 ≤ chat.CharWidth c ∧ chat.CharWidth c < 65536) :
    ∀ (n i : Nat) (d : DivideState), i + n = text.length →
      noLinebreak d.FormatSpecifiers → noEmoji d.FormatSpecifiers →
      (∃ B ls, breaksInv d.FormatSpecifiers B ls i
        ∧ ∃ o, o ≤ i ∧ chainInv d.State i o ∧ lineInv chat text B ls d.State i o) →
      ∃ B ls, breaksInv (divideLoop chat text n d).FormatSpecifiers B ls text.length
        ∧ ∃ o, o ≤ text.length ∧ chainInv (divideLoop chat text n d).State text.length o
            ∧ lineInv chat text B ls (divideLoop chat text n d).State text.length o := by
  intro n
  induction n with
  | zero =>
    intro i d hi _ _ h
    have : i = text.length := by omega
    subst this
    exact h
  | succ n ih =>
    intro i d hi hL hE h
    obtain ⟨B, ls, hB, h⟩ := h
    obtain ⟨h1, h2, h3⟩ := divideStep_line chat text d i (by omega) hlen hW hcw hL hE B ls hB h
    rw [divideLoop]
    exact ih (i + 1) _ (by omega) h1 h2 h3

theorem lineBreaks_clear (l : List FormatSpecifier) (h : noLinebreak l) :
    lineBreaks (ClearWrappingLineBreaks l) = [] := by
  unfold lineBreaks ClearWrappingLineBreaks
  rw [List.filter_eq_nil_iff]
  intro f hf hb
  rw [List.mem_filter] at hf
  have h1 := h f hf.1
  have h2 : f.ft ≠ FormatSpecifierType.Wrap := by simpa using hf.2
  simp only [decide_eq_true_eq] at hb
  rcases hb with hb | hb
  · exact h2 hb
  · exact h1 hb

/-- After `DivideIntoLines` on a message without `Linebreak` and `Emoji` annotations, the line
breaks of the message are wrap breaks at increasing positions inside the text, `Lines` is
their number plus one, and every written segment is aligned with them. -/
theorem DivideIntoLines_line (chat : Chat) (cl : ChatMessage) (ChatMessageIndex : Int)
    (hL : noLinebreak cl.FormatSpecifiers) (hE : noEmoji cl.FormatSpecifiers)
    (hlen : cl.ProcessedMsg.length < 65536) (hW : chat.MaxLineLength < 65536)
    (hcw : ∀ c ∈ cl.ProcessedMsg, 0 ≤ chat.CharWidth c ∧ chat.CharWidth c < 65536) :
    ∃ B : List Nat,
      lineBreaks (DivideIntoLines chat cl ChatMessageIndex).1.FormatSpecifiers = B.map wrapAt
        ∧ (DivideIntoLines chat cl ChatMessageIndex).1.Lines = (B.length : Int) + 1
        ∧ (∀ b ∈ B, b < cl.ProcessedMsg.length)
        ∧ List.Pairwise (fun a b => a < b) B
        ∧ ∀ s ∈ (DivideIntoLines chat cl ChatMessageIndex).2,
            segAligned chat cl.ProcessedMsg B cl.ProcessedMsg.length s := by
  unfold DivideIntoLines
  simp only
  obtain ⟨B, ls, ⟨hB1, hB2, hB3, hB4, hB5⟩, o, ho, hS1, hS2⟩ :=
    divideLoop_line chat cl.ProcessedMsg hlen hW hcw cl.ProcessedMsg.length 0
      { FormatSpecifiers := ClearWrappingLineBreaks cl.FormatSpecifiers, FormatIterator := 0,
        State :=
          { Output := []
            CurLineSegmentInfo :=
              { LineSegmentInfo.zero with
                ChatMessageIndex := ChatMessageIndex
                Offset := 0
                PixelOffsetX := 0
                IsStartOfLine := true
                TextColor := cl.DefaultColor
                Emphasis := EmphasisType.Default }
            ChatMessageIndex := ChatMessageIndex
            MsgIndex := 0
            Lines := 0
            CurrentLinePixelLength := 0
            CurTextColor := cl.DefaultColor
            CurEmphasis := EmphasisType.Default } }
      (by omega)
      (fun f hf => hL f (List.mem_of_mem_filter hf))
      (fun f hf => hE f (List.mem_of_mem_filter hf))
      ⟨[], 0, ⟨lineBreaks_clear _ hL, fun b hb => (by cases hb), List.Pairwise.nil, Or.inl rfl,
          fun b hb => (by cases hb)⟩,
        0, le_refl _, ⟨rfl, rfl, rfl⟩, rfl, le_refl _, by norm_num, le_refl _, rfl, rfl,
        fun s hs => (by cases hs)⟩
  refine ⟨B, hB1, ?_, hB2, hB3,
    AddSegment_aligned chat cl.ProcessedMsg B ls _ true _ o hS1 ho hlen hB4 hB5 hS2⟩
  rw [AddSegment_Lines, if_pos rfl, hS2.1]

theorem GetLineBreak_of_breaks (c : ChatMessage) (B : List Nat)
    (hB : lineBreaks c.FormatSpecifiers = B.map wrapAt) (n : Nat) (hn : n < B.length) :
    c.GetLineBreak (n : Int) = some (wrapAt (B.get ⟨n, hn⟩)) := by
  rw [GetLineBreak_eq, hB, List.getElem?_map, List.getElem?_eq_getElem hn]
  rfl

/-- For a visible message whose line breaks are wrap breaks at the increasing positions `B`
inside a non-empty text, without a line of more than 1023 characters, `GetPos` at the offset of
an aligned segment returns the horizontal coordinate `Output.x1 + 5` plus the pixel offset of
the segment. -/
theorem GetPos_of_aligned (chat : Chat) (tab : ChatTab) (c : ChatMessage) (j : Nat)
    (B : List Nat) (s : LineSegmentInfo)
    (hF : chat.FontHeight ≠ 0) (hj : j < tab.Messages.length)
    (hvis : ∀ i, j ≤ i → i < tab.Messages.length →
      ((tab.Messages.drop (i + 1)).map (fun m => m.Lines)).sum
        < Int.tdiv (chat.GetOutputRect.y2 - chat.GetOutputRect.y1 - 10) chat.FontHeight)
    (hnul : ∀ x ∈ c.ProcessedMsg, x ≠ 0) (hline : c.linesAtMost 1023)
    (hB : lineBreaks c.FormatSpecifiers = B.map wrapAt)
    (hLines : c.Lines = (B.length : Int) + 1)
    (hlt : ∀ b ∈ B, b < c.ProcessedMsg.length)
    (hsorted : List.Pairwise (fun a b => a < b) B)
    (hs : segAligned chat c.ProcessedMsg B c.ProcessedMsg.length s) :
    ∃ y, GetPos chat tab c (some j) s.Offset.toNat
      = some (true, { x := chat.GetOutputRect.x1 + 5 + s.PixelOffsetX, y := y }) := by
  obtain ⟨so, sl, h1, h2, h3, h4, h5, h6⟩ := hs
  have hne : c.ProcessedMsg ≠ [] := by
    intro h
    rw [h] at h2
    simp at h2
  have hbreak : ∀ i : Int, 0 ≤ i → i < c.Lines - 1 →
      ∃ (n : Nat) (hn : n < B.length), i = (n : Int)
        ∧ c.GetLineBreak i = some (wrapAt (B.get ⟨n, hn⟩)) := by
    intro i hi0 hi1
    have hn : i.toNat < B.length := by omega
    have e : i = (i.toNat : Int) := by omega
    refine ⟨i.toNat, hn, e, ?_⟩
    have hb := GetLineBreak_of_breaks c B hB i.toNat hn
    rw [← e] at hb
    exact hb
  have hpos : ∀ b : Nat, (wrapAt b).nStartPos = (b : Int) := fun b => rfl
  obtain ⟨s', y, hg, g1, g2, g3⟩ := GetPos_x_nonempty chat tab c j so hF hj hvis (by omega) hne
    hnul 1023 hline (Or.inr ⟨h2, le_refl _⟩)
    (by
      intro i hi0 hi1
      obtain ⟨n, hn, _, hb⟩ := hbreak i hi0 hi1
      refine ⟨_, hb, ?_, ?_⟩
      · rw [hpos]; omega
      · rw [hpos]
        have := hlt _ (List.get_mem B n hn)
        omega)
    (by
      intro i k f g hi0 hik hk hf hg
      obtain ⟨n, hn, en, hb⟩ := hbreak i hi0 (by omega)
      obtain ⟨n', hn', en', hb'⟩ := hbreak k (by omega) hk
      rw [hb] at hf
      rw [hb'] at hg
      cases hf
      cases hg
      rw [hpos, hpos]
      by_cases hnn : n = n'
      · subst hnn; exact le_refl _
      · have hlt' : n < n' := by omega
        have := List.pairwise_iff_get.1 hsorted ⟨n, hn⟩ ⟨n', hn'⟩ hlt'
        omega)
  have hss : s' = sl := by
    apply le_antisymm
    · rcases g2 with g2 | ⟨i, f, hi0, hi1, hf, hfp⟩
      · omega
      · obtain ⟨n, hn, _, hb⟩ := hbreak i hi0 hi1
        rw [hb] at hf
        cases hf
        rw [hpos] at hfp
        have hmemB : s' ∈ B := by
          have : B.get ⟨n, hn⟩ = s' := by omega
          rw [← this]
          exact List.get_mem B n hn
        exact h5 s' hmemB g1
    · rcases h3 with h3 | h3
      · omega
      · obtain ⟨⟨n, hn⟩, hget⟩ := List.get_of_mem h3
        have hb := GetLineBreak_of_breaks c B hB n hn
        have := g3 (n : Int) _ (by omega) (by omega) hb (by
          rw [hpos]
          have : B.get ⟨n, hn⟩ = sl := hget
          omega)
        rw [hpos] at this
        have e : B.get ⟨n, hn⟩ = sl := hget
        omega
  refine ⟨y, ?_⟩
  have eo : s.Offset.toNat = so := by rw [h1]; exact Int.toNat_ofNat so
  rw [eo, hg, hss, h6]

/-- A message of at most `N` characters whose annotation positions are valid has no line of
more than `N` characters. -/
theorem linesAtMost_of_length (c : ChatMessage) (N : Int)
    (hlen : (c.ProcessedMsg.length : Int) ≤ N)
    (hv : positionsValid c.ProcessedMsg c.FormatSpecifiers) : c.linesAtMost N := by
  have hmem : ∀ (i : Int) (f : FormatSpecifier), 0 ≤ i → c.GetLineBreak i = some f →
      0 ≤ f.nStartPos ∧ f.nStartPos ≤ (c.ProcessedMsg.length : Int) := by
    intro i f hi hf
    have e : i = (i.toNat : Int) := by omega
    rw [e, GetLineBreak_eq] at hf
    have hm := List.getElem?_mem hf
    unfold lineBreaks at hm
    exact hv f (List.mem_filter.1 hm).1
  intro i a b hi0 _ ha hb
  have ha0 : 0 ≤ a := by
    by_cases h : i = 0
    · rw [if_pos h] at ha
      cases ha
      exact le_refl _
    · rw [if_neg h] at ha
      cases hg : c.GetLineBreak (i - 1) with
      | none => rw [hg] at ha; cases ha
      | some f =>
        rw [hg] at ha
        cases ha
        exact (hmem (i - 1) f (by omega) hg).1
  have hbl : b ≤ (c.ProcessedMsg.length : Int) := by
    by_cases h : i < c.Lines - 1
    · rw [if_pos h] at hb
      cases hg : c.GetLineBreak i with
      | none => rw [hg] at hb; cases hb
      | some f =>
        rw [hg] at hb
        cases hb
        exact (hmem i f hi0 hg).2
    · rw [if_neg h] at hb
      cases hb
      exact le_refl _
  omega

/-! ### Settled claims -/

/-- C1 (evaluation at the failing input): parsing `:cool:^1x` with `cool` registered leaves the
annotation list `[Color at 6, Emoji at 0]`, which is not ordered by position: the emoji pass
appends its annotation after the first-pass annotations whatever their positions.  Layout walks
the list with one forward iterator, so it then never reaches the emoji annotation and writes the
placeholder as part of a single text segment. -/
theorem C1_emoji_pass_breaks_order :
    parse samplePalette sampleEmojiMap (wstr ":cool:^1x")
        = some ([0xFFFC, 120],
            [FormatSpecifier.ofColor 6 (samplePalette 1), FormatSpecifier.ofEmoji 0 (wstr "cool")])
      ∧ ¬ positionsSorted
            [FormatSpecifier.ofColor 6 (samplePalette 1), FormatSpecifier.ofEmoji 0 (wstr "cool")]
      ∧ (DivideIntoLines sampleChat
            { ChatMessage.ofText (wstr ":cool:^1x") 7 with
              ProcessedMsg := [0xFFFC, 120]
              FormatSpecifiers :=
                [FormatSpecifier.ofColor 6 (samplePalette 1),
                  FormatSpecifier.ofEmoji 0 (wstr "cool")] } 0).2.map
          (fun s => (s.SegType, s.Offset, s.LengthInCharacters))
        = [(SegmentType.Text, 0, 2)] := by
  decide

/-- C2 (evaluation at the failing input): parsing `hi :cool:^5` with `cool` registered leaves a
processed text of 5 characters and a `Color` annotation at position 9: the emoji pass shortens
the text without moving the positions of the first-pass annotations behind the emoji. -/
theorem C2_emoji_pass_leaves_position_past_end :
    parse samplePalette sampleEmojiMap (wstr "hi :cool:^5")
        = some (wstr "hi " ++ [0xFFFC, 32],
            [FormatSpecifier.ofColor 9 (samplePalette 5), FormatSpecifier.ofEmoji 3 (wstr "cool")])
      ∧ ¬ positionsValid (wstr "hi " ++ [0xFFFC, 32])
            [FormatSpecifier.ofColor 9 (samplePalette 5), FormatSpecifier.ofEmoji 3 (wstr "cool")] := by
  decide

/-- C3: layout is idempotent.  For every message, chat window (wrap width, font metrics, emoji
table) and message index, running `DivideIntoLines` again on the message that a first run left
writes the same segment sequence, sets the same `Lines` and leaves the same annotation list as
the first run. -/
theorem C3_DivideIntoLines_idempotent (chat : Chat) (cl : ChatMessage) (ChatMessageIndex : Int) :
    (DivideIntoLines chat (DivideIntoLines chat cl ChatMessageIndex).1 ChatMessageIndex).2
        = (DivideIntoLines chat cl ChatMessageIndex).2
      ∧ (DivideIntoLines chat (DivideIntoLines chat cl ChatMessageIndex).1 ChatMessageIndex).1.Lines
        = (DivideIntoLines chat cl ChatMessageIndex).1.Lines
      ∧ (DivideIntoLines chat (DivideIntoLines chat cl ChatMessageIndex).1
            ChatMessageIndex).1.FormatSpecifiers
        = (DivideIntoLines chat cl ChatMessageIndex).1.FormatSpecifiers := by
  rw [DivideIntoLines_again]
  exact ⟨rfl, rfl, rfl⟩

/-- C4 (counterexample): for the laid-out one-line message `ab` with every character 10 pixels
wide, `GetPos` places offset 1 on line 0 at pixel 10, and the hit-test fed with line 0 and
pixel 10 stores offset 0, not 1. -/
theorem C4_round_trip_counterexample :
    GetPosInMessage sampleChat (DivideIntoLines sampleChat (ChatMessage.ofText (wstr "ab") 7) 0).1 1
        = some (0, 10)
      ∧ hitTestInMessage sampleChat
          (DivideIntoLines sampleChat (ChatMessage.ofText (wstr "ab") 7) 0).1 0 10 = some 0
      ∧ hitTestInMessage sampleChat
          (DivideIntoLines sampleChat (ChatMessage.ofText (wstr "ab") 7) 0).1 0 10 ≠ some 1 := by
  decide

/-- C4 (amended): the hit-test is not the inverse of `GetPos`, it stores the offset of the
character that ends at the caret.  For every message of any length whose line breaks below
`Lines - 1` exist and lie inside the text, with positive advance widths, no NUL character and
no line of more than 1022 characters (`GetPos` formats the characters from the start of the
line to the offset, and a `_`, into the 1024-character buffer of `GetTextLength`), and every
offset `1 ≤ k ≤ length`: `GetPos` finds a line index and a horizontal pixel offset for `k`, and
the selection hit-test started on that line with that pixel offset stores `k - 1`. -/
theorem C4_hit_test_stores_previous_offset (chat : Chat) (cl : ChatMessage) (k : Nat)
    (hk1 : 1 ≤ k) (hk : k ≤ cl.ProcessedMsg.length)
    (hw : ∀ c ∈ cl.ProcessedMsg, 0 < chat.CharWidth c)
    (hnul : ∀ c ∈ cl.ProcessedMsg, c ≠ 0)
    (hline : cl.linesAtMost 1022)
    (hbreaks : ∀ i : Int, 0 ≤ i → i < cl.Lines - 1 →
      ∃ f, cl.GetLineBreak i = some f ∧ 0 ≤ f.nStartPos
        ∧ f.nStartPos < (cl.ProcessedMsg.length : Int)) :
    ∃ nLine x, GetPosInMessage chat cl k = some (nLine, x)
      ∧ hitTestInMessage chat cl nLine x = some ((k : Int) - 1) := by
  -- the line index and the first offset `a` of that line, as `GetPos` finds them
  obtain ⟨nLine, a, hr, hak, ha, hstart, hpart⟩ : ∃ (nLine : Int) (a : Nat),
      (if cl.Lines = 1 then some ((0 : Int), (0 : Int))
        else
          match GetPosLineLoop cl k (cl.Lines - 1).toNat 0 with
          | none => none
          | some nLine =>
            if nLine > 0 then
              match cl.GetLineBreak (nLine - 1) with
              | none => none
              | some f => some (nLine, f.nStartPos)
            else some (nLine, 0)) = some (nLine, (a : Int))
      ∧ a ≤ k ∧ a < cl.ProcessedMsg.length
      ∧ (if nLine = 0 then some (0 : Int)
          else (cl.GetLineBreak (nLine - 1)).map (fun f => f.nStartPos)) = some (a : Int)
      ∧ ((nLine = 0 ∧ cl.Lines = 1)
        ∨ (GetPosLineLoop cl k (cl.Lines - 1).toNat 0 = some nLine
          ∧ 0 ≤ nLine ∧ nLine ≤ ((cl.Lines - 1).toNat : Int))) := by
    by_cases hL : cl.Lines = 1
    · exact ⟨0, 0, by rw [if_pos hL]; rfl, Nat.zero_le _, by omega, by rw [if_pos rfl]; rfl,
        Or.inl ⟨rfl, hL⟩⟩
    · obtain ⟨r, hr, h1, _, h3⟩ := GetPosLineLoop_spec cl k
        (fun f => 0 ≤ f.nStartPos ∧ f.nStartPos < (cl.ProcessedMsg.length : Int))
        (cl.Lines - 1).toNat 0 (fun j hj1 hj2 => hbreaks j hj1 (by omega))
      by_cases hr0 : r > 0
      · obtain ⟨f, hf, hfk, hf0, hflen⟩ := h3 hr0
        refine ⟨r, f.nStartPos.toNat, ?_, by omega, by omega, ?_, Or.inr ⟨hr, by omega, by omega⟩⟩
        · rw [if_neg hL, hr]
          simp only [hr0, if_true, hf]
          rw [Int.toNat_of_nonneg hf0]
        · rw [if_neg (by omega), hf]
          simp only [Option.map_some']
          rw [Int.toNat_of_nonneg hf0]
      · have : r = 0 := by omega
        subst this
        refine ⟨0, 0, ?_, Nat.zero_le _, by omega, by rw [if_pos rfl]; rfl,
          Or.inr ⟨hr, le_refl _, by omega⟩⟩
        rw [if_neg hL, hr]
        simp
  -- the characters from `a` to `k` and the `_` fit the buffer of `GetTextLength`
  have hbuf : k - a ≤ 1022 := by
    have h0 : 0 ≤ nLine := by
      rcases hpart with ⟨h, _⟩ | ⟨_, h, _⟩
      · omega
      · exact h
    have := linesAtMost_part cl 1022 hline k hk nLine (a : Int) h0
      (hpart.imp (fun h => ⟨h.2, h.1⟩) (fun h => ⟨h.1, h.2.2⟩)) hstart
    omega
  refine ⟨nLine, chat.GetWidth ((cl.ProcessedMsg.drop a).take (k - a)), ?_, ?_⟩
  · unfold GetPosInMessage
    simp only [hr]
    rw [if_pos ⟨Int.natCast_nonneg _, by exact_mod_cast ha⟩]
    simp only [Int.toNat_ofNat]
    rw [GetPos_width chat _ a k hak hbuf hnul]
  · exact hitTestInMessage_caret chat cl nLine a k hstart hak hk1 hk hw hnul

/-- C4 (witness): the message `abcde` wrapped into three lines of two characters, offset 3. -/
theorem C4_hit_test_stores_previous_offset_witness :
    ∃ nLine x,
      GetPosInMessage sampleChat
          (DivideIntoLines sampleChat (ChatMessage.ofText (wstr "abcde") 7) 0).1 3
        = some (nLine, x)
      ∧ hitTestInMessage sampleChat
          (DivideIntoLines sampleChat (ChatMessage.ofText (wstr "abcde") 7) 0).1 nLine x
        = some ((3 : Int) - 1) :=
  C4_hit_test_stores_previous_offset sampleChat
    (DivideIntoLines sampleChat (ChatMessage.ofText (wstr "abcde") 7) 0).1 3
    (by decide) (by decide) (fun _ _ => (by decide : (0 : Int) < 10)) (by decide)
    (linesAtMost_of_length _ 1022 (by decide) (by decide))
    (fun i h0 h1 => by
      have hL : (DivideIntoLines sampleChat (ChatMessage.ofText (wstr "abcde") 7) 0).1.Lines = 3 := by
        decide
      rw [hL] at h1
      have hi : i = 0 ∨ i = 1 := by omega
      rcases hi with rfl | rfl
      · exact ⟨FormatSpecifier.ofType 2 FormatSpecifierType.Wrap, by decide, by decide, by decide⟩
      · exact ⟨FormatSpecifier.ofType 4 FormatSpecifierType.Wrap, by decide, by decide, by decide⟩)

/-- C5 (counterexample): parsing `^^11` gives the processed text `^1`, and parsing `^1` again
removes it and emits a colour annotation, so the second parse does transform the text. -/
theorem C5_reparse_counterexample :
    parse samplePalette sampleEmojiMap (wstr "^^11")
        = some (wstr "^1", [FormatSpecifier.ofColor 1 (samplePalette 1)])
      ∧ parse samplePalette sampleEmojiMap (wstr "^1")
        = some ([], [FormatSpecifier.ofColor 0 (samplePalette 1)])
      ∧ parse samplePalette sampleEmojiMap (wstr "^1") ≠ some (wstr "^1", []) := by
  decide

/-- C5 (amended): re-parsing changes nothing whenever the processed text holds no complete
token.  For every input text `t` and emoji table, if the processed text `p` obtained from
parsing `t` has no `^` followed by a digit or by `#` and eight hexadecimal digits, no `[` with
a `]` behind it and no two `:` enclosing a registered non-empty name, then parsing `p` with an
empty annotation list returns `p` and emits no annotation. -/
theorem C5_reparse_of_token_free (C : Nat → Nat) (E : EmojiMapType) (t p : WString)
    (anns : List FormatSpecifier) (_hparse : parse C E t = some (p, anns))
    (hfree : tokenFree E p) :
    parse C E p = some (p, []) :=
  parse_token_free C E p hfree

/-- C5 (witness): `^5Hi :) [b]there^` is parsed to `Hi :) there^`, which holds no token. -/
theorem C5_reparse_of_token_free_witness :
    parse samplePalette sampleEmojiMap (wstr "Hi :) there^") = some (wstr "Hi :) there^", []) :=
  C5_reparse_of_token_free samplePalette sampleEmojiMap (wstr "^5Hi :) [b]there^")
    (wstr "Hi :) there^")
    [FormatSpecifier.ofColor 0 (samplePalette 5),
      FormatSpecifier.ofType 6 FormatSpecifierType.Bold]
    (by decide) (by decide)

/-- C6: for every decimal digit `d` and all texts `A`, `B` without `^`, `[`, `]`, `:`, parsing
`A ++ "^" ++ d ++ B` gives the processed text `A ++ B` and exactly one annotation, the colour
`MMColorSet[d]` at position `|A|`. -/
theorem C6_digit_color_token (C : Nat → Nat) (E : EmojiMapType) (A B : WString) (d : Nat)
    (hd : d ≤ 9) (hA : plain A) (hB : plain B)
    (hlen : (A ++ [94, 48 + d] ++ B).length < SIZE_MOD) :
    parse C E (A ++ [94, 48 + d] ++ B)
      = some (A ++ B, [FormatSpecifier.ofColor A.length (C d)]) := by
  have htext : A ++ [94, 48 + d] ++ B = A ++ 94 :: (48 + d) :: B := by simp
  have hL : (A ++ 94 :: (48 + d) :: B).length = A.length + B.length + 2 := by
    simp only [List.length_append, List.length_cons]; omega
  rw [htext] at hlen ⊢
  have hbody : firstPassBody C (ChatMessage.ofText (A ++ 94 :: (48 + d) :: B) 0) A.length
      = ({ ChatMessage.ofText (A ++ 94 :: (48 + d) :: B) 0 with
            ProcessedMsg := A ++ B
            FormatSpecifiers := [FormatSpecifier.ofColor A.length (C d)] }, true) := by
    have hdig : isdigit (48 + d) = true := by
      simp only [isdigit, Bool.and_eq_true, decide_eq_true_eq]; omega
    have her : erase (A ++ 94 :: (48 + d) :: B) A.length 2 = A ++ B := by
      have := erase_middle A [94, 48 + d] B
      simpa using this
    unfold firstPassBody
    simp only [ChatMessage.ofText, hL, getD_append_cons, getD_append_cons_succ, hdig,
      ChatMessage.emplace_back, ChatMessage.Erase, her]
    rw [if_neg (by omega)]
    simp
  unfold parse SubstituteFormatSpecifiers
  have hfind : find_first_of (ChatMessage.ofText (A ++ 94 :: (48 + d) :: B) 0).ProcessedMsg
      [94, 91] 0 = some A.length :=
    find_first_of_append A _ _ 94 0 (Nat.zero_le _) (plain_no_start hA) (by decide)
  rw [hfind]
  have hfuel : 2 * (ChatMessage.ofText (A ++ 94 :: (48 + d) :: B) 0).ProcessedMsg.length + 2
      = (2 * (A.length + B.length) + 4) + 1 + 1 := by
    simp only [ChatMessage.ofText, hL]; omega
  rw [hfuel, firstPassLoop_some, hbody]
  have hcond : A.length ≤ sizeSub (ChatMessage.ofText (A ++ 94 :: (48 + d) :: B) 0).ProcessedMsg.length 2 := by
    simp only [ChatMessage.ofText]
    rw [sizeSub_of_le _ _ (by omega) hlen]
    omega
  rw [if_pos hcond]
  simp only [if_true]
  rw [firstPassLoop_done C _ _ A.length A.length
    (by simp only [List.drop_left]; exact plain_no_start hB)]
  simp only
  rw [secondPassLoop_no_colon E _ _ 0 (plain_no_colon (plain_append hA hB))]
  rfl


/-- C6 (witness): `^5Hello` gives `Hello` with the colour of palette entry 5 at position 0. -/
theorem C6_digit_color_token_witness :
    parse samplePalette sampleEmojiMap ([] ++ [94, 48 + 5] ++ wstr "Hello")
      = some ([] ++ wstr "Hello",
          [FormatSpecifier.ofColor (([] : WString).length) (samplePalette 5)]) :=
  C6_digit_color_token samplePalette sampleEmojiMap [] (wstr "Hello") 5
    (by decide) (by decide) (by decide) (by decide)

/-- C7: for every text `"^#" ++ R` with `R` free of `^`, `[`, `]`, `:`, the token is consumed
exactly when the first eight characters of `R` are hexadecimal digits of either case: then the
processed text is `R` without them and the only annotation is the colour at position 0 whose
value is the eight digits read in base 16; otherwise the text stays whole and no annotation is
emitted. -/
theorem C7_hex_color_token (C : Nat → Nat) (E : EmojiMapType) (R : WString) (hR : plain R) :
    ((8 ≤ R.length ∧ ∀ c ∈ R.take 8, ishexdigit c = true) →
        parse C E ([94, 35] ++ R)
          = some (R.drop 8,
              [FormatSpecifier.ofColor 0 (Nat.ofDigits 16 ((R.take 8).reverse.map hexDigitValue))]))
      ∧ (¬ (8 ≤ R.length ∧ ∀ c ∈ R.take 8, ishexdigit c = true) →
        parse C E ([94, 35] ++ R) = some ([94, 35] ++ R, [])) :=
  hex_token_parse C E R hR

/-- C7 (witness): `^#ff00FF80 ok` is consumed, `^#ff00FF8 ok` (seven digits) is not. -/
theorem C7_hex_color_token_witness :
    parse samplePalette sampleEmojiMap ([94, 35] ++ wstr "ff00FF80 ok")
        = some ((wstr "ff00FF80 ok").drop 8,
            [FormatSpecifier.ofColor 0
              (Nat.ofDigits 16 (((wstr "ff00FF80 ok").take 8).reverse.map hexDigitValue))])
      ∧ parse samplePalette sampleEmojiMap ([94, 35] ++ wstr "ff00FF8 ok")
        = some ([94, 35] ++ wstr "ff00FF8 ok", []) :=
  ⟨(C7_hex_color_token samplePalette sampleEmojiMap (wstr "ff00FF80 ok") (by decide)).1
      (by decide),
    (C7_hex_color_token samplePalette sampleEmojiMap (wstr "ff00FF8 ok") (by decide)).2
      (by decide)⟩

/-- C8 (counterexample): parsing `^#FF00FF80XY` does not leave the text untouched. -/
theorem C8_token_not_left_untouched :
    parse samplePalette sampleEmojiMap (wstr "^#FF00FF80XY") ≠ some (wstr "^#FF00FF80XY", []) := by
  decide

/-- C8 (amended): in `^#FF00FF80XY` eight hexadecimal digits follow `^#`, so for every colour
table and emoji table the ten-character token is consumed: the processed text is `XY` and the
only annotation is the colour `0xFF00FF80` at position 0.  With fewer than eight digits, as in
`^#FF00FFXY`, the text is left untouched and no annotation is emitted. -/
theorem C8_hex_token_followed_by_text (C : Nat → Nat) (E : EmojiMapType) :
    parse C E (wstr "^#FF00FF80XY") = some (wstr "XY", [FormatSpecifier.ofColor 0 0xFF00FF80])
      ∧ parse C E (wstr "^#FF00FFXY") = some (wstr "^#FF00FFXY", []) :=
  ⟨(hex_token_parse C E (wstr "FF00FF80XY") (by decide)).1 (by decide),
    (hex_token_parse C E (wstr "FF00FFXY") (by decide)).2 (by decide)⟩

/-- C9: for every `x` among `b`, `i`, `u`, `s`, every text `T` without `^`, `[`, `]`, `:` and
every closing token `[/]` or `[/c]` with `c` other than `]`, parsing `[x]` ++ `T` ++ closing
token gives the processed text `T` and exactly two annotations: the emphasis kind of `x` at
position 0, then `Default` (reset) at position `|T|`. -/
theorem C9_emphasis_pair (C : Nat → Nat) (E : EmojiMapType) (x : Nat)
    (k : FormatSpecifierType) (T Cl : WString)
    (hx : (x, k) ∈ [(98, FormatSpecifierType.Bold), (105, FormatSpecifierType.Italic),
      (117, FormatSpecifierType.Underline), (115, FormatSpecifierType.Strikethrough)])
    (hT : plain T)
    (hC : Cl = [91, 47, 93] ∨ ∃ c, c ≠ 93 ∧ Cl = [91, 47, c, 93])
    (hlen : ([91, x, 93] ++ T ++ Cl).length < SIZE_MOD) :
    parse C E ([91, x, 93] ++ T ++ Cl)
      = some (T, [FormatSpecifier.ofType 0 k,
          FormatSpecifier.ofType T.length FormatSpecifierType.Default]) := by
  have hk : CharToFT x = k ∧ x ≠ 47 ∧ x ≠ 93 ∧ k ≠ FormatSpecifierType.Unknown := by
    simp only [List.mem_cons, Prod.mk.injEq, List.mem_singleton, List.not_mem_nil, or_false] at hx
    rcases hx with ⟨rfl, rfl⟩ | ⟨rfl, rfl⟩ | ⟨rfl, rfl⟩ | ⟨rfl, rfl⟩ <;> decide
  obtain ⟨hk1, hk2, hk3, hk4⟩ := hk
  -- the closing token is `[/` ++ K ++ `]` with `K` empty or a single character other than `]`
  obtain ⟨K, hK, hK93, hKlen⟩ : ∃ K : WString, Cl = 91 :: ((47 :: K) ++ 93 :: [])
      ∧ (∀ c ∈ (47 :: K), [93].contains c = false) ∧ (K.length = 0 ∨ K.length = 1) := by
    rcases hC with rfl | ⟨c, hc, rfl⟩
    · exact ⟨[], rfl, by decide, Or.inl rfl⟩
    · refine ⟨[c], rfl, ?_, Or.inr rfl⟩
      intro d hd
      simp only [List.mem_cons, List.mem_singleton, List.not_mem_nil, or_false] at hd
      rcases hd with rfl | rfl
      · decide
      · simp [hc]
  subst hK
  generalize htx : [91, x, 93] ++ T ++ 91 :: ((47 :: K) ++ 93 :: []) = text at hlen ⊢
  have htext : text = [] ++ 91 :: ([x] ++ 93 :: (T ++ 91 :: ((47 :: K) ++ 93 :: []))) := by
    rw [← htx]; simp
  have hL0 : text.length = T.length + K.length + 6 := by
    rw [htext]; simp only [List.length_append, List.length_cons, List.length_nil]; omega
  have hfind0 : find_first_of text [94, 91] 0 = some 0 := by rw [htext]; rfl
  -- first iteration, at the opening token
  have hbody1 := firstPassBody_bracket C (ChatMessage.ofText text 0) [] [x]
    (T ++ 91 :: ((47 :: K) ++ 93 :: [])) (by simp) (by simp [hk3]) htext
  simp only [List.getD_cons_zero, hk2, false_and, if_false, hk1, ne_eq, hk4, not_false_eq_true,
    if_true, List.length_nil, List.nil_append, ChatMessage.ofText] at hbody1
  obtain ⟨m1, hm1⟩ : ∃ m1 : ChatMessage, m1 = ChatMessage.mk 0 text
      (T ++ 91 :: ((47 :: K) ++ 93 :: [])) 0 [FormatSpecifier.ofType ((0 : Nat) : Int) k] 0 :=
    ⟨_, rfl⟩
  rw [← hm1] at hbody1
  have hm1t : m1.ProcessedMsg = T ++ 91 :: ((47 :: K) ++ 93 :: []) := by rw [hm1]
  have hL1 : m1.ProcessedMsg.length = T.length + K.length + 3 := by
    rw [hm1t]; simp only [List.length_append, List.length_cons, List.length_nil]; omega
  have hfind1 : find_first_of m1.ProcessedMsg [94, 91] 0 = some T.length := by
    rw [hm1t]
    exact find_first_of_append T _ _ 91 0 (Nat.zero_le _) (plain_no_start hT) (by decide)
  -- second iteration, at the closing token
  have hbody2 := firstPassBody_bracket C m1 T (47 :: K) [] (by simp) hK93 hm1t
  have hKl : (47 :: K).length = 1 ∨ (47 :: K).length = 2 := by
    simp only [List.length_cons]; omega
  simp only [List.getD_cons_zero, true_and, hKl, if_true, List.append_nil] at hbody2
  have hfuel : 2 * text.length + 2 = (2 * (T.length + K.length) + 11) + 1 + 1 + 1 := by
    rw [hL0]; omega
  refine (parse_of_first_pass C E text
    (ChatMessage.mk m1.Time m1.OriginalMsg T m1.DefaultColor
      (m1.FormatSpecifiers ++ [FormatSpecifier.ofType T.length FormatSpecifierType.Default])
      m1.Lines) ?_ ?_).trans ?_
  · rw [hfind0, hfuel, firstPassLoop_some, if_pos (Nat.zero_le _)]
    simp only [ChatMessage.ofText, hbody1, if_true]
    rw [if_pos (by rw [hL1]; omega), hfind1, firstPassLoop_some,
      if_pos (by rw [hL1, sizeSub_of_le _ _ (by omega) (by omega)]; omega)]
    simp only [hbody2, if_true]
    rw [if_neg (by simp), firstPassLoop_none]
  · exact plain_no_colon hT
  · rw [hm1]
    rfl

/-- C9 (witness): `[b]Hi[/]` gives `Hi` with `Bold` at 0 and `Default` at 2. -/
theorem C9_emphasis_pair_witness :
    parse samplePalette sampleEmojiMap ([91, 98, 93] ++ wstr "Hi" ++ [91, 47, 93])
      = some (wstr "Hi",
          [FormatSpecifier.ofType 0 FormatSpecifierType.Bold,
            FormatSpecifier.ofType (wstr "Hi").length FormatSpecifierType.Default]) :=
  C9_emphasis_pair samplePalette sampleEmojiMap 98 FormatSpecifierType.Bold (wstr "Hi")
    [91, 47, 93] (by decide) (by decide) (Or.inl rfl) (by decide)

/-- C10 (evaluation at the failing input): the token `[x]` with `x` the character U+0162, which
is none of `b`, `i`, `u`, `s`, `/`, `]`, is stripped but emits `Bold` at position 0: `CharToFT`
takes a `char`, so it sees the low eight bits `0x62`, the letter `b`. -/
theorem C10_wide_character_narrowed_to_b :
    parse samplePalette sampleEmojiMap [91, 0x162, 93]
      = some ([], [FormatSpecifier.ofType 0 FormatSpecifierType.Bold]) := by
  decide

/-- C11: an unterminated `[` is left as literal text.  For every colour table, emoji table and
text that contains no `]`, no `^` and no `:` (any number of `[` is allowed),
`SubstituteFormatSpecifiers` returns, the processed text is the input and the annotation list
is empty. -/
theorem C11_unterminated_bracket_is_literal (C : Nat → Nat) (E : EmojiMapType) (text : WString)
    (h : ∀ c ∈ text, c ≠ 93 ∧ c ≠ 94 ∧ c ≠ 58) :
    parse C E text = some (text, []) :=
  parse_token_free C E text (tokenFree_of_no_closing E text h)

/-- C11 (witness): the text `a[b[c` with two unterminated brackets. -/
theorem C11_unterminated_bracket_is_literal_witness :
    parse samplePalette sampleEmojiMap (wstr "a[b[c") = some (wstr "a[b[c", []) :=
  C11_unterminated_bracket_is_literal samplePalette sampleEmojiMap (wstr "a[b[c") (by decide)

/-- C12 (counterexample): with the name `^1` registered in the emoji table (non-empty, without
`:`), parsing `:^1:` with empty `A` and `B` emits a colour annotation and no emoji annotation,
and the processed text is `::`: the first pass consumes the name before the emoji pass runs. -/
theorem C12_registered_name_with_token :
    EmojiMapType.count [(wstr "^1", ⟨1, 1⟩)] (wstr "^1") = true
      ∧ parse samplePalette [(wstr "^1", ⟨1, 1⟩)] (wstr ":^1:")
        = some ([58, 58], [FormatSpecifier.ofColor 1 (samplePalette 1)])
      ∧ parse samplePalette [(wstr "^1", ⟨1, 1⟩)] (wstr ":^1:")
        ≠ some ([0xFFFC, 32], [FormatSpecifier.ofEmoji 0 (wstr "^1")]) := by
  decide

/-- C12 (amended): for every non-empty name `n` registered in the emoji table and all texts `A`,
`B`, where `n`, `A` and `B` contain none of `^`, `[`, `]`, `:`, parsing `A ++ ":" ++ n ++ ":" ++ B`
emits exactly one annotation, `Emoji(n)` at position `|A|`; the processed text is
`A ++ U+FFFC ++ B` when `B` is non-empty and `A ++ U+FFFC ++ " "` when `B` is empty. -/
theorem C12_emoji_token (C : Nat → Nat) (E : EmojiMapType) (A n B : WString)
    (hne : n ≠ []) (hreg : E.count n = true) (hn : plain n) (hA : plain A) (hB : plain B)
    (hlen : (A ++ [58] ++ n ++ [58] ++ B).length < SIZE_MOD) :
    parse C E (A ++ [58] ++ n ++ [58] ++ B)
      = some (if B = [] then A ++ [0xFFFC, 32] else A ++ [0xFFFC] ++ B,
          [FormatSpecifier.ofEmoji A.length n]) :=
  emoji_token_parse C E A n B hne hreg hn hA hB hlen

/-- C12 (witness): `hi :cool:` ends with the emoji, so a space follows the placeholder. -/
theorem C12_emoji_token_witness :
    parse samplePalette sampleEmojiMap (wstr "hi " ++ [58] ++ wstr "cool" ++ [58] ++ [])
      = some (if ([] : WString) = [] then wstr "hi " ++ [0xFFFC, 32]
            else wstr "hi " ++ [0xFFFC] ++ [],
          [FormatSpecifier.ofEmoji (wstr "hi ").length (wstr "cool")]) :=
  C12_emoji_token samplePalette sampleEmojiMap (wstr "hi ") (wstr "cool") []
    (by decide) (by decide) (by decide) (by decide) (by decide) (by decide)

/-- C13 (counterexample): with `cool` registered, `u = ^1` (not registered, without `:`) and
empty `A`, `B`, parsing `:^1:cool:` does not keep `:^1` as literal text and emits two
annotations: the first pass removes `^1` and emits a colour annotation at position 1. -/
theorem C13_unknown_name_with_token :
    EmojiMapType.count sampleEmojiMap (wstr "^1") = false
      ∧ parse samplePalette sampleEmojiMap (wstr ":^1:cool:")
        = some ([58, 0xFFFC, 32],
            [FormatSpecifier.ofColor 1 (samplePalette 1), FormatSpecifier.ofEmoji 1 (wstr "cool")])
      ∧ parse samplePalette sampleEmojiMap (wstr ":^1:cool:")
        ≠ some (wstr ":^1" ++ [0xFFFC, 32], [FormatSpecifier.ofEmoji 3 (wstr "cool")]) := by
  decide

/-- C13 (amended): unknown emoji names stay literal and the scan resumes just past the opening
colon.  For every registered non-empty name `n`, every name `u` (possibly empty) that is not
registered, and all texts `A`, `B`, where `n`, `u`, `A` and `B` contain none of `^`, `[`, `]`,
`:`, parsing `A ++ ":" ++ u ++ ":" ++ n ++ ":" ++ B` keeps `A ++ ":" ++ u` as literal text,
replaces `":" ++ n ++ ":"` by the placeholder (followed by a space when `B` is empty) and emits
the single annotation `Emoji(n)` at position `|A| + 1 + |u|`. -/
theorem C13_overlapping_emoji_candidate (C : Nat → Nat) (E : EmojiMapType) (A u n B : WString)
    (hu : plain u) (hun : E.count u = false)
    (hne : n ≠ []) (hreg : E.count n = true) (hn : plain n) (hA : plain A) (hB : plain B)
    (hlen : (A ++ [58] ++ u ++ [58] ++ n ++ [58] ++ B).length < SIZE_MOD) :
    parse C E (A ++ [58] ++ u ++ [58] ++ n ++ [58] ++ B)
      = some (if B = [] then A ++ [58] ++ u ++ [0xFFFC, 32] else A ++ [58] ++ u ++ [0xFFFC] ++ B,
          [FormatSpecifier.ofEmoji (A.length + 1 + u.length) n]) :=
  overlapping_emoji_parse C E A u n B hu hun hne hreg hn hA hB hlen

/-- C13 (witness): `a:b:cool:c`, where `b` is not registered. -/
theorem C13_overlapping_emoji_candidate_witness :
    parse samplePalette sampleEmojiMap
        (wstr "a" ++ [58] ++ wstr "b" ++ [58] ++ wstr "cool" ++ [58] ++ wstr "c")
      = some (if wstr "c" = [] then wstr "a" ++ [58] ++ wstr "b" ++ [0xFFFC, 32]
            else wstr "a" ++ [58] ++ wstr "b" ++ [0xFFFC] ++ wstr "c",
          [FormatSpecifier.ofEmoji ((wstr "a").length + 1 + (wstr "b").length) (wstr "cool")]) :=
  C13_overlapping_emoji_candidate samplePalette sampleEmojiMap (wstr "a") (wstr "b")
    (wstr "cool") (wstr "c")
    (by decide) (by decide) (by decide) (by decide) (by decide) (by decide) (by decide)
    (by decide)

/-- C14: wrap tie-break.  For a message without annotations, the annotation list after
`DivideIntoLines` is exactly the list of `Wrap` annotations at the indices of `wrapBreaksSpec`,
that is the indices `i` at which the pixel width already on the current line plus the advance
width of character `i` is strictly greater than the wrap width, and `Lines` is their number
plus one.  Hence, with non-negative advance widths, a text of total width at most the wrap
width gets no break and `Lines = 1`, and a text `T ++ [c]` with the width of `T` equal to the
wrap width and a positive width of `c` gets exactly one break, at `|T|`, and `Lines = 2`. -/
theorem C14_wrap_tie_break (chat : Chat) (cl : ChatMessage) (ChatMessageIndex : Int)
    (h : cl.FormatSpecifiers = []) :
    (DivideIntoLines chat cl ChatMessageIndex).1.FormatSpecifiers
        = (wrapBreaksSpec chat.CharWidth chat.MaxLineLength cl.ProcessedMsg 0 0).map wrapAt
      ∧ (DivideIntoLines chat cl ChatMessageIndex).1.Lines
        = Int.ofNat (wrapBreaksSpec chat.CharWidth chat.MaxLineLength
            cl.ProcessedMsg 0 0).length + 1
      ∧ ((∀ c ∈ cl.ProcessedMsg, 0 ≤ chat.CharWidth c) →
          chat.GetWidth cl.ProcessedMsg ≤ chat.MaxLineLength →
          (DivideIntoLines chat cl ChatMessageIndex).1.FormatSpecifiers = []
            ∧ (DivideIntoLines chat cl ChatMessageIndex).1.Lines = 1)
      ∧ (∀ (T : WString) (c : Nat), cl.ProcessedMsg = T ++ [c] →
          (∀ x ∈ T, 0 ≤ chat.CharWidth x) → chat.GetWidth T = chat.MaxLineLength →
          0 < chat.CharWidth c →
          (DivideIntoLines chat cl ChatMessageIndex).1.FormatSpecifiers = [wrapAt T.length]
            ∧ (DivideIntoLines chat cl ChatMessageIndex).1.Lines = 2) := by
  obtain ⟨h1, h2⟩ := DivideIntoLines_plain chat cl ChatMessageIndex h
  refine ⟨h1, h2, ?_, ?_⟩
  · intro hpos hw
    have e := wrapBreaksSpec_none chat.CharWidth chat.MaxLineLength cl.ProcessedMsg 0 0 hpos
      (by rw [zero_add]; exact hw)
    rw [h1, h2, e]
    exact ⟨rfl, rfl⟩
  · intro T c hT hpos hw hc
    have e := wrapBreaksSpec_one chat.CharWidth chat.MaxLineLength c hc T 0 0 hpos
      (by rw [zero_add]; exact hw)
    rw [h1, h2, hT, e, zero_add]
    exact ⟨rfl, rfl⟩

/-- C14 (witness): `abc` with a wrap width equal to the width of `ab` (20 pixels, 10 per
character) gets one break, at index 2, and two lines. -/
theorem C14_wrap_tie_break_witness :
    sampleChat.GetWidth (wstr "ab") = sampleChat.MaxLineLength
      ∧ (DivideIntoLines sampleChat (ChatMessage.ofText (wstr "abc") 7) 0).1.FormatSpecifiers
        = [wrapAt (wstr "ab").length]
      ∧ (DivideIntoLines sampleChat (ChatMessage.ofText (wstr "abc") 7) 0).1.Lines = 2 :=
  ⟨by decide,
    (C14_wrap_tie_break sampleChat (ChatMessage.ofText (wstr "abc") 7) 0 rfl).2.2.2
      (wstr "ab") 99 (by decide) (fun _ _ => (by decide : (0 : Int) ≤ 10)) (by decide)
      (by decide)⟩

/-- C15: for every message, wrap width and font metrics, the `Lines` set by `DivideIntoLines`
is at least 1; for a message whose processed text is empty it is exactly 1 and no segment is
written. -/
theorem C15_line_count_at_least_one (chat : Chat) (cl : ChatMessage) (ChatMessageIndex : Int) :
    1 ≤ (DivideIntoLines chat cl ChatMessageIndex).1.Lines
      ∧ (cl.ProcessedMsg = [] →
          (DivideIntoLines chat cl ChatMessageIndex).1.Lines = 1
            ∧ (DivideIntoLines chat cl ChatMessageIndex).2 = []) :=
  ⟨DivideIntoLines_Lines_pos chat cl ChatMessageIndex,
    DivideIntoLines_empty chat cl ChatMessageIndex⟩

/-- C15 (witness): the message parsed from `^1`, whose processed text is empty. -/
theorem C15_line_count_at_least_one_witness :
    (sampleParsed (wstr "^1")).ProcessedMsg = []
      ∧ (DivideIntoLines sampleChat (sampleParsed (wstr "^1")) 0).1.Lines = 1
      ∧ (DivideIntoLines sampleChat (sampleParsed (wstr "^1")) 0).2 = [] :=
  ⟨by decide,
    (C15_line_count_at_least_one sampleChat (sampleParsed (wstr "^1")) 0).2 (by decide)⟩

/-- C16 (evaluation at the failing input): the text `a:cool:^1x`, that is `A = a` and
`B = ^1x` around `:cool:` with `cool` registered.  Parsing leaves the text `a`, U+FFFC, `x` and
the annotation list `[Color at 7, Emoji at 1]`; layout, which walks the list with one forward
iterator, stops at the colour annotation at position 7 that no character index reaches, and so
writes a single text segment of length 3 and no emoji segment.  For the text `a:cool:b`, without
a token behind the emoji, it writes the text segment `[0, 1)`, the emoji segment at 1 of length 1
and the text segment starting at 2. -/
theorem C16_emoji_segment_missing_after_token :
    parse samplePalette sampleEmojiMap (wstr "a:cool:^1x")
        = some ([97, 0xFFFC, 120],
            [FormatSpecifier.ofColor 7 (samplePalette 1), FormatSpecifier.ofEmoji 1 (wstr "cool")])
      ∧ (DivideIntoLines sampleWideChat (sampleParsed (wstr "a:cool:^1x")) 0).2.map
          (fun s => (s.SegType, s.Offset, s.LengthInCharacters))
        = [(SegmentType.Text, 0, 3)]
      ∧ (DivideIntoLines sampleWideChat (sampleParsed (wstr "a:cool:b")) 0).2.map
          (fun s => (s.SegType, s.Offset, s.LengthInCharacters))
        = [(SegmentType.Text, 0, 1), (SegmentType.Emoji, 1, 1), (SegmentType.Text, 2, 1)] := by
  decide

/-- C17: `GetPos` returns no result (first component `false`) whenever the offset is greater
than the length of the processed text, and, for a non-zero font height, whenever the message is
not reached inside the visible window: it is not in the tab, or the `Lines` of the messages
behind it in the tab (the newer ones) total at least the limit
`(Output.y2 - Output.y1 - 10) / FontHeight`. -/
theorem C17_GetPos_no_result (chat : Chat) (tab : ChatTab) (c : ChatMessage)
    (cIndex : Option Nat) (Pos : Nat)
    (h : Pos > c.ProcessedMsg.length
      ∨ (chat.FontHeight ≠ 0
        ∧ ∀ j, cIndex = some j → j < tab.Messages.length →
          Int.tdiv (chat.GetOutputRect.y2 - chat.GetOutputRect.y1 - 10) chat.FontHeight
            ≤ ((tab.Messages.drop (j + 1)).map (fun m => m.Lines)).sum)) :
    GetPos chat tab c cIndex Pos = some (false, { x := 0, y := 0 }) := by
  rcases h with h | ⟨hF, h⟩
  · unfold GetPos
    rw [if_pos h]
  · exact GetPos_not_reached chat tab c cIndex Pos hF h

/-- C17 (witness): offset 3 in the message `ab`, beyond its length; and offset 1 in the same
message when four newer one-line messages fill the four visible lines. -/
theorem C17_GetPos_no_result_witness :
    GetPos sampleWideChat
        { Messages := [(DivideIntoLines sampleWideChat (sampleParsed (wstr "ab")) 0).1] }
        (DivideIntoLines sampleWideChat (sampleParsed (wstr "ab")) 0).1 (some 0) 3
      = some (false, { x := 0, y := 0 })
    ∧ GetPos sampleWideChat
        { Messages := (DivideIntoLines sampleWideChat (sampleParsed (wstr "ab")) 0).1
            :: List.replicate 4 (DivideIntoLines sampleWideChat (sampleParsed (wstr "x")) 0).1 }
        (DivideIntoLines sampleWideChat (sampleParsed (wstr "ab")) 0).1 (some 0) 1
      = some (false, { x := 0, y := 0 }) :=
  ⟨C17_GetPos_no_result sampleWideChat _ _ (some 0) 3 (Or.inl (by decide)),
    C17_GetPos_no_result sampleWideChat _ _ (some 0) 1
      (Or.inr ⟨by decide, fun j hj _ => by
        cases hj
        decide⟩)⟩

/-- C18: wrap breaks can be discarded without touching anything else.  For every message `m`
that `SubstituteFormatSpecifiers` returns on a fresh message, `m` holds no `Wrap` annotation,
`DivideIntoLines` leaves the processed text unchanged, and `ClearWrappingLineBreaks` applied to
the annotation list after layout gives back the annotation list of `m`, same elements in the
same order. -/
theorem C18_wrap_breaks_discardable (chat : Chat) (C : Nat → Nat) (E : EmojiMapType)
    (text : WString) (DefaultColor : Nat) (m : ChatMessage) (ChatMessageIndex : Int)
    (hparse : SubstituteFormatSpecifiers C E (ChatMessage.ofText text DefaultColor) = some m) :
    noWrap m.FormatSpecifiers
      ∧ (DivideIntoLines chat m ChatMessageIndex).1.ProcessedMsg = m.ProcessedMsg
      ∧ ClearWrappingLineBreaks (DivideIntoLines chat m ChatMessageIndex).1.FormatSpecifiers
        = m.FormatSpecifiers := by
  have hw : noWrap m.FormatSpecifiers :=
    SubstituteFormatSpecifiers_noWrap C E (ChatMessage.ofText text DefaultColor) m
      (fun f hf => by cases hf) hparse
  exact ⟨hw, DivideIntoLines_frame chat m ChatMessageIndex hw⟩

/-- C18 (witness): `^1abc[b]de` parsed and wrapped at two characters per line: layout inserts
two `Wrap` annotations among the two parsed ones, and removing them gives the parsed list
back. -/
theorem C18_wrap_breaks_discardable_witness :
    (DivideIntoLines sampleChat (sampleParsed (wstr "^1abc[b]de")) 0).1.FormatSpecifiers
        = [FormatSpecifier.ofColor 0 (samplePalette 1), wrapAt 2,
            FormatSpecifier.ofType 3 FormatSpecifierType.Bold, wrapAt 4]
      ∧ noWrap (sampleParsed (wstr "^1abc[b]de")).FormatSpecifiers
      ∧ (DivideIntoLines sampleChat (sampleParsed (wstr "^1abc[b]de")) 0).1.ProcessedMsg
        = (sampleParsed (wstr "^1abc[b]de")).ProcessedMsg
      ∧ ClearWrappingLineBreaks
          (DivideIntoLines sampleChat (sampleParsed (wstr "^1abc[b]de")) 0).1.FormatSpecifiers
        = (sampleParsed (wstr "^1abc[b]de")).FormatSpecifiers :=
  ⟨by decide,
    C18_wrap_breaks_discardable sampleChat samplePalette sampleEmojiMap (wstr "^1abc[b]de") 7
      (sampleParsed (wstr "^1abc[b]de")) 0 (by decide)⟩

/-- C19 (evaluation at the failing input): the text `:cool:x` with `cool` registered, laid out
with a wrap width of 100 pixels, advance widths of 10 pixels and an emoji width of 16 pixels.
The message gets `Lines = 1`, but both written segments, the emoji at pixel offset 0 and the
text `x` at pixel offset 16, carry `IsStartOfLine = true`: the emoji branch moves `Offset` and
`PixelOffsetX` of the pending text segment behind the emoji and leaves its `IsStartOfLine` as
it was at the emoji. -/
theorem C19_text_after_leading_emoji_flagged :
    (sampleParsed (wstr ":cool:x")).ProcessedMsg = [0xFFFC, 120]
      ∧ (DivideIntoLines sampleWideChat (sampleParsed (wstr ":cool:x")) 0).1.Lines = 1
      ∧ (DivideIntoLines sampleWideChat (sampleParsed (wstr ":cool:x")) 0).2.map
          (fun s => (s.SegType, s.Offset, s.PixelOffsetX, s.IsStartOfLine))
        = [(SegmentType.Emoji, 0, 0, true), (SegmentType.Text, 1, 16, true)]
      ∧ ((DivideIntoLines sampleWideChat (sampleParsed (wstr ":cool:x")) 0).2.filter
          (fun s => s.IsStartOfLine)).length = 2 := by
  decide

/-- C20 (evaluation at the failing input): the visible message parsed from `^1`, whose
processed text is empty, at offset 0.  `GetPos` accepts the offset (it is not greater than the
length) and then evaluates `ProcessedMsg.at(0)` on the empty text, which throws, where the
horizontal coordinate `Output.x1 + 5 = 5` is due; for the message `ab` the coordinates of the
offsets 0 and 1 are 5 and 15. -/
theorem C20_GetPos_of_empty_message :
    (DivideIntoLines sampleWideChat (sampleParsed (wstr "^1")) 0).1.ProcessedMsg = []
      ∧ GetPos sampleWideChat
          { Messages := [(DivideIntoLines sampleWideChat (sampleParsed (wstr "^1")) 0).1] }
          (DivideIntoLines sampleWideChat (sampleParsed (wstr "^1")) 0).1 (some 0) 0 = none
      ∧ GetPos sampleWideChat
          { Messages := [(DivideIntoLines sampleWideChat (sampleParsed (wstr "ab")) 0).1] }
          (DivideIntoLines sampleWideChat (sampleParsed (wstr "ab")) 0).1 (some 0) 0
        = some (true, { x := 5, y := 71 })
      ∧ GetPos sampleWideChat
          { Messages := [(DivideIntoLines sampleWideChat (sampleParsed (wstr "ab")) 0).1] }
          (DivideIntoLines sampleWideChat (sampleParsed (wstr "ab")) 0).1 (some 0) 1
        = some (true, { x := 15, y := 71 }) := by
  decide

/-- C21 (evaluation at the failing input): the text `abcdefghijkl` as the only message of the
tab, laid out in two lines of ten and two characters (`Output.y2 = 84`, `FontHeight = 16`).
For offset 11, on the last line, `GetPos` returns `y = 87`, below `Output.y2 - 5 = 79`, where
the lowest slot, centred at `79 - 8 = 71`, is due; for offset 3, on the first line, it returns
`y = 71`, the centre of the lowest slot, where the slot above, centred at 55, is due.
`DrawChatLines` draws the last line in the rectangle from `y1 = 63` and the first line in the
rectangle from `y1 = 47`. -/
theorem C21_GetPos_y_of_two_line_message :
    (DivideIntoLines sampleWideChat (sampleParsed (wstr "abcdefghijkl")) 0).1.Lines = 2
      ∧ GetPos sampleWideChat
          { Messages := [(DivideIntoLines sampleWideChat (sampleParsed (wstr "abcdefghijkl")) 0).1] }
          (DivideIntoLines sampleWideChat (sampleParsed (wstr "abcdefghijkl")) 0).1 (some 0) 11
        = some (true, { x := 15, y := 87 })
      ∧ GetPos sampleWideChat
          { Messages := [(DivideIntoLines sampleWideChat (sampleParsed (wstr "abcdefghijkl")) 0).1] }
          (DivideIntoLines sampleWideChat (sampleParsed (wstr "abcdefghijkl")) 0).1 (some 0) 3
        = some (true, { x := 35, y := 71 })
      ∧ sampleWideChat.GetOutputRect.y2 - 5 - (0 + 2 - 1 - 1) * sampleWideChat.FontHeight
          - sampleWideChat.FontHeight / 2 = 71
      ∧ (DrawChatLines sampleWideChat
          { Messages := [(DivideIntoLines sampleWideChat (sampleParsed (wstr "abcdefghijkl")) 0).1],
            LineSegments :=
              (DivideIntoLines sampleWideChat (sampleParsed (wstr "abcdefghijkl")) 0).2 } 4).map
          (fun p => (p.1.Offset, p.2.y1))
        = [(10, 63), (0, 47)] := by
  decide

/-- C22: half-character rounding.  For a line of a message whose first offset is `s` (as the
hit-test finds it: 0 for the first line, else the position of the line break before the line),
positive character widths, no NUL character, and a pixel offset `x > 0` smaller than the width
of the text from `s` on, the selection hit-test stores the offset that `hitTestSpec` picks:
the first character, walking from `s`, whose accumulated width exceeds `x`, or the character
before it when half of that character's width (integer division) is less than the excess of
the accumulated width over `x`. -/
theorem C22_half_character_rounding (chat : Chat) (cl : ChatMessage) (RelLine : Int) (s : Nat)
    (x : Int)
    (hstart : (if RelLine = 0 then some (0 : Int)
        else (cl.GetLineBreak (RelLine - 1)).map (fun f => f.nStartPos)) = some (s : Int))
    (hw : ∀ c ∈ cl.ProcessedMsg, 0 < chat.CharWidth c)
    (hnul : ∀ c ∈ cl.ProcessedMsg, c ≠ 0)
    (hx : 0 < x) (hin : x < chat.GetWidth (cl.ProcessedMsg.drop s)) :
    ∃ r, hitTestInMessage chat cl RelLine x = some r
      ∧ hitTestSpec chat.CharWidth x (cl.ProcessedMsg.drop s) (s : Int) 0 = some r :=
  hitTestInMessage_spec chat cl RelLine s x hstart hw hnul hx hin

/-- C22 (witness): the second line of `abcdef` wrapped at two characters (it starts at offset
2), clicked at `x = 14`: the accumulated width first exceeds 14 at offset 3, by 6, more than
half the width 10 of that character, so offset 2 is stored. -/
theorem C22_half_character_rounding_witness :
    hitTestSpec sampleChat.CharWidth 14 ((wstr "abcdef").drop 2) 2 0 = some 2
      ∧ ∃ r, hitTestInMessage sampleChat
            (DivideIntoLines sampleChat (sampleParsed (wstr "abcdef")) 0).1 1 14 = some r
          ∧ hitTestSpec sampleChat.CharWidth 14
              ((DivideIntoLines sampleChat (sampleParsed (wstr "abcdef")) 0).1.ProcessedMsg.drop 2)
              ((2 : Nat) : Int) 0 = some r :=
  ⟨by decide,
    C22_half_character_rounding sampleChat
      (DivideIntoLines sampleChat (sampleParsed (wstr "abcdef")) 0).1 1 2 14
      (by decide) (fun _ _ => (by decide : (0 : Int) < 10)) (by decide) (by decide) (by decide)⟩

/-- C23 (evaluation at the failing input): the text `ab^1cd^2ef` wrapped at two characters per
line.  Its annotation list `[Color 1 at 2, Color 2 at 4]` is ordered and holds colours only, yet
the segment at offset 4 carries colour 1, not colour 2: the wrap at index 2 inserts its
annotation in front of `Color 1 at 2` and sets the iterator behind the inserted element, back
on the annotation it has already handled, so `Color 2 at 4` is not under the iterator when the
index reaches 4.  For `a^1bc^2d`, where no token sits at a wrap position, the segment at offset
3 carries colour 2. -/
theorem C23_color_skipped_after_wrap_at_token :
    parse samplePalette sampleEmojiMap (wstr "ab^1cd^2ef")
        = some (wstr "abcdef",
            [FormatSpecifier.ofColor 2 (samplePalette 1), FormatSpecifier.ofColor 4 (samplePalette 2)])
      ∧ positionsSorted
          [FormatSpecifier.ofColor 2 (samplePalette 1), FormatSpecifier.ofColor 4 (samplePalette 2)]
      ∧ (DivideIntoLines sampleChat (sampleParsed (wstr "ab^1cd^2ef")) 0).2.map
          (fun s => (s.SegType, s.Offset, s.LengthInCharacters, s.TextColor))
        = [(SegmentType.Text, 0, 2, 7), (SegmentType.Text, 2, 2, samplePalette 1),
            (SegmentType.Text, 4, 2, samplePalette 1)]
      ∧ (DivideIntoLines sampleChat (sampleParsed (wstr "ab^1cd^2ef")) 0).1.FormatSpecifiers
        = [wrapAt 2, FormatSpecifier.ofColor 2 (samplePalette 1), wrapAt 4,
            FormatSpecifier.ofColor 4 (samplePalette 2)]
      ∧ (DivideIntoLines sampleChat (sampleParsed (wstr "a^1bc^2d")) 0).2.map
          (fun s => (s.SegType, s.Offset, s.LengthInCharacters, s.TextColor))
        = [(SegmentType.Text, 0, 1, 7), (SegmentType.Text, 1, 1, samplePalette 1),
            (SegmentType.Text, 2, 1, samplePalette 1), (SegmentType.Text, 3, 1, samplePalette 2)] := by
  decide

/-- C24: the inverse mapping agrees with the forward layout.  For every message that the parser
returns without an emoji annotation, laid out by `DivideIntoLines` and visible at index `j` of
the tab (fewer lines behind it than the visible line limit), with a processed text of fewer
than 65536 characters without a NUL character, no laid-out line of more than 1023 characters
(`GetPos` formats the characters from the start of the line to the offset, and a `_`, into the
1024-character buffer of `GetTextLength`), a wrap width below 65536 and advance widths between
0 and 65535: for every segment `s` that the layout writes for it, `GetPos` at the offset of `s`
returns the horizontal coordinate `Output.x1 + 5 + s.PixelOffsetX`. -/
theorem C24_GetPos_agrees_with_layout (chat : Chat) (C : Nat → Nat) (E : EmojiMapType)
    (text : WString) (DefaultColor : Nat) (m : ChatMessage) (ChatMessageIndex : Int)
    (tab : ChatTab) (j : Nat)
    (hparse : SubstituteFormatSpecifiers C E (ChatMessage.ofText text DefaultColor) = some m)
    (hE : noEmoji m.FormatSpecifiers)
    (hF : chat.FontHeight ≠ 0)
    (htab : tab.Messages[j]? = some (DivideIntoLines chat m ChatMessageIndex).1)
    (hvis : ∀ i, j ≤ i → i < tab.Messages.length →
      ((tab.Messages.drop (i + 1)).map (fun m => m.Lines)).sum
        < Int.tdiv (chat.GetOutputRect.y2 - chat.GetOutputRect.y1 - 10) chat.FontHeight)
    (hnul : ∀ x ∈ m.ProcessedMsg, x ≠ 0) (hlen : m.ProcessedMsg.length < 65536)
    (hline : (DivideIntoLines chat m ChatMessageIndex).1.linesAtMost 1023)
    (hW : chat.MaxLineLength < 65536)
    (hcw : ∀ c ∈ m.ProcessedMsg, 0 ≤ chat.CharWidth c ∧ chat.CharWidth c < 65536) :
    ∀ s ∈ (DivideIntoLines chat m ChatMessageIndex).2,
      ∃ y, GetPos chat tab (DivideIntoLines chat m ChatMessageIndex).1 (some j) s.Offset.toNat
        = some (true, { x := chat.GetOutputRect.x1 + 5 + s.PixelOffsetX, y := y }) := by
  obtain ⟨_, hL, _, _⟩ := SubstituteFormatSpecifiers_annotations C E text DefaultColor m hparse
  obtain ⟨B, hB1, hB2, hB3, hB4, hB5⟩ :=
    DivideIntoLines_line chat m ChatMessageIndex hL hE hlen hW hcw
  have hj : j < tab.Messages.length := by
    by_contra hc
    rw [List.getElem?_eq_none (by omega)] at htab
    cases htab
  intro s hs
  exact GetPos_of_aligned chat tab (DivideIntoLines chat m ChatMessageIndex).1 j B s hF hj hvis
    hnul hline hB1 hB2 hB3 hB4 (hB5 s hs)

/-- C24 (witness): `abcdefghijkl^1mn` in a window ten characters wide: the segments start at
the offsets 0, 10 and 12 with the pixel offsets 0, 0 and 20, and `GetPos` at offset 12 returns
`x = 25`, that is `Output.x1 + 5 + 20`. -/
theorem C24_GetPos_agrees_with_layout_witness :
    (DivideIntoLines sampleWideChat (sampleParsed (wstr "abcdefghijkl^1mn")) 0).2.map
        (fun s => (s.Offset, s.PixelOffsetX)) = [(0, 0), (10, 0), (12, 20)]
      ∧ GetPos sampleWideChat
          { Messages :=
              [(DivideIntoLines sampleWideChat (sampleParsed (wstr "abcdefghijkl^1mn")) 0).1] }
          (DivideIntoLines sampleWideChat (sampleParsed (wstr "abcdefghijkl^1mn")) 0).1 (some 0) 12
        = some (true, { x := 25, y := 87 })
      ∧ ∀ s ∈ (DivideIntoLines sampleWideChat (sampleParsed (wstr "abcdefghijkl^1mn")) 0).2,
          ∃ y, GetPos sampleWideChat
              { Messages :=
                  [(DivideIntoLines sampleWideChat (sampleParsed (wstr "abcdefghijkl^1mn")) 0).1] }
              (DivideIntoLines sampleWideChat (sampleParsed (wstr "abcdefghijkl^1mn")) 0).1
              (some 0) s.Offset.toNat
            = some (true, { x := sampleWideChat.GetOutputRect.x1 + 5 + s.PixelOffsetX, y := y }) :=
  ⟨by decide, by decide,
    C24_GetPos_agrees_with_layout sampleWideChat samplePalette sampleEmojiMap
      (wstr "abcdefghijkl^1mn") 7 (sampleParsed (wstr "abcdefghijkl^1mn")) 0
      { Messages :=
          [(DivideIntoLines sampleWideChat (sampleParsed (wstr "abcdefghijkl^1mn")) 0).1] } 0
      (by decide) (by decide) (by decide) rfl
      (fun i _ hi => by
        have hi' : i < 1 := hi
        obtain rfl : i = 0 := by omega
        decide)
      (by decide) (by decide) (linesAtMost_of_length _ 1023 (by decide) (by decide))
      (by decide)
      (fun _ _ => (by decide : (0 : Int) ≤ 10 ∧ (10 : Int) < 65536))⟩

/-- C26: the emitted segments partition the processed text.  For every message that the parser
returns, with a processed text of fewer than 65536 characters, and every chat window (wrap
width, font metrics, emoji map), the segments that `DivideIntoLines` writes, in the order
written, start at offset 0, each following segment starts at the offset plus the length of the
one before it, every length is at least 1, the last segment ends at the length of the processed
text, and the lengths sum to that length. -/
theorem C26_segments_partition_text (chat : Chat) (C : Nat → Nat) (E : EmojiMapType)
    (text : WString) (DefaultColor : Nat) (m : ChatMessage) (ChatMessageIndex : Int)
    (hparse : SubstituteFormatSpecifiers C E (ChatMessage.ofText text DefaultColor) = some m)
    (hlen : m.ProcessedMsg.length < 65536) :
    segmentsPartition (DivideIntoLines chat m ChatMessageIndex).2 0 m.ProcessedMsg.length
      ∧ ((DivideIntoLines chat m ChatMessageIndex).2.map (fun s => s.LengthInCharacters)).sum
        = m.ProcessedMsg.length := by
  obtain ⟨_, hL, hQ, _⟩ := SubstituteFormatSpecifiers_annotations C E text DefaultColor m hparse
  have h := DivideIntoLines_partition chat m ChatMessageIndex hL hQ hlen
  refine ⟨h, ?_⟩
  have := segmentsPartition_sum _ _ _ h
  omega

/-- C26 (witness): `^1a:cool:bcd` wrapped at two characters per line is written as the text
segment `[0, 1)`, the emoji at 1, and the text segments `[2, 4)` and `[4, 5)`. -/
theorem C26_segments_partition_text_witness :
    (DivideIntoLines sampleChat (sampleParsed (wstr "^1a:cool:bcd")) 0).2.map
        (fun s => (s.SegType, s.Offset, s.LengthInCharacters))
      = [(SegmentType.Text, 0, 1), (SegmentType.Emoji, 1, 1), (SegmentType.Text, 2, 2),
          (SegmentType.Text, 4, 1)]
    ∧ (sampleParsed (wstr "^1a:cool:bcd")).ProcessedMsg.length = 5
    ∧ segmentsPartition (DivideIntoLines sampleChat (sampleParsed (wstr "^1a:cool:bcd")) 0).2 0
        (sampleParsed (wstr "^1a:cool:bcd")).ProcessedMsg.length
    ∧ ((DivideIntoLines sampleChat (sampleParsed (wstr "^1a:cool:bcd")) 0).2.map
        (fun s => s.LengthInCharacters)).sum
      = (sampleParsed (wstr "^1a:cool:bcd")).ProcessedMsg.length :=
  ⟨by decide, by decide,
    C26_segments_partition_text sampleChat samplePalette sampleEmojiMap (wstr "^1a:cool:bcd") 7
      (sampleParsed (wstr "^1a:cool:bcd")) 0 (by decide) (by decide)⟩

/-- C27: no visual line overflows the budget.  For every message that the parser returns with
the emoji map of the chat window, with a processed text of fewer than 65536 characters, a wrap
width below 65536, and the advance width of every character of the text and the rendered width
of every emoji of the map between 0 and the wrap width: for every segment that
`DivideIntoLines` writes, its pixel offset plus the rendered width of its content (the sum of
the advance widths of its characters, or the width of its emoji) is at most the wrap width. -/
theorem C27_no_segment_overflows (chat : Chat) (C : Nat → Nat) (text : WString)
    (DefaultColor : Nat) (m : ChatMessage) (ChatMessageIndex : Int)
    (hparse : SubstituteFormatSpecifiers C chat.m_EmojiMap (ChatMessage.ofText text DefaultColor)
      = some m)
    (hlen : m.ProcessedMsg.length < 65536) (hW : chat.MaxLineLength < 65536)
    (hcw : ∀ c ∈ m.ProcessedMsg, 0 ≤ chat.CharWidth c ∧ chat.CharWidth c ≤ chat.MaxLineLength)
    (hew : ∀ name b, chat.m_EmojiMap.find name = some b →
      0 ≤ chat.EmojiWidth chat.FontHeight b
        ∧ chat.EmojiWidth chat.FontHeight b ≤ chat.MaxLineLength) :
    ∀ s ∈ (DivideIntoLines chat m ChatMessageIndex).2,
      s.PixelOffsetX + chat.segmentWidth m.ProcessedMsg s ≤ chat.MaxLineLength := by
  obtain ⟨_, hL, hQ, hR⟩ :=
    SubstituteFormatSpecifiers_annotations C chat.m_EmojiMap text DefaultColor m hparse
  exact DivideIntoLines_fit chat m ChatMessageIndex hL hQ hR hlen hW hcw hew

/-- C27 (witness): `^1a:cool:bcd` with a wrap width of 20, characters 10 pixels wide and an
emoji 16 pixels wide: the emoji does not fit behind `a` and opens a second line, `bc` a third
and `d` a fourth. -/
theorem C27_no_segment_overflows_witness :
    (DivideIntoLines sampleChat (sampleParsed (wstr "^1a:cool:bcd")) 0).2.map
        (fun s => (s.SegType, s.PixelOffsetX,
          sampleChat.segmentWidth (sampleParsed (wstr "^1a:cool:bcd")).ProcessedMsg s))
      = [(SegmentType.Text, 0, 10), (SegmentType.Emoji, 0, 16), (SegmentType.Text, 0, 20),
          (SegmentType.Text, 0, 10)]
    ∧ ∀ s ∈ (DivideIntoLines sampleChat (sampleParsed (wstr "^1a:cool:bcd")) 0).2,
        s.PixelOffsetX + sampleChat.segmentWidth (sampleParsed (wstr "^1a:cool:bcd")).ProcessedMsg s
          ≤ sampleChat.MaxLineLength :=
  ⟨by decide,
    C27_no_segment_overflows sampleChat samplePalette (wstr "^1a:cool:bcd") 7
      (sampleParsed (wstr "^1a:cool:bcd")) 0 (by decide) (by decide) (by decide)
      (fun _ _ => (by decide : (0 : Int) ≤ 10 ∧ (10 : Int) ≤ 20))
      (fun _ _ _ => (by decide : (0 : Int) ≤ 16 ∧ (16 : Int) ≤ 20))⟩

/-- C28 (evaluation at the failing input): the text `abcdefghi:cool:` with `cool` registered,
laid out with a wrap width of 100 pixels (ten characters) and an emoji width of 16.  The emoji
does not fit behind the nine characters and moves to a second line, so `Lines = 2`, but the
emoji branch inserts no `Wrap` annotation: the message holds no line-break annotation,
`GetLineBreak(0)` is null, and `GetPos` dereferences it for a visible offset. -/
theorem C28_emoji_wrap_without_annotation :
    (DivideIntoLines sampleWideChat (sampleParsed (wstr "abcdefghi:cool:")) 0).1.Lines = 2
      ∧ (DivideIntoLines sampleWideChat (sampleParsed (wstr "abcdefghi:cool:")) 0).1.FormatSpecifiers
        = [FormatSpecifier.ofEmoji 9 (wstr "cool")]
      ∧ (DivideIntoLines sampleWideChat (sampleParsed (wstr "abcdefghi:cool:")) 0).2.map
          (fun s => (s.SegType, s.Offset, s.PixelOffsetX, s.IsStartOfLine))
        = [(SegmentType.Text, 0, 0, true), (SegmentType.Emoji, 9, 0, true),
            (SegmentType.Text, 10, 16, false)]
      ∧ (DivideIntoLines sampleWideChat (sampleParsed (wstr "abcdefghi:cool:")) 0).1.GetLineBreak 0
        = none
      ∧ GetPos sampleWideChat
          { Messages :=
              [(DivideIntoLines sampleWideChat (sampleParsed (wstr "abcdefghi:cool:")) 0).1] }
          (DivideIntoLines sampleWideChat (sampleParsed (wstr "abcdefghi:cool:")) 0).1 (some 0) 3
        = none := by
  decide

/-- C29 (evaluation at the failing input): the message `ab` with characters 10 pixels wide,
clicked on its only line at `x = 1`, in the left half of its first character.  The walk stops
behind the first character, steps back onto it, and the half-width test then stores the offset
before it, `-1`; on the second line of `abcd` wrapped at two characters, which starts at offset
2, the click at `x = 3` stores offset 1. -/
theorem C29_hit_test_left_of_line_start :
    hitTestInMessage sampleChat
        (DivideIntoLines sampleChat (sampleParsed (wstr "ab")) 0).1 0 1 = some (-1)
      ∧ (DivideIntoLines sampleChat (sampleParsed (wstr "abcd")) 0).1.GetLineBreak 0
        = some (wrapAt 2)
      ∧ hitTestInMessage sampleChat
        (DivideIntoLines sampleChat (sampleParsed (wstr "abcd")) 0).1 1 3 = some 1 := by
  decide

/-- C30 (counterexample): the span `[hello]`, five characters between the brackets and no `/`,
is not kept: the processed text of `[hello]` is empty; and `a[bye]x` loses its span and yields
the annotation `Bold` at position 1. -/
theorem C30_long_bracket_span_not_kept :
    parse samplePalette sampleEmojiMap (wstr "[hello]") = some ([], [])
      ∧ parse samplePalette sampleEmojiMap (wstr "[hello]") ≠ some (wstr "[hello]", [])
      ∧ parse samplePalette sampleEmojiMap (wstr "a[bye]x")
        = some (wstr "ax", [FormatSpecifier.ofType 1 FormatSpecifierType.Bold]) := by
  decide

/-- C30 (amended): a bracket span is removed whatever its length.  For every text
`A ++ "[" ++ M ++ "]" ++ B` where `A` and `B` contain none of `^`, `[`, `]`, `:`, `M` has two or
more characters and no `]`, and the first character of `M` is not `/` and is mapped to
`Unknown` by `CharToFT`, parsing removes the span with its brackets and emits no annotation:
the processed text is `A ++ B`. -/
theorem C30_bracket_span_stripped (C : Nat → Nat) (E : EmojiMapType) (A M B : WString)
    (hM : 2 ≤ M.length) (h93 : ∀ c ∈ M, c ≠ 93) (hslash : M.getD 0 0 ≠ 47)
    (hft : CharToFT (M.getD 0 0) = FormatSpecifierType.Unknown)
    (hA : plain A) (hB : plain B) (hlen : (A ++ [91] ++ M ++ [93] ++ B).length < SIZE_MOD) :
    parse C E (A ++ [91] ++ M ++ [93] ++ B) = some (A ++ B, []) := by
  have hne : M ≠ [] := by
    intro h
    rw [h] at hM
    simp at hM
  rw [bracket_span_parse C E A M B hne h93 hA hB hlen, if_neg (fun h => hslash h.1),
    if_neg (fun h => h hft)]

/-- C30 (witness): `I like [cats] and dogs` loses the span `[cats]`. -/
theorem C30_bracket_span_stripped_witness :
    parse samplePalette sampleEmojiMap
        (wstr "I like " ++ [91] ++ wstr "cats" ++ [93] ++ wstr " and dogs")
      = some (wstr "I like " ++ wstr " and dogs", []) :=
  C30_bracket_span_stripped samplePalette sampleEmojiMap (wstr "I like ") (wstr "cats")
    (wstr " and dogs") (by decide) (by decide) (by decide) (by decide) (by decide) (by decide)
    (by decide)

end NewChat
